import Mathlib

/-!
Verification of the `tf-format` transform-set core (NEWSLabNTU/tftk).

We shallowly embed the Rust sources under `src/tf-format/src/transform_set/`:
`mutual_set.rs` (chain ledger with binary-doubling level tables),
`tset.rs` (group manager `TransformSet`), `topo_sort.rs` (bulk loader) and
`serialized.rs` (export to a fact list).

Modelling conventions:
* Rigid transforms (`nalgebra::Isometry3<f64>`) are modelled as elements of an
  arbitrary (not necessarily commutative) group `G` with decidable equality;
  the floating-point approximate comparison `abs_diff_eq!(_, _, epsilon)` is
  idealised as exact group equality.  Composition `a * b` mirrors the Rust
  `a * b` on isometries.
* `IndexMap` is modelled as an association list kept in insertion order with
  unique keys; inserting an existing key replaces its value in place,
  inserting a fresh key appends.
* `HashMap` / `HashSet` iteration order is unspecified in Rust; the model
  fixes insertion order.  The one place where this matters is noted at the
  definition (`MutualSet.merge`'s choice of a common coordinate, which is
  unique at every reachable call site).
* Rust panics (`unwrap`, slice indexing, arithmetic underflow) are modelled
  by an `Option` layer: `none` means the Rust code would panic.  `Result` is
  modelled by `Except`.
* Rust loops bounded only by machine-word width (`for nth in 0..usize::BITS`)
  or plain `while` loops are modelled with an explicit iteration budget that
  dominates the true iteration count for every input size; exhausting the
  budget reproduces the Rust behaviour of falling off the end of the loop
  (for the `for` loop) or is proven unreachable (for the `while` loops).
-/

namespace Tftk

set_option linter.unusedSectionVars false

/-! ### Generic list helpers (model of `IndexMap` / `HashMap` primitives) -/

/-- Replace the `i`-th element of a list by `f` of it (no-op when out of range). -/
def modifyNth {α : Type _} (f : α → α) : Nat → List α → List α
  | _, [] => []
  | 0, a :: as => f a :: as
  | n + 1, a :: as => a :: modifyNth f n as

@[simp] theorem modifyNth_nil {α : Type _} (f : α → α) (n : Nat) :
    modifyNth f n ([] : List α) = [] := by cases n <;> rfl

@[simp] theorem modifyNth_zero_cons {α : Type _} (f : α → α) (a : α) (as : List α) :
    modifyNth f 0 (a :: as) = f a :: as := rfl

@[simp] theorem modifyNth_succ_cons {α : Type _} (f : α → α) (n : Nat) (a : α) (as : List α) :
    modifyNth f (n + 1) (a :: as) = a :: modifyNth f n as := rfl

theorem length_modifyNth {α : Type _} (f : α → α) (n : Nat) (l : List α) :
    (modifyNth f n l).length = l.length := by
  induction l generalizing n with
  | nil => simp
  | cons a as ih => cases n <;> simp [ih]

theorem get?_modifyNth {α : Type _} (f : α → α) (n : Nat) (l : List α) (j : Nat) :
    (modifyNth f n l).get? j = if j = n then (l.get? j).map f else l.get? j := by
  induction l generalizing n j with
  | nil => simp
  | cons a as ih =>
    cases n with
    | zero =>
      cases j with
      | zero => simp
      | succ j => simp
    | succ n =>
      cases j with
      | zero => simp
      | succ j =>
        simp only [modifyNth_succ_cons, List.get?_cons_succ, ih]
        by_cases h : j = n
        · simp [h]
        · simp [h, Nat.succ_ne_succ.mpr h]

/-! ### Trailing zeros (model of `usize::trailing_zeros`) -/

/-- Iteration core for `trailingZeros`.  The budget `fuel` dominates the
number of halvings for every `n ≤ fuel`. -/
def tzAux : Nat → Nat → Nat
  | 0, _ => 0
  | fuel + 1, n => if n % 2 = 0 then tzAux fuel (n / 2) + 1 else 0

/-- Number of trailing zero bits of a positive natural (Rust
`usize::trailing_zeros`). -/
def trailingZeros (n : Nat) : Nat := tzAux n n

theorem tzAux_spec : ∀ fuel n, 0 < n → n ≤ fuel →
    ∃ m, n = 2 ^ tzAux fuel n * (2 * m + 1) := by
  intro fuel
  induction fuel with
  | zero => intro n hn hle; omega
  | succ fuel ih =>
    intro n hn hle
    by_cases h : n % 2 = 0
    · have hpos : 0 < n / 2 := by omega
      have hle' : n / 2 ≤ fuel := by omega
      obtain ⟨m, hm⟩ := ih (n / 2) hpos hle'
      refine ⟨m, ?_⟩
      have h2 : n = 2 * (n / 2) := by omega
      simp only [tzAux, h, if_true]
      calc n = 2 * (n / 2) := h2
        _ = 2 * (2 ^ tzAux fuel (n / 2) * (2 * m + 1)) := by rw [← hm]
        _ = 2 ^ (tzAux fuel (n / 2) + 1) * (2 * m + 1) := by ring
    · refine ⟨n / 2, ?_⟩
      simp only [tzAux, h, if_false, pow_zero, one_mul]
      omega

theorem trailingZeros_spec (n : Nat) (hn : 0 < n) :
    ∃ m, n = 2 ^ trailingZeros n * (2 * m + 1) :=
  tzAux_spec n n hn le_rfl

theorem pow_trailingZeros_le (n : Nat) (hn : 0 < n) : 2 ^ trailingZeros n ≤ n := by
  obtain ⟨m, hm⟩ := trailingZeros_spec n hn
  calc 2 ^ trailingZeros n = 2 ^ trailingZeros n * 1 := by ring
    _ ≤ 2 ^ trailingZeros n * (2 * m + 1) := by
        exact Nat.mul_le_mul_left _ (by omega)
    _ = n := hm.symm

theorem two_mul_xor (a b : Nat) : (2 * a) ^^^ (2 * b) = 2 * (a ^^^ b) := by
  apply Nat.eq_of_testBit_eq
  intro i
  cases i with
  | zero =>
    rw [Nat.testBit_xor, Nat.testBit_zero, Nat.testBit_zero, Nat.testBit_zero]
    have ha : 2 * a % 2 = 0 := by omega
    have hb : 2 * b % 2 = 0 := by omega
    have hab : 2 * (a ^^^ b) % 2 = 0 := by omega
    rw [ha, hb, hab]
    decide
  | succ i =>
    have key : ∀ x : Nat, (2 * x).testBit (i + 1) = x.testBit i := by
      intro x
      rw [Nat.testBit_succ]
      congr 1
      omega
    rw [Nat.testBit_xor, key, key, key, Nat.testBit_xor]

theorem pow_mul_xor (k a b : Nat) : (2 ^ k * a) ^^^ (2 ^ k * b) = 2 ^ k * (a ^^^ b) := by
  induction k generalizing a b with
  | zero => simp
  | succ k ih =>
    have h : ∀ x : Nat, 2 ^ (k + 1) * x = 2 ^ k * (2 * x) := by intro x; ring
    rw [h a, h b, h (a ^^^ b), ih, two_mul_xor]

theorem odd_xor_one (m : Nat) : (2 * m + 1) ^^^ 1 = 2 * m := by
  apply Nat.eq_of_testBit_eq
  intro i
  cases i with
  | zero =>
    rw [Nat.testBit_xor, Nat.testBit_zero, Nat.testBit_zero, Nat.testBit_zero]
    have h1 : (2 * m + 1) % 2 = 1 := by omega
    have h2 : 2 * m % 2 = 0 := by omega
    rw [h1, h2]
    decide
  | succ i =>
    have key : ∀ x : Nat, x.testBit (i + 1) = (x / 2).testBit i := fun x =>
      Nat.testBit_succ x i
    rw [Nat.testBit_xor, key, key, key]
    have h1 : (2 * m + 1) / 2 = m := by omega
    have h2 : (1 : Nat) / 2 = 0 := by omega
    have h3 : 2 * m / 2 = m := by omega
    rw [h1, h2, h3]
    simp

/-- Removing the lowest set bit: `n ^^^ (1 << n.trailing_zeros)` equals
`n - 2 ^ trailingZeros n`, the quantity the Rust range-decomposition loop
relies on (`diff ^= step`). -/
theorem xor_pow_trailingZeros (n : Nat) (hn : 0 < n) :
    n ^^^ 2 ^ trailingZeros n = n - 2 ^ trailingZeros n := by
  obtain ⟨m, hm⟩ := trailingZeros_spec n hn
  set t := trailingZeros n with ht
  calc n ^^^ 2 ^ t
      = (2 ^ t * (2 * m + 1)) ^^^ (2 ^ t * 1) := by rw [← hm, mul_one]
    _ = 2 ^ t * ((2 * m + 1) ^^^ 1) := pow_mul_xor _ _ _
    _ = 2 ^ t * (2 * m) := by rw [odd_xor_one]
    _ = n - 2 ^ t := by
        have hx : 2 ^ t * (2 * m + 1) = 2 ^ t * (2 * m) + 2 ^ t := by ring
        omega

/-! ### MutualSet: the chain ledger (`mutual_set.rs`)

`MutualSet.lookup` models `IndexMap<String, Vec<Isometry3<f64>>>`: an
insertion-ordered association list from frame names to their level tables.
`lookup[p][k]` holds the transform from the frame at position `p` to the
frame at position `p + 2^k`.  -/

variable {G : Type} [Group G] [DecidableEq G]

/-- `IndexMap::insert`: replace in place when the key exists, else append. -/
def idxInsert (k : String) (v : List G) : List (String × List G) → List (String × List G)
  | [] => [(k, v)]
  | (k', v') :: rest => if k' = k then (k, v) :: rest else (k', v') :: idxInsert k v rest

/-- `IndexMap::get_index_of`: position of a key in insertion order. -/
def getIndexOf : List (String × List G) → String → Option Nat
  | [], _ => none
  | e :: rest, s => if e.1 = s then some 0 else (getIndexOf rest s).map (· + 1)

/-- `MutualSet::get_by_pow_index`: `lookup.get_index(at).tf_list.get(pow)`. -/
def getByPow (l : List (String × List G)) (at_ pow : Nat) : Option G :=
  (l.get? at_).bind fun e => e.2.get? pow

/-- The `while diff != 0` loop of `MutualSet::get_by_range`.  `fuel` is an
iteration budget; each pass clears the lowest set bit of `diff`, so any
`fuel ≥ diff` reproduces the unbounded Rust loop (`rangeLoop_fuel_irrel`). -/
def rangeLoop (l : List (String × List G)) : Nat → Nat → Nat → G → Option G
  | 0, diff, _, prod => if diff = 0 then some prod else none
  | fuel + 1, diff, curr, prod =>
    if diff = 0 then some prod
    else
      let pow := trailingZeros diff
      let step := 2 ^ pow
      match getByPow l curr pow with
      | none => none
      | some tf => rangeLoop l fuel (diff ^^^ step) (curr + step) (prod * tf)

/-- `MutualSet::get_by_range`: compose the transforms along the binary
decomposition of the distance between two positions; `none` models both the
explicit `max >= lookup.len()` early return and a panicking `.unwrap()` on a
missing level entry.  The Rust computes `(min, max, inverse)` and runs one
loop; the two `if` branches here inline exactly those two orientations. -/
def getByRange (l : List (String × List G)) (start end_ : Nat) : Option G :=
  if start ≤ end_ then
    if end_ ≥ l.length then none
    else rangeLoop l (end_ - start) (end_ - start) start 1
  else
    if start ≥ l.length then none
    else (rangeLoop l (start - end_) (start - end_) end_ 1).map (·⁻¹)

/-- `InsertionError` (`error.rs`).  The Rust error converts the two
transforms into a diagnostic axis-angle format; that conversion is external
numeric glue, so the model carries the raw group elements. -/
inductive InsertionError (G : Type) where
  | inconsistentTransform (expect actual : G)
  | disjointCoordinates (src dst : String)
deriving DecidableEq

/-- The chain ledger of one connected group (`MutualSet`). -/
structure MutualSet (G : Type) where
  lookup : List (String × List G)
deriving DecidableEq

namespace MutualSet

def new : MutualSet G := ⟨[]⟩

/-- `MutualSet::get`. -/
def get (m : MutualSet G) (src dst : String) : Option G := do
  let si ← getIndexOf m.lookup src
  let di ← getIndexOf m.lookup dst
  getByRange m.lookup si di

/-- `MutualSet::coord_iter` (the keys in insertion order). -/
def coords (m : MutualSet G) : List String := m.lookup.map Prod.fst

/-- Push `t` onto the level table at position `idx`
(`lookup.get_index_mut(idx)… tf_list.push(latter_tf)`). -/
def pushAt (l : List (String × List G)) (idx : Nat) (t : G) : List (String × List G) :=
  modifyNth (fun e => (e.1, e.2 ++ [t])) idx l

/-- The `for nth in 0..usize::BITS` propagation loop of `MutualSet::insert`.
The budget `fuel` plays the role of `usize::BITS`: the Rust loop breaks via
`checked_sub` before `nth` can reach 64 for any list addressable in memory,
and the model's budget (`lastIdx + 1`) dominates the break point
(`2 ^ nth ≤ lastIdx`) for every size.  `none` models a panicking
out-of-range index. -/
def insertLoop : Nat → Nat → List (String × List G) → Nat → G → Option (List (String × List G))
  | 0, _, l, _, _ => some l
  | fuel + 1, nth, l, lastIdx, latter =>
    let offset := 2 ^ nth
    if offset ≤ lastIdx then
      let idx := lastIdx - offset
      if idx < l.length then
        let l' := pushAt l idx latter
        if idx < offset then some l'
        else
          let idx2 := idx - offset
          match getByPow l' idx2 nth with
          | none => none
          | some t2 => insertLoop fuel (nth + 1) l' lastIdx (t2 * latter)
      else none
    else none

/-- The shared tail of `MutualSet::insert` for the one-known-frame cases:
append `toBase` as a fresh last position and propagate the doubling entries.
`tf` is already oriented from the existing frame at `fromIdx` to `toBase`. -/
def appendCore (m : MutualSet G) (toBase : String) (fromIdx : Nat) (tf : G) :
    Option (MutualSet G) := do
  let l1 := idxInsert toBase [] m.lookup
  let lastIdx := l1.length - 1
  let former ← getByRange l1 fromIdx (lastIdx - 1)
  let latter := former⁻¹ * tf
  let l2 ← insertLoop (lastIdx + 1) 0 l1 lastIdx latter
  some ⟨l2⟩

/-- `MutualSet::insert`.  Outer `none` is a Rust panic; `Except.error` is the
returned `Err`. -/
def insert (m : MutualSet G) (src dst : String) (tf : G) :
    Option (Except (InsertionError G) (MutualSet G)) :=
  match getIndexOf m.lookup src, getIndexOf m.lookup dst with
  | none, none =>
      if m.lookup.isEmpty then
        some (.ok ⟨idxInsert dst [] (idxInsert src [tf] m.lookup)⟩)
      else some (.error (.disjointCoordinates src dst))
  | none, some dstIdx => (m.appendCore src dstIdx tf⁻¹).map .ok
  | some srcIdx, none => (m.appendCore dst srcIdx tf).map .ok
  | some srcIdx, some dstIdx =>
      match getByRange m.lookup srcIdx dstIdx with
      | none => none
      | some expect =>
          if tf = expect then some (.ok m)
          else some (.error (.inconsistentTransform expect tf))

/-- `MutualSet::merge`.  The Rust picks an arbitrary element of the
`HashSet` intersection of the two key sets; the model picks the first key of
`self` that also occurs in `other`.  At every call site in `tset.rs` the
intersection is a singleton, so the choice is immaterial there.  Outer
`none` is a panicking `.unwrap()` inside the replay loop. -/
def merge (m other : MutualSet G) :
    Option (Except (MutualSet G × MutualSet G) (MutualSet G)) :=
  match (m.lookup.map Prod.fst).find? (fun c => (getIndexOf other.lookup c).isSome) with
  | none => some (.error (m, other))
  | some common =>
      ((other.lookup.map Prod.fst).foldlM (fun (acc : MutualSet G) coord => do
          let tf ← other.get common coord
          match ← acc.insert common coord tf with
          | .ok m' => some m'
          | .error _ => none) m).map .ok

end MutualSet

/-! ### TransformSet: the group manager (`tset.rs`)

`coord_to_mid` models `HashMap<String, usize>` as a function (it is only
ever read and written pointwise).  `mid_to_set` models
`HashMap<usize, MutualSet>` as an association list; the Rust iteration
order of this map is unspecified, the model fixes insertion order. -/

/-- Pointwise `HashMap::insert` on the frame → group map. -/
def cmUpdate (c : String) (mid : Nat) (f : String → Option Nat) : String → Option Nat :=
  fun x => if x = c then some mid else f x

/-- `HashMap::insert` on the group-id → ledger map. -/
def midInsert (mid : Nat) (mset : MutualSet G) :
    List (Nat × MutualSet G) → List (Nat × MutualSet G)
  | [] => [(mid, mset)]
  | (k, m) :: rest =>
      if k = mid then (mid, mset) :: rest else (k, m) :: midInsert mid mset rest

/-- `HashMap::remove` on the group-id → ledger map. -/
def removeSet (mid : Nat) :
    List (Nat × MutualSet G) → Option (MutualSet G) × List (Nat × MutualSet G)
  | [] => (none, [])
  | (k, m) :: rest =>
      if k = mid then (some m, rest)
      else
        let (r, rest') := removeSet mid rest
        (r, (k, m) :: rest')

/-- A set of related or disjoint coordinate transformations (`TransformSet`). -/
structure TransformSet (G : Type) where
  mid : Nat
  coord_to_mid : String → Option Nat
  mid_to_set : List (Nat × MutualSet G)

namespace TransformSet

def new : TransformSet G := ⟨0, fun _ => none, []⟩

def lookupSet (ts : TransformSet G) (mid : Nat) : Option (MutualSet G) :=
  (ts.mid_to_set.find? (fun e => e.1 = mid)).map Prod.snd

/-- `TransformSet::get`. -/
def get (ts : TransformSet G) (src dst : String) : Option G := do
  let srcMid ← ts.coord_to_mid src
  let dstMid ← ts.coord_to_mid dst
  if srcMid ≠ dstMid then none
  else do
    let mset ← ts.lookupSet srcMid
    mset.get src dst

/-- `TransformSet::contains_coord`. -/
def contains_coord (ts : TransformSet G) (c : String) : Bool :=
  (ts.coord_to_mid c).isSome

/-- The `for coord in chain!(…)` re-registration loop of the cross-group
insert branch; `none` models the panicking `coord_to_mid.get_mut(coord)
.unwrap()` on an unregistered coordinate. -/
def cmSetAll (coords : List String) (mid : Nat) :
    (String → Option Nat) → Option (String → Option Nat)
  | cm =>
    coords.foldlM
      (fun acc c => if (acc c).isSome then some (cmUpdate c mid acc) else none) cm

/-- `TransformSet::insert`.  The result carries the post-call state so that
the mutations the Rust code performs before a fallible step (the `next_mid`
counter bump, the early `coord_to_mid` registration) are preserved on the
error path exactly as in the source.  Outer `none` is a Rust panic. -/
def insert (ts : TransformSet G) (src dst : String) (tf : G) :
    Option (Except (InsertionError G) Unit × TransformSet G) :=
  match ts.coord_to_mid src, ts.coord_to_mid dst with
  | none, none =>
      let newMid := ts.mid
      let ts1 : TransformSet G := { ts with mid := ts.mid + 1 }
      match MutualSet.new.insert src dst tf with
      | none => none
      | some (.error e) => some (.error e, ts1)
      | some (.ok newSet) =>
          some (.ok (), { ts1 with
            mid_to_set := midInsert newMid newSet ts1.mid_to_set
            coord_to_mid := cmUpdate dst newMid (cmUpdate src newMid ts.coord_to_mid) })
  | none, some dstMid =>
      let cm := cmUpdate src dstMid ts.coord_to_mid
      match ts.lookupSet dstMid with
      | none => none
      | some mset =>
          match mset.insert src dst tf with
          | none => none
          | some (.error e) => some (.error e, { ts with coord_to_mid := cm })
          | some (.ok m') =>
              some (.ok (), { ts with
                              coord_to_mid := cm
                              mid_to_set := midInsert dstMid m' ts.mid_to_set })
  | some srcMid, none =>
      let cm := cmUpdate dst srcMid ts.coord_to_mid
      match ts.lookupSet srcMid with
      | none => none
      | some mset =>
          match mset.insert src dst tf with
          | none => none
          | some (.error e) => some (.error e, { ts with coord_to_mid := cm })
          | some (.ok m') =>
              some (.ok (), { ts with
                              coord_to_mid := cm
                              mid_to_set := midInsert srcMid m' ts.mid_to_set })
  | some srcMid, some dstMid =>
      if srcMid ≠ dstMid then
        let newMid := ts.mid
        match removeSet srcMid ts.mid_to_set with
        | (none, _) => none
        | (some srcSet, rest1) =>
          match removeSet dstMid rest1 with
          | (none, _) => none
          | (some dstSet, rest2) =>
            match cmSetAll (srcSet.coords ++ dstSet.coords) newMid ts.coord_to_mid with
            | none => none
            | some cm =>
              match srcSet.insert src dst tf with
              | some (.ok srcSet') =>
                  match srcSet'.merge dstSet with
                  | some (.ok newSet) =>
                      some (.ok (), { mid := ts.mid + 1
                                      coord_to_mid := cm
                                      mid_to_set := midInsert newMid newSet rest2 })
                  | _ => none
              | _ => none
      else
        match ts.lookupSet srcMid with
        | none => none
        | some mset =>
          match mset.insert src dst tf with
          | none => none
          | some (.error e) => some (.error e, ts)
          | some (.ok m') =>
              some (.ok (), { ts with mid_to_set := midInsert srcMid m' ts.mid_to_set })

end TransformSet

/-! ### Topological grouper / bulk loader (`topo_sort.rs`)

Specialised to `T = String` (the source instantiates it at `Rc<String>`).
`nodes` models `IndexSet<T>` (insertion order, deduplicated); `edges`
models `HashMap<T, IndexSet<T>>` as an association list of ordered
adjacency lists. -/

/-- `IndexSet::insert` (no-op when present, else append). -/
def addNode (n : String) (l : List String) : List String :=
  if n ∈ l then l else l ++ [n]

/-- `edges.entry(a).or_default().insert(b)`. -/
def addAdj (a b : String) : List (String × List String) → List (String × List String)
  | [] => [(a, [b])]
  | (k, vs) :: rest =>
      if k = a then (k, if b ∈ vs then vs else vs ++ [b]) :: rest
      else (k, vs) :: addAdj a b rest

/-- `edges.remove(&x)`: the removed adjacency (if any) and the rest. -/
def removeAdj (x : String) :
    List (String × List String) → Option (List String) × List (String × List String)
  | [] => (none, [])
  | (k, vs) :: rest =>
      if k = x then (some vs, rest)
      else ((removeAdj x rest).1, (k, vs) :: (removeAdj x rest).2)

structure TopoSort where
  nodes : List String
  edges : List (String × List String)

structure Component where
  start : String
  seq : List (String × String)
deriving DecidableEq

namespace TopoSort

def new : TopoSort := ⟨[], []⟩

/-- `TopologicalSort::insert_edge`. -/
def insertEdge (t : TopoSort) (a b : String) : TopoSort :=
  if a = b then { t with nodes := addNode a t.nodes }
  else
    { nodes := addNode b (addNode a t.nodes),
      edges := addAdj b a (addAdj a b t.edges) }

/-- Total size of the adjacency structure (bounds the BFS workload). -/
def edgesSize (edges : List (String × List String)) : Nat :=
  (edges.map (fun e => e.2.length)).sum

/-- The `while let Some((prev, curr)) = fronts.pop_front()` loop of
`TopologicalSort::sort`.  Each pass removes a front and pushes the
adjacency of a newly visited node, so `fronts.length + edgesSize edges`
strictly decreases; any `fuel` above that bounds the loop
(`bfsLoop_enough`).  Returns the visit sequence, the visited set and the
remaining edges. -/
def bfsLoop : Nat → List (String × String) → List String → List (String × List String) →
    Option (List (String × String) × List String × List (String × List String))
  | 0, _, _, _ => none
  | _ + 1, [], visited, edges => some ([], visited, edges)
  | fuel + 1, (prev, curr) :: fronts, visited, edges =>
    if curr ∈ visited then bfsLoop fuel fronts visited edges
    else
      let r := removeAdj curr edges
      let nexts := r.1.getD []
      match bfsLoop fuel (fronts ++ nexts.map (fun n => (curr, n))) (visited ++ [curr]) r.2 with
      | none => none
      | some (seq, v', e') => some ((prev, curr) :: seq, v', e')

/-- The per-start `filter_map` body of `TopologicalSort::sort`, folded over
the node list in insertion order, threading the visited set and the
remaining edges. -/
def sortCore : List String → List String → List (String × List String) →
    Option (List Component)
  | [], _, _ => some []
  | n :: rest, visited, edges =>
    if n ∈ visited then sortCore rest visited edges
    else
      let r := removeAdj n edges
      let fronts := (r.1.getD []).map (fun x => (n, x))
      match bfsLoop (fronts.length + edgesSize r.2 + 1) fronts (visited ++ [n]) r.2 with
      | none => none
      | some (seq, visited', edges'') =>
        match sortCore rest visited' edges'' with
        | none => none
        | some comps => some (⟨n, seq⟩ :: comps)

/-- `TopologicalSort::sort`.  `none` would mean an exhausted iteration
budget; `sort_isSome` below shows this never happens. -/
def sort (t : TopoSort) : Option (List Component) :=
  sortCore t.nodes [] t.edges

end TopoSort

/-! ### Bulk build (`TransformSet::try_from_iter`) and export
(`serialized.rs`) -/

/-- One fact of the serialized fact list (`CoordTransform`); the
`Transform` ↔ `Isometry3` encoding conversion is external numeric glue and
is dropped. -/
structure CoordTransform (G : Type) where
  src : String
  dst : String
  tf : G
deriving DecidableEq

/-- `adj.entry(s).or_default().insert(d, t)` on the doubly-nested adjacency
`HashMap`: later writes to the same ordered pair overwrite earlier ones. -/
def updAdj (adj : String → String → Option G) (s d : String) (t : G) :
    String → String → Option G :=
  fun x y => if x = s ∧ y = d then some t else adj x y

/-- The fact-ingestion loop of `try_from_iter`: validates self-loops,
builds the two-directional adjacency and feeds the topological sorter. -/
def buildAdj : List (CoordTransform G) → (String → String → Option G) → TopoSort →
    Except (InsertionError G) ((String → String → Option G) × TopoSort)
  | [], adj, topo => .ok (adj, topo)
  | c :: rest, adj, topo =>
    if c.src = c.dst then
      if c.tf = 1 then buildAdj rest adj (topo.insertEdge c.src c.dst)
      else .error (.inconsistentTransform 1 c.tf)
    else
      buildAdj rest (updAdj (updAdj adj c.dst c.src c.tf⁻¹) c.src c.dst c.tf)
        (topo.insertEdge c.src c.dst)

/-- The per-component ledger construction of `try_from_iter`: feed the walk
edges into a fresh `MutualSet`.  `none` models the panicking `adj[&src][&dst]`
indexing or `insert(..).unwrap()`. -/
def buildMSet (adj : String → String → Option G) :
    List (String × String) → MutualSet G → Option (MutualSet G)
  | [], m => some m
  | (src, dst) :: rest, m => do
      let tf ← adj src dst
      match ← m.insert src dst tf with
      | .ok m' => buildMSet adj rest m'
      | .error _ => none

/-- The `coord_to_mid` reconstruction of `try_from_iter` (collect every
coordinate of every ledger, mapped to its group id). -/
def coordMapOf (sets : List (Nat × MutualSet G)) : String → Option Nat :=
  sets.foldl
    (fun acc e => e.2.coords.foldl (fun acc2 c => cmUpdate c e.1 acc2) acc)
    (fun _ => none)

/-- `TransformSet::try_from_iter`.  Outer `none` is a Rust panic (or an
exhausted iteration budget, shown unreachable); `Except.error` is the
returned `Err`. -/
def tryFromIter (facts : List (CoordTransform G)) :
    Option (Except (InsertionError G) (TransformSet G)) :=
  match buildAdj facts (fun _ _ => none) TopoSort.new with
  | .error e => some (.error e)
  | .ok (adj, topo) => do
      let comps ← topo.sort
      let sets ← comps.enum.mapM
        (fun e => (buildMSet adj e.2.seq MutualSet.new).map (fun m => (e.1, m)))
      some (.ok ⟨sets.length, coordMapOf sets, sets⟩)

/-- `tuple_windows` export of one ledger: one fact per adjacent chain pair,
carrying the level-0 transform.  `none` models the panicking `tf_list[0]`
on a position with an empty level table. -/
def chainFacts : List (String × List G) → Option (List (CoordTransform G))
  | [] => some []
  | [_] => some []
  | (s, tl) :: (d, l2) :: rest => do
      let t ← tl.get? 0
      let tail ← chainFacts ((d, l2) :: rest)
      some (⟨s, d, t⟩ :: tail)

/-- `From<TransformSet> for SerializedTransformSet`: concatenate the chain
facts of every ledger, in map iteration order. -/
def TransformSet.toFacts (ts : TransformSet G) : Option (List (CoordTransform G)) :=
  ts.mid_to_set.foldrM (fun e acc => (chainFacts e.2.lookup).map (· ++ acc)) []

/-! ### Specification-side definitions

The structural invariant of a chain ledger is phrased through a *potential*:
an assignment of a group element to every frame such that the entry for the
span `p → q` is always `f(frame p) * f(frame q)⁻¹`.  Every ledger the code
builds satisfies this for some potential, and it packages both the
telescoping invariant and the exact shape of the level tables. -/

/-- Name of the frame at position `p` (junk `""` out of range). -/
def keyD (l : List (String × List G)) (p : Nat) : String :=
  ((l.get? p).map Prod.fst).getD ""

/-- Position-indexed potential invariant: the level entry `L[p][k]` exists
iff `p + 2^k` is a valid position, and then equals
`g p * (g (p + 2^k))⁻¹`. -/
def SpannedPos (g : Nat → G) (l : List (String × List G)) : Prop :=
  ∀ p k, getByPow l p k =
    if p + 2 ^ k < l.length then some (g p * (g (p + 2 ^ k))⁻¹) else none

/-- Name-indexed potential invariant of a ledger, plus key uniqueness
(an `IndexMap` cannot contain duplicate keys). -/
def MutualSet.Spanned (f : String → G) (m : MutualSet G) : Prop :=
  (m.lookup.map Prod.fst).Nodup ∧ SpannedPos (fun p => f (keyD m.lookup p)) m.lookup

/-- Intermediate shape of the ledger during the `insert` propagation loop
over the enlarged chain `0 … L`: spans lying strictly inside the old chain
are fully populated, spans reaching the new last position `L` exist exactly
for levels below `nth`. -/
def LoopInv (g : Nat → G) (L nth : Nat) (l : List (String × List G)) : Prop :=
  l.length = L + 1 ∧
  ∀ p k, getByPow l p k =
    if p + 2 ^ k < L ∨ (p + 2 ^ k = L ∧ k < nth) then some (g p * (g (p + 2 ^ k))⁻¹)
    else none

/-- Structural invariant of a `TransformSet`, satisfied by every state the
public API can produce. -/
structure TSInv (ts : TransformSet G) : Prop where
  nodupMids : (ts.mid_to_set.map Prod.fst).Nodup
  midLt : ∀ e ∈ ts.mid_to_set, e.1 < ts.mid
  spanned : ∀ e ∈ ts.mid_to_set, ∃ f, MutualSet.Spanned f e.2
  coordIff : ∀ c mid, ts.coord_to_mid c = some mid ↔
      ∃ mset, (mid, mset) ∈ ts.mid_to_set ∧ c ∈ mset.coords

/-- States reachable through the public constructors and mutators of
`TransformSet` (fresh set, successful incremental inserts, bulk build). -/
inductive Reachable : TransformSet G → Prop
  | new : Reachable TransformSet.new
  | insert_ok {ts ts' : TransformSet G} {s d : String} {t : G} :
      Reachable ts → ts.insert s d t = some (.ok (), ts') → Reachable ts'
  | ofIter {l : List (CoordTransform G)} {ts : TransformSet G} :
      tryFromIter l = some (.ok ts) → Reachable ts

/-- Adjacency list stored for `x` (empty when `x` has no entry). -/
def adjL (edges : List (String × List String)) (x : String) : List String :=
  ((edges.find? (fun e => e.1 = x)).map Prod.snd).getD []

/-- Validity of a breadth-first visit sequence relative to an adjacency
function: each step goes from an already-collected member to a fresh
neighbour. -/
def ChainOk (A : String → List String) : List String → List (String × String) → Prop
  | _, [] => True
  | members, (p, c) :: rest =>
      p ∈ members ∧ c ∉ members ∧ c ∈ A p ∧ ChainOk A (members ++ [c]) rest

/-- All frames of a component, start first, in visit order. -/
def nodesOf (comp : Component) : List String :=
  comp.start :: comp.seq.map Prod.snd

/-- Undirected edge relation of a fact list (self-loops excluded, exactly
as `insert_edge` stores no adjacency for them). -/
def EdgeRel (l : List (CoordTransform G)) (a b : String) : Prop :=
  a ≠ b ∧ ∃ t, (⟨a, b, t⟩ : CoordTransform G) ∈ l ∨ (⟨b, a, t⟩ : CoordTransform G) ∈ l

/-- `a` and `b` answerable by an index built from `l`: connected in the
undirected fact graph, and `a` is an endpoint of at least one real edge
(frames appearing only in self-loops are never registered). -/
def Conn (l : List (CoordTransform G)) (a b : String) : Prop :=
  Relation.ReflTransGen (EdgeRel l) a b ∧ ∃ y, EdgeRel l a y

/-- The fact list is consistent with the potential `F`: every asserted
transform is the difference of the endpoint potentials.  This is the
formal reading of "a consistent fact list". -/
def ConsistentWith (F : String → G) (l : List (CoordTransform G)) : Prop :=
  ∀ c ∈ l, c.tf = F c.src * (F c.dst)⁻¹

/-- Concrete carrier group used for witnesses and counterexamples. -/
abbrev Gw := Multiplicative ℤ

/-- Shorthand for concrete witness transforms. -/
def gw (n : ℤ) : Gw := Multiplicative.ofAdd n

/-! ## Theorems -/

/-! ### Index lookup facts -/

theorem getIndexOf_eq_none {l : List (String × List G)} {s : String} :
    getIndexOf l s = none ↔ s ∉ l.map Prod.fst := by
  induction l with
  | nil => simp [getIndexOf]
  | cons e rest ih =>
    by_cases h : e.1 = s
    · simp [getIndexOf, h]
    · simp only [getIndexOf, h, if_false, List.map_cons, List.mem_cons]
      rw [Option.map_eq_none', ih]
      have h' : ¬ s = e.1 := fun hh => h hh.symm
      simp [h']

theorem getIndexOf_some {l : List (String × List G)} {s : String} {i : Nat}
    (h : getIndexOf l s = some i) : i < l.length ∧ keyD l i = s := by
  induction l generalizing i with
  | nil => simp [getIndexOf] at h
  | cons e rest ih =>
    by_cases he : e.1 = s
    · simp only [getIndexOf, he, if_true, Option.some_inj] at h
      subst h
      simp [keyD, he]
    · simp only [getIndexOf, he, if_false] at h
      rcases Option.map_eq_some'.mp h with ⟨j, hj, hji⟩
      subst hji
      obtain ⟨h1, h2⟩ := ih hj
      constructor
      · simpa using Nat.succ_lt_succ h1
      · simpa [keyD] using h2

theorem getIndexOf_mem {l : List (String × List G)} {s : String}
    (h : s ∈ l.map Prod.fst) : ∃ i, getIndexOf l s = some i := by
  cases hg : getIndexOf l s with
  | none => exact absurd h (getIndexOf_eq_none.mp hg)
  | some i => exact ⟨i, rfl⟩

theorem keyD_mem {l : List (String × List G)} {p : Nat} (h : p < l.length) :
    keyD l p ∈ l.map Prod.fst := by
  rw [keyD, List.get?_eq_get h]
  exact List.mem_map_of_mem _ (List.get_mem l p h)

/-! ### Range composition: the binary decomposition loop -/

theorem rangeLoop_spec (l : List (String × List G)) (g : Nat → G) (B : Nat)
    (hg : ∀ p k, p + 2 ^ k ≤ B → getByPow l p k = some (g p * (g (p + 2 ^ k))⁻¹)) :
    ∀ fuel diff curr prod, diff ≤ fuel → curr + diff ≤ B →
      rangeLoop l fuel diff curr prod = some (prod * (g curr * (g (curr + diff))⁻¹)) := by
  intro fuel
  induction fuel with
  | zero =>
    intro diff curr prod hdf hcb
    have : diff = 0 := Nat.le_zero.mp hdf
    subst this
    simp [rangeLoop]
  | succ fuel ih =>
    intro diff curr prod hdf hcb
    by_cases hd : diff = 0
    · subst hd
      simp [rangeLoop]
    · have hdpos : 0 < diff := Nat.pos_of_ne_zero hd
      have hstep_le : 2 ^ trailingZeros diff ≤ diff := pow_trailingZeros_le diff hdpos
      have hxor : diff ^^^ 2 ^ trailingZeros diff = diff - 2 ^ trailingZeros diff :=
        xor_pow_trailingZeros diff hdpos
      have hentry : getByPow l curr (trailingZeros diff) =
          some (g curr * (g (curr + 2 ^ trailingZeros diff))⁻¹) := by
        apply hg
        omega
      have hstep_pos : 0 < 2 ^ trailingZeros diff := Nat.pos_pow_of_pos _ (by omega)
      have hrec := ih (diff ^^^ 2 ^ trailingZeros diff) (curr + 2 ^ trailingZeros diff)
        (prod * (g curr * (g (curr + 2 ^ trailingZeros diff))⁻¹))
        (by omega) (by omega)
      simp only [rangeLoop, hd, if_false, hentry]
      rw [hrec]
      congr 1
      have harith : curr + 2 ^ trailingZeros diff + (diff ^^^ 2 ^ trailingZeros diff)
          = curr + diff := by omega
      rw [harith]
      group

theorem getByRange_spec (l : List (String × List G)) (g : Nat → G) (B : Nat)
    (hg : ∀ p k, p + 2 ^ k ≤ B → getByPow l p k = some (g p * (g (p + 2 ^ k))⁻¹))
    (hB : B < l.length) (s e : Nat) (hs : s ≤ B) (he : e ≤ B) :
    getByRange l s e = some (g s * (g e)⁻¹) := by
  by_cases hse : s ≤ e
  · have hlt : ¬ e ≥ l.length := by omega
    have hloop := rangeLoop_spec l g B hg (e - s) (e - s) s 1 le_rfl (by omega)
    have harith : s + (e - s) = e := by omega
    rw [harith] at hloop
    rw [getByRange, if_pos hse, if_neg hlt, hloop, one_mul]
  · have hlt : ¬ s ≥ l.length := by omega
    have hloop := rangeLoop_spec l g B hg (s - e) (s - e) e 1 le_rfl (by omega)
    have harith : e + (s - e) = s := by omega
    rw [harith] at hloop
    rw [getByRange, if_neg hse, if_neg hlt, hloop]
    simp only [Option.map_some']
    congr 1
    group

/-- `get` on a spanned ledger answers with the potential difference, for
any two member frames. -/
theorem MutualSet.get_spec (m : MutualSet G) (f : String → G) (h : m.Spanned f)
    {a b : String} (ha : a ∈ m.coords) (hb : b ∈ m.coords) :
    m.get a b = some (f a * (f b)⁻¹) := by
  obtain ⟨hnodup, hpos⟩ := h
  obtain ⟨i, hi⟩ := getIndexOf_mem (l := m.lookup) (s := a) ha
  obtain ⟨j, hj⟩ := getIndexOf_mem (l := m.lookup) (s := b) hb
  obtain ⟨hilt, hikey⟩ := getIndexOf_some hi
  obtain ⟨hjlt, hjkey⟩ := getIndexOf_some hj
  have hlen : 0 < m.lookup.length := by omega
  have hrange := getByRange_spec m.lookup (fun p => f (keyD m.lookup p))
    (m.lookup.length - 1)
    (by
      intro p k hpk
      have hlt : p + 2 ^ k < m.lookup.length := by omega
      rw [hpos p k, if_pos hlt])
    (by omega) i j (by omega) (by omega)
  simp only at hrange
  rw [hikey, hjkey] at hrange
  simp [MutualSet.get, hi, hj, hrange]

/-! ### The append-time propagation loop -/

theorem length_eq_of_get?_iff {α : Type _} {tl : List α} {n : Nat}
    (h : ∀ k, (tl.get? k).isSome ↔ k < n) : tl.length = n := by
  rcases Nat.lt_trichotomy tl.length n with hlt | heq | hgt
  · have h1 := (h tl.length).mpr hlt
    rw [List.get?_eq_none.mpr le_rfl] at h1
    simp at h1
  · exact heq
  · have h2 : (tl.get? n).isSome := by
      rw [List.get?_eq_get hgt]
      simp
    have := (h n).mp h2
    omega

theorem get?_append_singleton {α : Type _} (l : List α) (a : α) (k : Nat) :
    (l ++ [a]).get? k =
      if k < l.length then l.get? k else if k = l.length then some a else none := by
  by_cases h1 : k < l.length
  · rw [if_pos h1, List.get?_append h1]
  · rw [if_neg h1]
    by_cases h2 : k = l.length
    · subst h2
      rw [if_pos rfl, List.get?_concat_length]
    · rw [if_neg h2, List.get?_eq_none.mpr]
      simp only [List.length_append, List.length_singleton]
      omega

theorem map_fst_pushAt (l : List (String × List G)) (idx : Nat) (t : G) :
    (MutualSet.pushAt l idx t).map Prod.fst = l.map Prod.fst := by
  unfold MutualSet.pushAt
  induction l generalizing idx with
  | nil => simp
  | cons e rest ih => cases idx <;> simp [ih]

theorem length_pushAt (l : List (String × List G)) (idx : Nat) (t : G) :
    (MutualSet.pushAt l idx t).length = l.length :=
  length_modifyNth _ _ _

theorem getByPow_pushAt (l : List (String × List G)) {idx : Nat} {e : String × List G}
    (he : l.get? idx = some e) (t : G) (p k : Nat) :
    getByPow (MutualSet.pushAt l idx t) p k =
      if p = idx then
        if k < e.2.length then e.2.get? k
        else if k = e.2.length then some t else none
      else getByPow l p k := by
  unfold getByPow MutualSet.pushAt
  rw [get?_modifyNth]
  by_cases hp : p = idx
  · subst hp
    rw [if_pos rfl, if_pos rfl, he]
    simp only [Option.map_some', Option.some_bind]
    exact get?_append_singleton e.2 t k
  · rw [if_neg hp, if_neg hp]

theorem two_pow_lt_iff {a b : Nat} : 2 ^ a < 2 ^ b ↔ a < b :=
  Nat.pow_lt_pow_iff_right (by omega)

theorem two_pow_inj {a b : Nat} (h : 2 ^ a = 2 ^ b) : a = b :=
  Nat.pow_right_injective (by omega) h

theorem insertLoop_succ (fuel nth : Nat) (l : List (String × List G)) (L : Nat)
    (latter : G) :
    MutualSet.insertLoop (fuel + 1) nth l L latter =
      if 2 ^ nth ≤ L then
        if L - 2 ^ nth < l.length then
          if L - 2 ^ nth < 2 ^ nth then some (MutualSet.pushAt l (L - 2 ^ nth) latter)
          else
            match getByPow (MutualSet.pushAt l (L - 2 ^ nth) latter)
                (L - 2 ^ nth - 2 ^ nth) nth with
            | none => none
            | some t2 =>
                MutualSet.insertLoop fuel (nth + 1)
                  (MutualSet.pushAt l (L - 2 ^ nth) latter) L (t2 * latter)
        else none
      else none := rfl

theorem insertLoop_spec (g : Nat → G) (L : Nat) :
    ∀ fuel nth l latter,
      LoopInv g L nth l →
      2 ^ nth ≤ L →
      latter = g (L - 2 ^ nth) * (g L)⁻¹ →
      L < 2 ^ (nth + fuel) →
      ∃ l2, MutualSet.insertLoop fuel nth l L latter = some l2 ∧
        l2.length = L + 1 ∧
        SpannedPos g l2 ∧
        l2.map Prod.fst = l.map Prod.fst := by
  intro fuel
  induction fuel with
  | zero =>
    intro nth l latter _ hle _ hfuel
    rw [Nat.add_zero] at hfuel
    omega
  | succ fuel ih =>
    intro nth l latter hinv hle hlatter hfuel
    obtain ⟨hlen, hentries⟩ := hinv
    have hpow_pos : (1 : Nat) ≤ 2 ^ nth := Nat.one_le_two_pow
    have hidx_lt : L - 2 ^ nth < l.length := by omega
    obtain ⟨e, he⟩ : ∃ e, l.get? (L - 2 ^ nth) = some e := by
      rw [List.get?_eq_get hidx_lt]
      exact ⟨_, rfl⟩
    -- the row at the touched position currently has exactly `nth` levels
    have hrowlen : e.2.length = nth := by
      apply length_eq_of_get?_iff
      intro k
      have hk := hentries (L - 2 ^ nth) k
      rw [getByPow, he] at hk
      simp only [Option.some_bind] at hk
      rw [hk]
      by_cases hkn : k < nth
      · have hcond : L - 2 ^ nth + 2 ^ k < L := by
          have : 2 ^ k < 2 ^ nth := two_pow_lt_iff.mpr hkn
          omega
        simp [hcond, hkn]
      · have hc1 : ¬ L - 2 ^ nth + 2 ^ k < L := by
          intro hc
          have h2 : 2 ^ k < 2 ^ nth := by omega
          exact hkn (two_pow_lt_iff.mp h2)
        have hc2 : ¬ (L - 2 ^ nth + 2 ^ k = L ∧ k < nth) := fun hc => hkn hc.2
        simp [hc1, hc2, hkn]
    have hlen' : (MutualSet.pushAt l (L - 2 ^ nth) latter).length = L + 1 := by
      rw [length_pushAt, hlen]
    have hkeys' : (MutualSet.pushAt l (L - 2 ^ nth) latter).map Prod.fst = l.map Prod.fst :=
      map_fst_pushAt l (L - 2 ^ nth) latter
    -- the pushed list satisfies the invariant at `nth + 1`
    have hinv' : LoopInv g L (nth + 1) (MutualSet.pushAt l (L - 2 ^ nth) latter) := by
      refine ⟨hlen', ?_⟩
      intro p k
      rw [getByPow_pushAt l he latter p k]
      by_cases hp : p = L - 2 ^ nth
      · rw [if_pos hp, hrowlen]
        by_cases hkn : k < nth
        · rw [if_pos hkn]
          have hcond : p + 2 ^ k < L := by
            have : 2 ^ k < 2 ^ nth := two_pow_lt_iff.mpr hkn
            omega
          have hk := hentries (L - 2 ^ nth) k
          rw [getByPow, he] at hk
          simp only [Option.some_bind] at hk
          rw [hk]
          rw [hp]
          rw [if_pos (Or.inl (by omega)), if_pos (Or.inl (by omega))]
        · rw [if_neg hkn]
          by_cases hkn2 : k = nth
          · subst hkn2
            rw [if_pos rfl]
            have hcond : p + 2 ^ k = L := by omega
            rw [if_pos (Or.inr ⟨hcond, Nat.lt_succ_self _⟩), hcond, hlatter, hp]
          · rw [if_neg hkn2]
            have hgt : nth < k := by omega
            have hc1 : ¬ p + 2 ^ k < L := by
              intro hc
              have h2 : 2 ^ k < 2 ^ nth := by omega
              have := two_pow_lt_iff.mp h2
              omega
            have hc2 : ¬ p + 2 ^ k = L := by
              intro hc
              have h2 : (2 : Nat) ^ k = 2 ^ nth := by omega
              have := two_pow_inj h2
              omega
            rw [if_neg]
            intro hc
            rcases hc with hc | hc
            · exact hc1 hc
            · exact hc2 hc.1
      · rw [if_neg hp, hentries p k]
        by_cases hcnew : p + 2 ^ k < L ∨ (p + 2 ^ k = L ∧ k < nth + 1)
        · rcases hcnew with hc | ⟨hc, hk⟩
          · rw [if_pos (Or.inl hc), if_pos (Or.inl hc)]
          · have hkn : k < nth := by
              rcases Nat.lt_or_ge k nth with h1 | h1
              · exact h1
              · have hk2 : k = nth := by omega
                subst hk2
                exfalso
                apply hp
                omega
            rw [if_pos (Or.inr ⟨hc, hkn⟩), if_pos (Or.inr ⟨hc, by omega⟩)]
        · rw [if_neg hcnew, if_neg]
          intro hc
          apply hcnew
          rcases hc with hc | ⟨hc, _⟩
          · exact Or.inl hc
          · exact Or.inr ⟨hc, by omega⟩
    -- unfold one loop iteration
    by_cases hbreak : L - 2 ^ nth < 2 ^ nth
    · -- `checked_sub` fails: push and break
      refine ⟨MutualSet.pushAt l (L - 2 ^ nth) latter, ?_, hlen', ?_, hkeys'⟩
      · rw [insertLoop_succ, if_pos hle, if_pos hidx_lt, if_pos hbreak]
      · intro p k
        obtain ⟨_, hentries'⟩ := hinv'
        rw [hentries' p k, hlen']
        by_cases hcond : p + 2 ^ k < L + 1
        · have : p + 2 ^ k < L ∨ p + 2 ^ k = L := by omega
          rcases this with hc | hc
          · rw [if_pos (Or.inl hc), if_pos hcond]
          · have hk : k < nth + 1 := by
              by_contra hk2
              have : 2 ^ (nth + 1) ≤ 2 ^ k := Nat.pow_le_pow_right (by omega) (by omega)
              have h2 : (2 : Nat) ^ (nth + 1) = 2 * 2 ^ nth := by ring
              omega
            rw [if_pos (Or.inr ⟨hc, hk⟩), if_pos hcond]
        · rw [if_neg (by omega), if_neg hcond]
    · -- propagate to the next level
      have h2le : 2 ^ (nth + 1) ≤ L := by
        have h2 : (2 : Nat) ^ (nth + 1) = 2 * 2 ^ nth := by ring
        omega
      have hentry2 : getByPow (MutualSet.pushAt l (L - 2 ^ nth) latter)
          (L - 2 ^ nth - 2 ^ nth) nth =
          some (g (L - 2 ^ nth - 2 ^ nth) * (g (L - 2 ^ nth))⁻¹) := by
        obtain ⟨_, hentries'⟩ := hinv'
        rw [hentries' (L - 2 ^ nth - 2 ^ nth) nth]
        have hc : L - 2 ^ nth - 2 ^ nth + 2 ^ nth = L - 2 ^ nth := by omega
        rw [if_pos (Or.inl (by omega)), hc]
      have hlatter' : (g (L - 2 ^ nth - 2 ^ nth) * (g (L - 2 ^ nth))⁻¹) * latter
          = g (L - 2 ^ (nth + 1)) * (g L)⁻¹ := by
        rw [hlatter]
        have hidx2L : L - 2 ^ nth - 2 ^ nth = L - 2 ^ (nth + 1) := by
          have h2 : (2 : Nat) ^ (nth + 1) = 2 * 2 ^ nth := by ring
          omega
        rw [hidx2L]
        group
      obtain ⟨l2, hl2, hlen2, hspan2, hkeys2⟩ := ih (nth + 1)
        (MutualSet.pushAt l (L - 2 ^ nth) latter)
        ((g (L - 2 ^ nth - 2 ^ nth) * (g (L - 2 ^ nth))⁻¹) * latter) hinv' h2le hlatter'
        (by rw [show nth + 1 + fuel = nth + (fuel + 1) by omega]; exact hfuel)
      refine ⟨l2, ?_, hlen2, hspan2, by rw [hkeys2, hkeys']⟩
      rw [insertLoop_succ, if_pos hle, if_pos hidx_lt, if_neg hbreak, hentry2]
      exact hl2

/-! ### Appending a fresh frame -/

theorem idxInsert_of_not_mem {l : List (String × List G)} {k : String}
    (h : k ∉ l.map Prod.fst) (v : List G) : idxInsert k v l = l ++ [(k, v)] := by
  induction l with
  | nil => rfl
  | cons e rest ih =>
    simp only [List.map_cons, List.mem_cons] at h
    push_neg at h
    rw [idxInsert, if_neg (fun hc => h.1 hc.symm), ih h.2]
    rfl

theorem keyD_eq (l : List (String × List G)) (p : Nat) :
    keyD l p = ((l.map Prod.fst).get? p).getD "" := by
  rw [keyD, List.get?_map]

theorem SpannedPos_congr {g1 g2 : Nat → G} {l : List (String × List G)}
    (h : SpannedPos g1 l) (he : ∀ p, p < l.length → g1 p = g2 p) : SpannedPos g2 l := by
  intro p k
  rw [h p k]
  by_cases hc : p + 2 ^ k < l.length
  · have h1 : (1 : Nat) ≤ 2 ^ k := Nat.one_le_two_pow
    rw [if_pos hc, if_pos hc, he p (by omega), he (p + 2 ^ k) hc]
  · rw [if_neg hc, if_neg hc]

theorem appendCore_spec (m : MutualSet G) (g : Nat → G)
    (hpos : SpannedPos g m.lookup) (hne : m.lookup.length ≠ 0)
    (toBase : String) (hnew : toBase ∉ m.lookup.map Prod.fst)
    (fromIdx : Nat) (hfrom : fromIdx < m.lookup.length) (tf : G) :
    ∃ m' : MutualSet G, m.appendCore toBase fromIdx tf = some m' ∧
      m'.lookup.length = m.lookup.length + 1 ∧
      m'.lookup.map Prod.fst = m.lookup.map Prod.fst ++ [toBase] ∧
      SpannedPos
        (fun p => if p = m.lookup.length then tf⁻¹ * g fromIdx else g p) m'.lookup := by
  classical
  set L := m.lookup.length with hL
  set g' : Nat → G := fun p => if p = L then tf⁻¹ * g fromIdx else g p with hg'
  have hl1eq : idxInsert toBase [] m.lookup = m.lookup ++ [(toBase, [])] :=
    idxInsert_of_not_mem hnew []
  have hlen1 : (m.lookup ++ [(toBase, ([] : List G))]).length = L + 1 := by
    simp [hL]
  have hget1 : ∀ p, (m.lookup ++ [(toBase, ([] : List G))]).get? p =
      if p < L then m.lookup.get? p else if p = L then some (toBase, []) else none := by
    intro p
    rw [get?_append_singleton, hL]
  -- the enlarged list satisfies the loop invariant at level 0
  have hinv : LoopInv g' L 0 (m.lookup ++ [(toBase, [])]) := by
    refine ⟨hlen1, ?_⟩
    intro p k
    rw [getByPow, hget1 p]
    by_cases hp : p < L
    · rw [if_pos hp]
      have h0 := hpos p k
      rw [getByPow] at h0
      rw [← hL] at h0
      rw [h0]
      by_cases hc : p + 2 ^ k < L
      · rw [if_pos hc, if_pos (Or.inl hc)]
        have hgp : g' p = g p := by rw [hg']; simp only; rw [if_neg (by omega)]
        have hgq : g' (p + 2 ^ k) = g (p + 2 ^ k) := by
          rw [hg']; simp only; rw [if_neg (by omega)]
        rw [hgp, hgq]
      · rw [if_neg hc, if_neg]
        intro hcc
        rcases hcc with hcc | hcc
        · exact hc hcc
        · omega
    · by_cases hpL : p = L
      · subst hpL
        rw [if_neg hp, if_pos rfl]
        simp only [Option.some_bind, List.get?_nil]
        rw [if_neg]
        have : (1 : Nat) ≤ 2 ^ k := Nat.one_le_two_pow
        omega
      · rw [if_neg hp, if_neg hpL]
        simp only [Option.none_bind]
        rw [if_neg]
        have h1 : (1 : Nat) ≤ 2 ^ k := Nat.one_le_two_pow
        omega
    -- (`p > L` spans cannot exist)
  have hLpos : 0 < L := Nat.pos_of_ne_zero hne
  have hformer : getByRange (m.lookup ++ [(toBase, [])]) fromIdx (L - 1) =
      some (g' fromIdx * (g' (L - 1))⁻¹) := by
    apply getByRange_spec (B := L - 1)
    · intro p k hpk
      have := hinv.2 p k
      rw [this, if_pos (Or.inl (by omega))]
    · omega
    · omega
    · omega
  have hgL : g' L = tf⁻¹ * g fromIdx := by
    rw [hg']
    simp
  have hgfrom : g' fromIdx = g fromIdx := by
    rw [hg']
    simp only
    rw [if_neg (by omega)]
  have hlatter : (g' fromIdx * (g' (L - 1))⁻¹)⁻¹ * tf = g' (L - 2 ^ 0) * (g' L)⁻¹ := by
    rw [pow_zero, hgL, hgfrom]
    group
  have hfuel : L < 2 ^ (0 + (L + 1)) := by
    have h1 : L < 2 ^ L := Nat.lt_two_pow L
    have h2 : (2 : Nat) ^ L ≤ 2 ^ (0 + (L + 1)) := Nat.pow_le_pow_right (by omega) (by omega)
    omega
  obtain ⟨l2, hl2, hlen2, hspan2, hkeys2⟩ := insertLoop_spec g' L (L + 1) 0
    (m.lookup ++ [(toBase, [])]) ((g' fromIdx * (g' (L - 1))⁻¹)⁻¹ * tf) hinv
    (by simpa using hLpos) hlatter hfuel
  refine ⟨⟨l2⟩, ?_, by simpa using hlen2, by rw [hkeys2, List.map_append]; rfl, hspan2⟩
  have hL1len : (m.lookup ++ [(toBase, ([] : List G))]).length - 1 = L := by
    rw [hlen1]
    omega
  rw [MutualSet.appendCore, hl1eq, hL1len, hformer]
  simp only [mul_inv_rev, inv_inv] at hl2
  simp [hl2]

theorem appendCore_spanned (m : MutualSet G) (f : String → G) (h : m.Spanned f)
    (toBase : String) (hnew : toBase ∉ m.coords)
    (fromIdx : Nat) (hfrom : fromIdx < m.lookup.length)
    (hne : m.lookup.length ≠ 0) (tf : G) :
    ∃ m', m.appendCore toBase fromIdx tf = some m' ∧
      m'.coords = m.coords ++ [toBase] ∧
      m'.Spanned (fun x => if x = toBase then tf⁻¹ * f (keyD m.lookup fromIdx) else f x) := by
  obtain ⟨hnodup, hpos⟩ := h
  obtain ⟨m', happ, hlen', hkeys', hspan'⟩ :=
    appendCore_spec m (fun p => f (keyD m.lookup p)) hpos hne toBase hnew fromIdx hfrom tf
  refine ⟨m', happ, hkeys', ?_, ?_⟩
  · rw [show (m'.lookup.map Prod.fst).Nodup = (m.lookup.map Prod.fst ++ [toBase]).Nodup by
      rw [hkeys']]
    rw [List.nodup_append]
    refine ⟨hnodup, List.nodup_singleton _, ?_⟩
    intro a ha hb
    rw [List.mem_singleton] at hb
    subst hb
    exact hnew ha
  · apply SpannedPos_congr hspan'
    intro p hp
    dsimp only
    rw [hlen'] at hp
    by_cases hpL : p = m.lookup.length
    · subst hpL
      have hkey : keyD m'.lookup m.lookup.length = toBase := by
        rw [keyD_eq, hkeys']
        have : (m.lookup.map Prod.fst).length = m.lookup.length := List.length_map _ _
        rw [← this, List.get?_concat_length]
        rfl
      rw [if_pos rfl, hkey, if_pos rfl]
    · have hplt : p < m.lookup.length := by omega
      have hkey : keyD m'.lookup p = keyD m.lookup p := by
        rw [keyD_eq, hkeys', keyD_eq]
        have hlen : p < (m.lookup.map Prod.fst).length := by
          rw [List.length_map]; exact hplt
        rw [List.get?_append hlen]
      rw [if_neg hpL, hkey, if_neg]
      intro hc
      apply hnew
      rw [← hc]
      exact keyD_mem hplt

/-! ### The four dispatch cases of `MutualSet::insert` -/

theorem getByRange_of_spanned (m : MutualSet G) (f : String → G) (h : m.Spanned f)
    {a b : String} {i j : Nat}
    (hi : getIndexOf m.lookup a = some i) (hj : getIndexOf m.lookup b = some j) :
    getByRange m.lookup i j = some (f a * (f b)⁻¹) := by
  obtain ⟨hnodup, hpos⟩ := h
  obtain ⟨hilt, hikey⟩ := getIndexOf_some hi
  obtain ⟨hjlt, hjkey⟩ := getIndexOf_some hj
  have hrange := getByRange_spec m.lookup (fun p => f (keyD m.lookup p))
    (m.lookup.length - 1)
    (by
      intro p k hpk
      have hlt : p + 2 ^ k < m.lookup.length := by omega
      rw [hpos p k, if_pos hlt])
    (by omega) i j (by omega) (by omega)
  simp only at hrange
  rw [hikey, hjkey] at hrange
  exact hrange

theorem MutualSet.insert_both_mem (m : MutualSet G) (f : String → G) (h : m.Spanned f)
    {src dst : String} (hs : src ∈ m.coords) (hd : dst ∈ m.coords) (tf : G) :
    m.insert src dst tf =
      if tf = f src * (f dst)⁻¹ then some (.ok m)
      else some (.error (.inconsistentTransform (f src * (f dst)⁻¹) tf)) := by
  obtain ⟨i, hi⟩ := getIndexOf_mem (l := m.lookup) hs
  obtain ⟨j, hj⟩ := getIndexOf_mem (l := m.lookup) hd
  have hrange := getByRange_of_spanned m f h hi hj
  rw [MutualSet.insert, hi, hj]
  simp only [hrange]

theorem MutualSet.insert_src_new (m : MutualSet G) (f : String → G) (h : m.Spanned f)
    {src dst : String} (hs : src ∉ m.coords) (hd : dst ∈ m.coords) (tf : G) :
    ∃ m', m.insert src dst tf = some (.ok m') ∧
      m'.coords = m.coords ++ [src] ∧
      m'.Spanned (fun x => if x = src then tf * f dst else f x) := by
  have hnone : getIndexOf m.lookup src = none := getIndexOf_eq_none.mpr hs
  obtain ⟨j, hj⟩ := getIndexOf_mem (l := m.lookup) hd
  obtain ⟨hjlt, hjkey⟩ := getIndexOf_some hj
  obtain ⟨m', happ, hcoords, hspan⟩ := appendCore_spanned m f h src hs j hjlt
    (by omega) tf⁻¹
  have hfun : (fun x => if x = src then (tf⁻¹)⁻¹ * f (keyD m.lookup j) else f x)
      = (fun x => if x = src then tf * f dst else f x) := by
    funext x
    rw [inv_inv, hjkey]
  refine ⟨m', ?_, hcoords, ?_⟩
  · rw [MutualSet.insert, hnone, hj]
    dsimp only
    rw [happ]
    rfl
  · rw [← hfun]
    exact hspan

theorem MutualSet.insert_dst_new (m : MutualSet G) (f : String → G) (h : m.Spanned f)
    {src dst : String} (hs : src ∈ m.coords) (hd : dst ∉ m.coords) (tf : G) :
    ∃ m', m.insert src dst tf = some (.ok m') ∧
      m'.coords = m.coords ++ [dst] ∧
      m'.Spanned (fun x => if x = dst then tf⁻¹ * f src else f x) := by
  have hnone : getIndexOf m.lookup dst = none := getIndexOf_eq_none.mpr hd
  obtain ⟨i, hi⟩ := getIndexOf_mem (l := m.lookup) hs
  obtain ⟨hilt, hikey⟩ := getIndexOf_some hi
  obtain ⟨m', happ, hcoords, hspan⟩ := appendCore_spanned m f h dst hd i hilt
    (by omega) tf
  have hfun : (fun x => if x = dst then tf⁻¹ * f (keyD m.lookup i) else f x)
      = (fun x => if x = dst then tf⁻¹ * f src else f x) := by
    funext x
    rw [hikey]
  refine ⟨m', ?_, hcoords, ?_⟩
  · rw [MutualSet.insert, hnone, hi]
    dsimp only
    rw [happ]
    rfl
  · rw [← hfun]
    exact hspan

theorem MutualSet.insert_fresh_pair (src dst : String) (tf : G) :
    (MutualSet.new (G := G)).insert src dst tf =
      some (.ok ⟨if src = dst then [(dst, [])] else [(src, [tf]), (dst, [])]⟩) := by
  rw [MutualSet.insert]
  simp only [MutualSet.new, getIndexOf, List.isEmpty_nil, if_true]
  by_cases h : src = dst
  · subst h
    simp [idxInsert]
  · simp [idxInsert, h, fun hc : dst = src => h hc.symm]

theorem MutualSet.pair_spanned (src dst : String) (tf : G) (hne : src ≠ dst) :
    (⟨[(src, [tf]), (dst, [])]⟩ : MutualSet G).Spanned
      (fun x => if x = dst then tf⁻¹ else 1) := by
  constructor
  · simp [hne]
  · intro p k
    match p, k with
    | 0, 0 =>
      show some tf = if 0 + 2 ^ 0 < 2 then
          some ((if src = dst then tf⁻¹ else (1 : G)) *
            (if dst = dst then tf⁻¹ else (1 : G))⁻¹) else none
      rw [if_pos (by omega), if_neg hne, if_pos rfl]
      group
    | 0, k + 1 =>
      have h2 : 2 ≤ 2 ^ (k + 1) := by
        have h3 : (2 : Nat) ^ 1 ≤ 2 ^ (k + 1) := Nat.pow_le_pow_right (by omega) (by omega)
        simpa using h3
      show ([tf] : List G).get? (k + 1) =
        if 0 + 2 ^ (k + 1) < 2 then _ else none
      rw [List.get?_eq_none.mpr (by simp), if_neg (by omega)]
    | 1, k =>
      have h1 : (1 : Nat) ≤ 2 ^ k := Nat.one_le_two_pow
      show ([] : List G).get? k = if 1 + 2 ^ k < 2 then _ else none
      rw [if_neg (by omega)]
      simp
    | p + 2, k =>
      show (none : Option G) = if p + 2 + 2 ^ k < 2 then _ else none
      rw [if_neg (Nat.not_lt.mpr (le_trans (by omega : 2 ≤ p + 2)
        (Nat.le_add_right (p + 2) (2 ^ k))))]

theorem MutualSet.singleton_spanned (dst : String) (f : String → G) :
    (⟨[(dst, [])]⟩ : MutualSet G).Spanned f := by
  constructor
  · simp
  · intro p k
    have h1 : (1 : Nat) ≤ 2 ^ k := Nat.one_le_two_pow
    match p with
    | 0 =>
      show ([] : List G).get? k = if 0 + 2 ^ k < 1 then _ else none
      rw [if_neg (by omega)]
      simp
    | p + 1 =>
      show (none : Option G) = if p + 1 + 2 ^ k < 1 then _ else none
      rw [if_neg (Nat.not_lt.mpr (le_trans (by omega : 1 ≤ p + 1)
        (Nat.le_add_right (p + 1) (2 ^ k))))]

/-! ### Cross-ledger merge -/

theorem getIndexOf_isSome {l : List (String × List G)} {s : String} :
    (getIndexOf l s).isSome ↔ s ∈ l.map Prod.fst := by
  cases hg : getIndexOf l s with
  | none => simp [getIndexOf_eq_none.mp hg]
  | some i =>
    simp only [Option.isSome_some, true_iff]
    by_contra hc
    rw [getIndexOf_eq_none.mpr hc] at hg
    exact Option.noConfusion hg

/-- The `for coord in other.lookup.keys()` replay loop of `MutualSet::merge`:
if the target ledger is spanned by `F`, the common coordinate is already
present, and `F` extends along the source ledger's potential, then every
replayed insert succeeds and the result is spanned by `F`. -/
theorem merge_fold_spec (m2 : MutualSet G) (f2 : String → G) (h2span : m2.Spanned f2)
    (c : String) (hc2 : c ∈ m2.coords) (F : String → G)
    (hF2 : ∀ x ∈ m2.coords, F x = f2 x * (f2 c)⁻¹ * F c) :
    ∀ (coords : List String), coords.Nodup → (∀ x ∈ coords, x ∈ m2.coords) →
      ∀ acc : MutualSet G, acc.Spanned F → c ∈ acc.coords →
      (∀ x ∈ coords, x ∈ acc.coords → x = c) →
      ∃ m', (coords.foldlM (fun (acc : MutualSet G) coord => do
          let tf ← m2.get c coord
          match ← acc.insert c coord tf with
          | .ok m' => some m'
          | .error _ => none) acc) = some m' ∧
        m'.Spanned F ∧
        m'.coords = acc.coords ++ coords.filter (fun x => x ≠ c) := by
  intro coords
  induction coords with
  | nil =>
    intro _ _ acc haccspan _ _
    exact ⟨acc, rfl, haccspan, by simp⟩
  | cons coord rest ih =>
    intro hnodup hsub acc haccspan hcacc hsafe
    have hcoordm2 : coord ∈ m2.coords := hsub coord (by simp)
    have htf : m2.get c coord = some (f2 c * (f2 coord)⁻¹) :=
      MutualSet.get_spec m2 f2 h2span hc2 hcoordm2
    rw [List.foldlM_cons]
    by_cases hin : coord ∈ acc.coords
    · -- already present: this is the `c = coord` no-op consistency check
      have hceq : coord = c := hsafe coord (by simp) hin
      subst hceq
      have hins := MutualSet.insert_both_mem acc F haccspan hcacc hcacc
        (f2 coord * (f2 coord)⁻¹)
      rw [if_pos (by group)] at hins
      obtain ⟨m', hfold, hspan', hcoords'⟩ := ih (List.Nodup.of_cons hnodup)
        (fun x hx => hsub x (by simp [hx])) acc haccspan hcacc
        (fun x hx => hsafe x (by simp [hx]))
      refine ⟨m', ?_, hspan', ?_⟩
      · rw [htf]
        simp only [Option.bind_eq_bind, Option.some_bind, hins]
        exact hfold
      · rw [hcoords', List.filter_cons, if_neg (by simp)]
    · -- a fresh coordinate: append it through the one-known insert path
      have hcne : coord ≠ c := fun hc => hin (hc ▸ hcacc)
      obtain ⟨m'', hins, hcoords'', hspan''⟩ := MutualSet.insert_dst_new acc F haccspan
        hcacc hin (f2 c * (f2 coord)⁻¹)
      have hfun : (fun x => if x = coord then (f2 c * (f2 coord)⁻¹)⁻¹ * F c else F x) = F := by
        funext x
        by_cases hx : x = coord
        · subst hx
          rw [if_pos rfl, hF2 x hcoordm2]
          group
        · rw [if_neg hx]
      rw [hfun] at hspan''
      have hrestsafe : ∀ x ∈ rest, x ∈ m''.coords → x = c := by
        intro x hx hxm
        rw [hcoords''] at hxm
        rw [List.mem_append, List.mem_singleton] at hxm
        rcases hxm with hxm | hxm
        · exact hsafe x (by simp [hx]) hxm
        · subst hxm
          exact absurd hx (List.Nodup.not_mem hnodup)
      obtain ⟨m', hfold, hspan', hcoords'⟩ := ih (List.Nodup.of_cons hnodup)
        (fun x hx => hsub x (by simp [hx])) m'' hspan''
        (by rw [hcoords'']; exact List.mem_append_left _ hcacc) hrestsafe
      refine ⟨m', ?_, hspan', ?_⟩
      · rw [htf]
        simp only [Option.bind_eq_bind, Option.some_bind, hins]
        exact hfold
      · rw [hcoords', hcoords'', List.filter_cons, if_pos (by simp [hcne]),
          List.append_assoc]
        rfl

theorem MutualSet.merge_spec (m1 m2 : MutualSet G) (f1 f2 : String → G)
    (h1 : m1.Spanned f1) (h2 : m2.Spanned f2) (c : String)
    (hc1 : c ∈ m1.coords) (hc2 : c ∈ m2.coords)
    (hint : ∀ x, x ∈ m1.coords → x ∈ m2.coords → x = c) :
    ∃ m', m1.merge m2 = some (.ok m') ∧
      m'.coords = m1.coords ++ m2.coords.filter (fun x => x ≠ c) ∧
      m'.Spanned (fun x => if x ∈ m1.coords then f1 x else f2 x * (f2 c)⁻¹ * f1 c) := by
  classical
  set F : String → G := fun x => if x ∈ m1.coords then f1 x else f2 x * (f2 c)⁻¹ * f1 c
    with hF
  have hFc : F c = f1 c := by rw [hF]; simp only; rw [if_pos hc1]
  have hF1 : ∀ x ∈ m1.coords, F x = f1 x := by
    intro x hx
    rw [hF]
    simp only
    rw [if_pos hx]
  have hF2 : ∀ x ∈ m2.coords, F x = f2 x * (f2 c)⁻¹ * F c := by
    intro x hx
    by_cases hx1 : x ∈ m1.coords
    · have hxc : x = c := hint x hx1 hx
      subst hxc
      rw [hFc]
      group
    · rw [hFc, hF]
      simp only
      rw [if_neg hx1]
  -- the HashSet intersection is the singleton {c}
  have hfind : (m1.lookup.map Prod.fst).find?
      (fun c' => (getIndexOf m2.lookup c').isSome) = some c := by
    have hsome : ((m1.lookup.map Prod.fst).find?
        (fun c' => (getIndexOf m2.lookup c').isSome)).isSome := by
      rw [List.find?_isSome]
      exact ⟨c, hc1, by rw [getIndexOf_isSome]; exact hc2⟩
    obtain ⟨a, ha⟩ := Option.isSome_iff_exists.mp hsome
    have hamem : a ∈ m1.lookup.map Prod.fst := List.mem_of_find?_eq_some ha
    have hapred := List.find?_some ha
    have ham2 : a ∈ m2.coords := by
      show a ∈ m2.lookup.map Prod.fst
      rw [← getIndexOf_isSome (l := m2.lookup)]
      simpa using hapred
    rw [ha, hint a hamem ham2]
  have haccspan : m1.Spanned F := by
    obtain ⟨hnodup, hpos⟩ := h1
    refine ⟨hnodup, SpannedPos_congr hpos ?_⟩
    intro p hp
    rw [hF1 (keyD m1.lookup p) (keyD_mem hp)]
  obtain ⟨m', hfold, hspan', hcoords'⟩ := merge_fold_spec m2 f2 h2 c hc2 F hF2
    (m2.lookup.map Prod.fst) h2.1 (fun x hx => hx) m1 haccspan hc1
    (fun x hx hx1 => hint x hx1 hx)
  refine ⟨m', ?_, hcoords', hspan'⟩
  rw [MutualSet.merge, hfind]
  dsimp only
  rw [hfold]
  rfl

/-! ### Association-list facts for the group manager's maps -/

theorem assoc_find?_eq {l : List (Nat × MutualSet G)} (hnd : (l.map Prod.fst).Nodup)
    {mid : Nat} {mset : MutualSet G} (h : (mid, mset) ∈ l) :
    l.find? (fun e => e.1 = mid) = some (mid, mset) := by
  induction l with
  | nil => simp at h
  | cons e rest ih =>
    rw [List.map_cons, List.nodup_cons] at hnd
    rcases List.mem_cons.mp h with he | he
    · subst he
      rw [List.find?_cons_of_pos _ (by simp)]
    · have hne : e.1 ≠ mid := by
        intro hc
        apply hnd.1
        rw [hc]
        exact List.mem_map_of_mem Prod.fst he
      rw [List.find?_cons_of_neg _ (by simpa using hne)]
      exact ih hnd.2 he

theorem mem_unique_of_nodup {l : List (Nat × MutualSet G)} (hnd : (l.map Prod.fst).Nodup)
    {mid : Nat} {m1 m2 : MutualSet G} (h1 : (mid, m1) ∈ l) (h2 : (mid, m2) ∈ l) :
    m1 = m2 := by
  have hf1 := assoc_find?_eq hnd h1
  have hf2 := assoc_find?_eq hnd h2
  rw [hf1] at hf2
  exact ((Prod.mk.injEq _ _ _ _).mp (Option.some_inj.mp hf2)).2

theorem lookupSet_of_mem {ts : TransformSet G} (hnd : (ts.mid_to_set.map Prod.fst).Nodup)
    {mid : Nat} {mset : MutualSet G} (h : (mid, mset) ∈ ts.mid_to_set) :
    ts.lookupSet mid = some mset := by
  rw [TransformSet.lookupSet, assoc_find?_eq hnd h]
  rfl

theorem midInsert_of_not_mem {l : List (Nat × MutualSet G)} {mid : Nat}
    (h : mid ∉ l.map Prod.fst) (mset : MutualSet G) :
    midInsert mid mset l = l ++ [(mid, mset)] := by
  induction l with
  | nil => rfl
  | cons e rest ih =>
    rw [List.map_cons, List.mem_cons] at h
    push_neg at h
    rw [midInsert, if_neg (fun hc => h.1 hc.symm), ih h.2]
    rfl

theorem mem_midInsert_replace {l : List (Nat × MutualSet G)}
    (hnd : (l.map Prod.fst).Nodup) {mid : Nat} (hmem : mid ∈ l.map Prod.fst)
    (mset : MutualSet G) (e : Nat × MutualSet G) :
    e ∈ midInsert mid mset l ↔ e = (mid, mset) ∨ (e ∈ l ∧ e.1 ≠ mid) := by
  induction l with
  | nil => simp at hmem
  | cons hd rest ih =>
    rw [List.map_cons, List.nodup_cons] at hnd
    by_cases hh : hd.1 = mid
    · rw [midInsert, if_pos hh]
      constructor
      · intro hm
        rcases List.mem_cons.mp hm with hm | hm
        · exact Or.inl hm
        · refine Or.inr ⟨List.mem_cons_of_mem _ hm, ?_⟩
          intro hc
          apply hnd.1
          rw [hh, ← hc]
          exact List.mem_map_of_mem Prod.fst hm
      · intro hm
        rcases hm with hm | ⟨hm, hne⟩
        · exact hm ▸ List.mem_cons_self _ _
        · rcases List.mem_cons.mp hm with he | hm
          · exact absurd (he ▸ hh) hne
          · exact List.mem_cons_of_mem _ hm
    · have hmem' : mid ∈ rest.map Prod.fst := by
        rw [List.map_cons, List.mem_cons] at hmem
        rcases hmem with hm | hm
        · exact absurd hm.symm hh
        · exact hm
      rw [midInsert, if_neg hh]
      constructor
      · intro hm
        rcases List.mem_cons.mp hm with hm | hm
        · exact Or.inr ⟨hm ▸ List.mem_cons_self _ _, hm ▸ hh⟩
        · rcases (ih hnd.2 hmem').mp hm with hm | ⟨hm, hne⟩
          · exact Or.inl hm
          · exact Or.inr ⟨List.mem_cons_of_mem _ hm, hne⟩
      · intro hm
        rcases hm with hm | ⟨hm, hne⟩
        · exact List.mem_cons_of_mem _ ((ih hnd.2 hmem').mpr (Or.inl hm))
        · rcases List.mem_cons.mp hm with he | hm
          · exact he ▸ List.mem_cons_self _ _
          · exact List.mem_cons_of_mem _ ((ih hnd.2 hmem').mpr (Or.inr ⟨hm, hne⟩))

theorem map_fst_midInsert_replace {l : List (Nat × MutualSet G)} {mid : Nat}
    (h : mid ∈ l.map Prod.fst) (mset : MutualSet G) :
    (midInsert mid mset l).map Prod.fst = l.map Prod.fst := by
  induction l with
  | nil => simp at h
  | cons hd rest ih =>
    by_cases hh : hd.1 = mid
    · rw [midInsert, if_pos hh]
      simp [hh]
    · rw [List.map_cons, List.mem_cons] at h
      rcases h with h | h
      · exact absurd h.symm hh
      · rw [midInsert, if_neg hh, List.map_cons, List.map_cons, ih h]

theorem removeSet_of_mem {l : List (Nat × MutualSet G)} (hnd : (l.map Prod.fst).Nodup)
    {mid : Nat} {mset : MutualSet G} (h : (mid, mset) ∈ l) :
    (removeSet mid l).1 = some mset ∧
    (∀ e, e ∈ (removeSet mid l).2 ↔ e ∈ l ∧ e.1 ≠ mid) ∧
    ((removeSet mid l).2.map Prod.fst).Nodup := by
  induction l with
  | nil => simp at h
  | cons hd rest ih =>
    rw [List.map_cons, List.nodup_cons] at hnd
    by_cases hh : hd.1 = mid
    · have hhd : hd = (mid, mset) := by
        rcases List.mem_cons.mp h with he | he
        · exact he.symm
        · exact absurd (by rw [hh]; exact List.mem_map_of_mem Prod.fst he) hnd.1
      rw [removeSet, if_pos hh]
      refine ⟨by rw [hhd], ?_, hnd.2⟩
      intro e
      constructor
      · intro he
        refine ⟨List.mem_cons_of_mem _ he, ?_⟩
        intro hc
        apply hnd.1
        rw [hh, ← hc]
        exact List.mem_map_of_mem Prod.fst he
      · intro ⟨he, hne⟩
        rcases List.mem_cons.mp he with he | he
        · exact absurd (he ▸ hh) (he ▸ hne)
        · exact he
    · have hmem : (mid, mset) ∈ rest := by
        rcases List.mem_cons.mp h with he | he
        · exact absurd (by rw [← he]) hh
        · exact he
      obtain ⟨ih1, ih2, ih3⟩ := ih hnd.2 hmem
      rw [removeSet, if_neg hh]
      refine ⟨ih1, ?_, ?_⟩
      · intro e
        simp only [List.mem_cons]
        constructor
        · intro he
          rcases he with he | he
          · exact ⟨Or.inl he, he ▸ hh⟩
          · obtain ⟨hm, hne⟩ := (ih2 e).mp he
            exact ⟨Or.inr hm, hne⟩
        · intro ⟨hm, hne⟩
          rcases hm with hm | hm
          · exact Or.inl hm
          · exact Or.inr ((ih2 e).mpr ⟨hm, hne⟩)
      · rw [List.map_cons, List.nodup_cons]
        refine ⟨?_, ih3⟩
        intro hc
        obtain ⟨e, hemem, hekey⟩ := List.mem_map.mp hc
        have := ((ih2 e).mp hemem).1
        exact hnd.1 (hekey ▸ List.mem_map_of_mem Prod.fst this)

theorem cmSetAll_spec (coords : List String) (mid : Nat) (cm : String → Option Nat)
    (h : ∀ c ∈ coords, (cm c).isSome) :
    ∃ cm', TransformSet.cmSetAll coords mid cm = some cm' ∧
      ∀ x, cm' x = if x ∈ coords then some mid else cm x := by
  induction coords generalizing cm with
  | nil => exact ⟨cm, rfl, by simp⟩
  | cons c rest ih =>
    have hc : (cm c).isSome := h c (by simp)
    have hrest : ∀ x ∈ rest, ((cmUpdate c mid cm) x).isSome := by
      intro x hx
      rw [cmUpdate]
      by_cases hxc : x = c
      · simp [hxc]
      · rw [if_neg hxc]
        exact h x (by simp [hx])
    obtain ⟨cm', hfold, hcm'⟩ := ih (cmUpdate c mid cm) hrest
    refine ⟨cm', ?_, ?_⟩
    · rw [TransformSet.cmSetAll, List.foldlM_cons, if_pos hc]
      exact hfold
    · intro x
      rw [hcm' x]
      by_cases hx : x ∈ rest
      · rw [if_pos hx, if_pos (by simp [hx])]
      · rw [if_neg hx, cmUpdate]
        by_cases hxc : x = c
        · rw [if_pos hxc, if_pos (by simp [hxc])]
        · rw [if_neg hxc, if_neg (by simp [hxc, hx])]

theorem midInsert_self {l : List (Nat × MutualSet G)} (hnd : (l.map Prod.fst).Nodup)
    {mid : Nat} {mset : MutualSet G} (h : (mid, mset) ∈ l) :
    midInsert mid mset l = l := by
  induction l with
  | nil => simp at h
  | cons hd rest ih =>
    rw [List.map_cons, List.nodup_cons] at hnd
    by_cases hh : hd.1 = mid
    · have hhd : hd = (mid, mset) := by
        rcases List.mem_cons.mp h with he | he
        · exact he.symm
        · exact absurd (by rw [hh]; exact List.mem_map_of_mem Prod.fst he) hnd.1
      rw [midInsert, if_pos hh, hhd]
    · have hmem : (mid, mset) ∈ rest := by
        rcases List.mem_cons.mp h with he | he
        · exact absurd (by rw [← he]) hh
        · exact he
      rw [midInsert, if_neg hh, ih hnd.2 hmem]

/-! ### `TransformSet::insert`: the four-case state machine -/

theorem TransformSet.insert_both_new (ts : TransformSet G) (hinv : TSInv ts)
    {src dst : String} (hs : ts.coord_to_mid src = none) (hd : ts.coord_to_mid dst = none)
    (tf : G) :
    ∃ ts', ts.insert src dst tf = some (.ok (), ts') ∧ TSInv ts' ∧
      ts'.coord_to_mid src = some ts.mid ∧ ts'.coord_to_mid dst = some ts.mid ∧
      (∀ x, x ≠ src → x ≠ dst → ts'.coord_to_mid x = ts.coord_to_mid x) ∧
      ts'.mid = ts.mid + 1 ∧
      (src ≠ dst → ts'.get src dst = some tf ∧ ts'.get dst src = some tf⁻¹) := by
  classical
  set ns : MutualSet G :=
    ⟨if src = dst then [(dst, [])] else [(src, [tf]), (dst, [])]⟩ with hns
  have hnsc : ns.coords = if src = dst then [dst] else [src, dst] := by
    rw [hns]
    by_cases h : src = dst <;> simp [MutualSet.coords, h]
  have hmemns : ∀ c, c ∈ ns.coords ↔ c = src ∨ c = dst := by
    intro c
    rw [hnsc]
    by_cases h : src = dst
    · rw [if_pos h]
      simp only [List.mem_singleton]
      constructor
      · intro hc; exact Or.inr hc
      · intro hc; rcases hc with hc | hc
        · rw [hc, h]
        · exact hc
    · rw [if_neg h]
      simp
  have hfresh : ts.mid ∉ ts.mid_to_set.map Prod.fst := by
    intro hc
    obtain ⟨e, hemem, hekey⟩ := List.mem_map.mp hc
    have := hinv.midLt e hemem
    omega
  set ts' : TransformSet G :=
    { mid := ts.mid + 1
      coord_to_mid := cmUpdate dst ts.mid (cmUpdate src ts.mid ts.coord_to_mid)
      mid_to_set := midInsert ts.mid ns ts.mid_to_set } with hts'
  have hlist' : ts'.mid_to_set = ts.mid_to_set ++ [(ts.mid, ns)] := by
    rw [hts']
    exact midInsert_of_not_mem hfresh ns
  have hcm' : ∀ x, ts'.coord_to_mid x =
      if x = dst then some ts.mid else if x = src then some ts.mid
      else ts.coord_to_mid x := by
    intro x
    rw [hts']
    rfl
  have hspanned_ns : ∃ f, ns.Spanned f := by
    by_cases h : src = dst
    · rw [hns, if_pos h]
      exact ⟨fun _ => 1, MutualSet.singleton_spanned dst _⟩
    · rw [hns, if_neg h]
      exact ⟨_, MutualSet.pair_spanned src dst tf h⟩
  have hinv' : TSInv ts' := by
    refine ⟨?_, ?_, ?_, ?_⟩
    · rw [hlist', List.map_append, List.nodup_append]
      refine ⟨hinv.nodupMids, by simp, ?_⟩
      intro a ha hb
      simp only [List.map_cons, List.map_nil, List.mem_singleton] at hb
      exact hfresh (hb ▸ ha)
    · intro e he
      rw [hlist', List.mem_append] at he
      rw [hts']
      rcases he with he | he
      · have := hinv.midLt e he
        simp only
        omega
      · simp only [List.mem_singleton] at he
        subst he
        simp only
        omega
    · intro e he
      rw [hlist', List.mem_append] at he
      rcases he with he | he
      · exact hinv.spanned e he
      · simp only [List.mem_singleton] at he
        subst he
        exact hspanned_ns
    · intro c mid0
      rw [hcm' c]
      constructor
      · intro hcm
        by_cases hcd : c = dst
        · rw [if_pos hcd] at hcm
          refine ⟨ns, ?_, ?_⟩
          · rw [hlist']
            rw [← Option.some_inj.mp hcm]
            exact List.mem_append_right _ (by simp)
          · rw [hmemns]
            exact Or.inr hcd
        · rw [if_neg hcd] at hcm
          by_cases hcs : c = src
          · rw [if_pos hcs] at hcm
            refine ⟨ns, ?_, ?_⟩
            · rw [hlist', ← Option.some_inj.mp hcm]
              exact List.mem_append_right _ (by simp)
            · rw [hmemns]
              exact Or.inl hcs
          · rw [if_neg hcs] at hcm
            obtain ⟨mset, hmem, hcmem⟩ := (hinv.coordIff c mid0).mp hcm
            exact ⟨mset, by rw [hlist']; exact List.mem_append_left _ hmem, hcmem⟩
      · intro ⟨mset, hmem, hcmem⟩
        rw [hlist', List.mem_append] at hmem
        rcases hmem with hmem | hmem
        · have hcm := (hinv.coordIff c mid0).mpr ⟨mset, hmem, hcmem⟩
          have hcd : c ≠ dst := by
            intro hc
            rw [hc, hd] at hcm
            exact Option.noConfusion hcm
          have hcs : c ≠ src := by
            intro hc
            rw [hc, hs] at hcm
            exact Option.noConfusion hcm
          rw [if_neg hcd, if_neg hcs]
          exact hcm
        · simp only [List.mem_singleton] at hmem
          have hmid : mid0 = ts.mid := by
            have := congrArg Prod.fst hmem
            simpa using this
          have hmset : mset = ns := by
            have := congrArg Prod.snd hmem
            simpa using this
          subst hmid
          rcases (hmemns c).mp (hmset ▸ hcmem) with hc | hc
          · by_cases hcd : c = dst
            · rw [if_pos hcd]
            · rw [if_neg hcd, if_pos hc]
          · rw [if_pos hc]
  have hlookup' : ts'.lookupSet ts.mid = some ns :=
    lookupSet_of_mem hinv'.nodupMids (by rw [hlist']; exact List.mem_append_right _ (by simp))
  have hins : ts.insert src dst tf = some (.ok (), ts') := by
    rw [TransformSet.insert, hs, hd]
    dsimp only
    rw [MutualSet.insert_fresh_pair]
  have hcms : ts'.coord_to_mid src = some ts.mid := by
    rw [hcm' src]
    by_cases h : src = dst
    · rw [if_pos h]
    · rw [if_neg (fun hc => h hc), if_pos rfl]
  have hcmd : ts'.coord_to_mid dst = some ts.mid := by
    rw [hcm' dst, if_pos rfl]
  refine ⟨ts', hins, hinv', hcms, hcmd, ?_, by rw [hts'], ?_⟩
  · intro x hxs hxd
    rw [hcm' x, if_neg hxd, if_neg hxs]
  · intro hne
    have hfsp := MutualSet.pair_spanned src dst tf hne
    have hnseq : ns = ⟨[(src, [tf]), (dst, [])]⟩ := by rw [hns, if_neg hne]
    have hsrcmem : src ∈ ns.coords := (hmemns src).mpr (Or.inl rfl)
    have hdstmem : dst ∈ ns.coords := (hmemns dst).mpr (Or.inr rfl)
    have hget1 : ns.get src dst = some tf := by
      have hsp2 : ns.Spanned (fun x => if x = dst then tf⁻¹ else 1) := by
        rw [hnseq]
        exact hfsp
      have := MutualSet.get_spec _ _ hsp2 hsrcmem hdstmem
      rw [this]
      congr 1
      rw [if_neg hne, if_pos rfl]
      group
    have hget2 : ns.get dst src = some tf⁻¹ := by
      have hsp2 : ns.Spanned (fun x => if x = dst then tf⁻¹ else 1) := by
        rw [hnseq]
        exact hfsp
      have := MutualSet.get_spec _ _ hsp2 hdstmem hsrcmem
      rw [this]
      congr 1
      rw [if_neg hne, if_pos rfl]
      group
    constructor
    · rw [TransformSet.get, hcms, hcmd]
      simp [hlookup', hget1]
    · rw [TransformSet.get, hcms, hcmd]
      simp [hlookup', hget2]

/-- Reduce `TransformSet::get` to the owning ledger's `get` when both
frames are registered to the same group. -/
theorem TransformSet.get_eq (ts : TransformSet G) {a b : String} {mid : Nat}
    (ha : ts.coord_to_mid a = some mid) (hb : ts.coord_to_mid b = some mid)
    {mset : MutualSet G} (hl : ts.lookupSet mid = some mset) :
    ts.get a b = mset.get a b := by
  rw [TransformSet.get, ha, hb]
  simp [hl]

/-- Replacing one ledger by an extension of itself (one fresh coordinate
appended) preserves the structural invariant. -/
theorem TSInv_update_mset (ts : TransformSet G) (hinv : TSInv ts)
    {mid0 : Nat} {mset m' : MutualSet G} (hmem : (mid0, mset) ∈ ts.mid_to_set)
    {newc : String} (hnc : ts.coord_to_mid newc = none)
    (hcoords : m'.coords = mset.coords ++ [newc])
    (hspan : ∃ f, m'.Spanned f) :
    TSInv { ts with
            coord_to_mid := cmUpdate newc mid0 ts.coord_to_mid
            mid_to_set := midInsert mid0 m' ts.mid_to_set } := by
  have hmidmem : mid0 ∈ ts.mid_to_set.map Prod.fst := List.mem_map_of_mem Prod.fst hmem
  have hkeys : (midInsert mid0 m' ts.mid_to_set).map Prod.fst
      = ts.mid_to_set.map Prod.fst := map_fst_midInsert_replace hmidmem m'
  have hmm := mem_midInsert_replace hinv.nodupMids hmidmem m'
  refine ⟨?_, ?_, ?_, ?_⟩
  · simp only
    rw [hkeys]
    exact hinv.nodupMids
  · intro e he
    simp only at he ⊢
    rcases (hmm e).mp he with he | ⟨he, _⟩
    · subst he
      exact hinv.midLt (mid0, mset) hmem
    · exact hinv.midLt e he
  · intro e he
    simp only at he
    rcases (hmm e).mp he with he | ⟨he, _⟩
    · subst he
      exact hspan
    · exact hinv.spanned e he
  · intro c mid1
    simp only [cmUpdate]
    constructor
    · intro hcm
      by_cases hcn : c = newc
      · rw [if_pos hcn] at hcm
        refine ⟨m', (hmm (mid1, m')).mpr (Or.inl (by rw [← Option.some_inj.mp hcm])), ?_⟩
        rw [hcoords, hcn]
        exact List.mem_append_right _ (by simp)
      · rw [if_neg hcn] at hcm
        obtain ⟨mset1, hmem1, hcmem1⟩ := (hinv.coordIff c mid1).mp hcm
        by_cases hmid1 : mid1 = mid0
        · subst hmid1
          have : mset1 = mset := mem_unique_of_nodup hinv.nodupMids hmem1 hmem
          subst this
          refine ⟨m', (hmm (mid1, m')).mpr (Or.inl rfl), ?_⟩
          rw [hcoords]
          exact List.mem_append_left _ hcmem1
        · exact ⟨mset1, (hmm (mid1, mset1)).mpr (Or.inr ⟨hmem1, hmid1⟩), hcmem1⟩
    · intro ⟨mset1, hmem1, hcmem1⟩
      rcases (hmm (mid1, mset1)).mp hmem1 with he | ⟨he, hne⟩
      · have hmid1 : mid1 = mid0 := by
          have := congrArg Prod.fst he
          simpa using this
        have hmset1 : mset1 = m' := by
          have := congrArg Prod.snd he
          simpa using this
        subst hmid1
        subst hmset1
        rw [hcoords, List.mem_append, List.mem_singleton] at hcmem1
        rcases hcmem1 with hcmem1 | hcmem1
        · have hcm := (hinv.coordIff c mid1).mpr ⟨mset, hmem, hcmem1⟩
          have hcn : c ≠ newc := by
            intro hc
            rw [hc, hnc] at hcm
            exact Option.noConfusion hcm
          rw [if_neg hcn]
          exact hcm
        · rw [if_pos hcmem1]
      · have hcm := (hinv.coordIff c mid1).mpr ⟨mset1, he, hcmem1⟩
        have hcn : c ≠ newc := by
          intro hc
          rw [hc, hnc] at hcm
          exact Option.noConfusion hcm
        rw [if_neg hcn]
        exact hcm

theorem TransformSet.insert_src_known (ts : TransformSet G) (hinv : TSInv ts)
    {src dst : String} {mid0 : Nat}
    (hs : ts.coord_to_mid src = some mid0) (hd : ts.coord_to_mid dst = none) (tf : G) :
    ∃ ts', ts.insert src dst tf = some (.ok (), ts') ∧ TSInv ts' ∧
      ts'.coord_to_mid dst = some mid0 ∧
      (∀ x, x ≠ dst → ts'.coord_to_mid x = ts.coord_to_mid x) ∧
      ts'.mid = ts.mid ∧
      ts'.get src dst = some tf ∧ ts'.get dst src = some tf⁻¹ := by
  classical
  have hsd : src ≠ dst := by
    intro hc
    rw [hc, hd] at hs
    exact Option.noConfusion hs
  obtain ⟨mset, hmem, hsrcmem⟩ := (hinv.coordIff src mid0).mp hs
  obtain ⟨f, hspan⟩ := hinv.spanned (mid0, mset) hmem
  have hlook : ts.lookupSet mid0 = some mset := lookupSet_of_mem hinv.nodupMids hmem
  have hdnot : dst ∉ mset.coords := by
    intro hc
    have := (hinv.coordIff dst mid0).mpr ⟨mset, hmem, hc⟩
    rw [hd] at this
    exact Option.noConfusion this
  obtain ⟨m', hins, hcoords, hspan'⟩ := MutualSet.insert_dst_new mset f hspan hsrcmem hdnot tf
  set ts' : TransformSet G :=
    { ts with
      coord_to_mid := cmUpdate dst mid0 ts.coord_to_mid
      mid_to_set := midInsert mid0 m' ts.mid_to_set } with hts'
  have hinv' : TSInv ts' := TSInv_update_mset ts hinv hmem hd hcoords ⟨_, hspan'⟩
  have hinseq : ts.insert src dst tf = some (.ok (), ts') := by
    rw [TransformSet.insert, hs, hd]
    dsimp only
    rw [hlook]
    dsimp only
    rw [hins]
  have hcm' : ∀ x, ts'.coord_to_mid x =
      if x = dst then some mid0 else ts.coord_to_mid x := fun x => rfl
  have hmems' : (mid0, m') ∈ ts'.mid_to_set := by
    rw [hts']
    exact (mem_midInsert_replace hinv.nodupMids
      (List.mem_map_of_mem Prod.fst hmem) m' (mid0, m')).mpr (Or.inl rfl)
  have hlook' : ts'.lookupSet mid0 = some m' := lookupSet_of_mem hinv'.nodupMids hmems'
  have hcms : ts'.coord_to_mid src = some mid0 := by
    rw [hcm' src, if_neg hsd]
    exact hs
  have hcmd : ts'.coord_to_mid dst = some mid0 := by
    rw [hcm' dst, if_pos rfl]
  have hsrcm' : src ∈ m'.coords := by
    rw [hcoords]
    exact List.mem_append_left _ hsrcmem
  have hdstm' : dst ∈ m'.coords := by
    rw [hcoords]
    exact List.mem_append_right _ (by simp)
  have hget1 : ts'.get src dst = some tf := by
    rw [TransformSet.get_eq ts' hcms hcmd hlook',
      MutualSet.get_spec m' _ hspan' hsrcm' hdstm']
    congr 1
    rw [if_neg hsd, if_pos rfl]
    group
  have hget2 : ts'.get dst src = some tf⁻¹ := by
    rw [TransformSet.get_eq ts' hcmd hcms hlook',
      MutualSet.get_spec m' _ hspan' hdstm' hsrcm']
    congr 1
    rw [if_neg hsd, if_pos rfl]
    group
  refine ⟨ts', hinseq, hinv', hcmd, ?_, by rw [hts'], hget1, hget2⟩
  intro x hx
  rw [hcm' x, if_neg hx]

theorem TransformSet.insert_dst_known (ts : TransformSet G) (hinv : TSInv ts)
    {src dst : String} {mid0 : Nat}
    (hs : ts.coord_to_mid src = none) (hd : ts.coord_to_mid dst = some mid0) (tf : G) :
    ∃ ts', ts.insert src dst tf = some (.ok (), ts') ∧ TSInv ts' ∧
      ts'.coord_to_mid src = some mid0 ∧
      (∀ x, x ≠ src → ts'.coord_to_mid x = ts.coord_to_mid x) ∧
      ts'.mid = ts.mid ∧
      ts'.get src dst = some tf ∧ ts'.get dst src = some tf⁻¹ := by
  classical
  have hsd : src ≠ dst := by
    intro hc
    rw [hc, hd] at hs
    exact Option.noConfusion hs
  obtain ⟨mset, hmem, hdstmem⟩ := (hinv.coordIff dst mid0).mp hd
  obtain ⟨f, hspan⟩ := hinv.spanned (mid0, mset) hmem
  have hlook : ts.lookupSet mid0 = some mset := lookupSet_of_mem hinv.nodupMids hmem
  have hsnot : src ∉ mset.coords := by
    intro hc
    have := (hinv.coordIff src mid0).mpr ⟨mset, hmem, hc⟩
    rw [hs] at this
    exact Option.noConfusion this
  obtain ⟨m', hins, hcoords, hspan'⟩ := MutualSet.insert_src_new mset f hspan hsnot hdstmem tf
  set ts' : TransformSet G :=
    { ts with
      coord_to_mid := cmUpdate src mid0 ts.coord_to_mid
      mid_to_set := midInsert mid0 m' ts.mid_to_set } with hts'
  have hinv' : TSInv ts' := TSInv_update_mset ts hinv hmem hs hcoords ⟨_, hspan'⟩
  have hinseq : ts.insert src dst tf = some (.ok (), ts') := by
    rw [TransformSet.insert, hs, hd]
    dsimp only
    rw [hlook]
    dsimp only
    rw [hins]
  have hcm' : ∀ x, ts'.coord_to_mid x =
      if x = src then some mid0 else ts.coord_to_mid x := fun x => rfl
  have hmems' : (mid0, m') ∈ ts'.mid_to_set := by
    rw [hts']
    exact (mem_midInsert_replace hinv.nodupMids
      (List.mem_map_of_mem Prod.fst hmem) m' (mid0, m')).mpr (Or.inl rfl)
  have hlook' : ts'.lookupSet mid0 = some m' := lookupSet_of_mem hinv'.nodupMids hmems'
  have hcms : ts'.coord_to_mid src = some mid0 := by
    rw [hcm' src, if_pos rfl]
  have hcmd : ts'.coord_to_mid dst = some mid0 := by
    rw [hcm' dst, if_neg (fun hc => hsd hc.symm)]
    exact hd
  have hsrcm' : src ∈ m'.coords := by
    rw [hcoords]
    exact List.mem_append_right _ (by simp)
  have hdstm' : dst ∈ m'.coords := by
    rw [hcoords]
    exact List.mem_append_left _ hdstmem
  have hget1 : ts'.get src dst = some tf := by
    rw [TransformSet.get_eq ts' hcms hcmd hlook',
      MutualSet.get_spec m' _ hspan' hsrcm' hdstm']
    congr 1
    rw [if_pos rfl, if_neg (fun hc : dst = src => hsd hc.symm)]
    group
  have hget2 : ts'.get dst src = some tf⁻¹ := by
    rw [TransformSet.get_eq ts' hcmd hcms hlook',
      MutualSet.get_spec m' _ hspan' hdstm' hsrcm']
    congr 1
    rw [if_pos rfl, if_neg (fun hc : dst = src => hsd hc.symm)]
    group
  refine ⟨ts', hinseq, hinv', hcms, ?_, by rw [hts'], hget1, hget2⟩
  intro x hx
  rw [hcm' x, if_neg hx]

theorem TransformSet.insert_same_mid (ts : TransformSet G) (hinv : TSInv ts)
    {src dst : String} {mid0 : Nat}
    (hs : ts.coord_to_mid src = some mid0) (hd : ts.coord_to_mid dst = some mid0) (tf : G) :
    ∃ mset f, ts.lookupSet mid0 = some mset ∧ mset.Spanned f ∧
      src ∈ mset.coords ∧ dst ∈ mset.coords ∧
      ts.insert src dst tf =
        (if tf = f src * (f dst)⁻¹ then some (.ok (), ts)
         else some (.error (.inconsistentTransform (f src * (f dst)⁻¹) tf), ts)) := by
  obtain ⟨mset, hmem, hsrcmem⟩ := (hinv.coordIff src mid0).mp hs
  obtain ⟨mset2, hmem2, hdstmem⟩ := (hinv.coordIff dst mid0).mp hd
  have heq : mset2 = mset := mem_unique_of_nodup hinv.nodupMids hmem2 hmem
  rw [heq] at hdstmem
  obtain ⟨f, hspan⟩ := hinv.spanned (mid0, mset) hmem
  have hlook : ts.lookupSet mid0 = some mset := lookupSet_of_mem hinv.nodupMids hmem
  refine ⟨mset, f, hlook, hspan, hsrcmem, hdstmem, ?_⟩
  rw [TransformSet.insert, hs, hd]
  dsimp only
  rw [if_neg (fun hc => hc rfl), hlook]
  dsimp only
  rw [MutualSet.insert_both_mem mset f hspan hsrcmem hdstmem tf]
  by_cases hc : tf = f src * (f dst)⁻¹
  · rw [if_pos hc, if_pos hc]
    dsimp only
    rw [midInsert_self hinv.nodupMids hmem]
  · rw [if_neg hc, if_neg hc]

theorem TransformSet.insert_diff_mid (ts : TransformSet G) (hinv : TSInv ts)
    {src dst : String} {m1 m2 : Nat}
    (hs : ts.coord_to_mid src = some m1) (hd : ts.coord_to_mid dst = some m2)
    (hmne : m1 ≠ m2) (tf : G) :
    ∃ ts', ts.insert src dst tf = some (.ok (), ts') ∧ TSInv ts' ∧
      ts'.mid = ts.mid + 1 ∧
      (∀ x, (ts.coord_to_mid x = some m1 ∨ ts.coord_to_mid x = some m2) ↔
        ts'.coord_to_mid x = some ts.mid) ∧
      (∀ x, ts.coord_to_mid x ≠ some m1 → ts.coord_to_mid x ≠ some m2 →
        ts'.coord_to_mid x = ts.coord_to_mid x) ∧
      ts'.get src dst = some tf ∧ ts'.get dst src = some tf⁻¹ ∧
      ∃ f' : String → G,
        (∀ x y, ts'.coord_to_mid x = some ts.mid → ts'.coord_to_mid y = some ts.mid →
          ts'.get x y = some (f' x * (f' y)⁻¹)) ∧
        (∀ x y, ts.coord_to_mid x = some m1 → ts.coord_to_mid y = some m1 →
          ts.get x y = some (f' x * (f' y)⁻¹)) ∧
        (∀ x y, ts.coord_to_mid x = some m2 → ts.coord_to_mid y = some m2 →
          ts.get x y = some (f' x * (f' y)⁻¹)) := by
  classical
  have hsd : src ≠ dst := by
    intro hc
    rw [hc, hd] at hs
    exact hmne (Option.some_inj.mp hs).symm
  obtain ⟨S, hmemS, hsrcS⟩ := (hinv.coordIff src m1).mp hs
  obtain ⟨D, hmemD, hdstD⟩ := (hinv.coordIff dst m2).mp hd
  obtain ⟨f1, hspan1⟩ := hinv.spanned (m1, S) hmemS
  obtain ⟨f2, hspan2⟩ := hinv.spanned (m2, D) hmemD
  -- coordinates of the two groups are disjoint
  have hdisj : ∀ x, x ∈ S.coords → x ∈ D.coords → False := by
    intro x hx1 hx2
    have h1 := (hinv.coordIff x m1).mpr ⟨S, hmemS, hx1⟩
    have h2 := (hinv.coordIff x m2).mpr ⟨D, hmemD, hx2⟩
    rw [h1] at h2
    exact hmne (Option.some_inj.mp h2)
  have hdstnotS : dst ∉ S.coords := fun hc => hdisj dst hc hdstD
  -- remove the two ledgers
  obtain ⟨hr1, hrest1mem, hrest1nd⟩ := removeSet_of_mem hinv.nodupMids hmemS
  set rest1 := (removeSet m1 ts.mid_to_set).2 with hrest1
  have hmemD1 : (m2, D) ∈ rest1 := (hrest1mem (m2, D)).mpr ⟨hmemD, Ne.symm hmne⟩
  obtain ⟨hr2, hrest2mem, hrest2nd⟩ := removeSet_of_mem hrest1nd hmemD1
  set rest2 := (removeSet m2 rest1).2 with hrest2
  -- re-register every coordinate of both groups
  have hallsome : ∀ c ∈ S.coords ++ D.coords, (ts.coord_to_mid c).isSome := by
    intro c hc
    rw [List.mem_append] at hc
    rcases hc with hc | hc
    · rw [(hinv.coordIff c m1).mpr ⟨S, hmemS, hc⟩]
      rfl
    · rw [(hinv.coordIff c m2).mpr ⟨D, hmemD, hc⟩]
      rfl
  obtain ⟨cm', hcmAll, hcm'⟩ := cmSetAll_spec (S.coords ++ D.coords) ts.mid
    ts.coord_to_mid hallsome
  -- extend the source ledger with `dst`
  obtain ⟨S', hinsS, hcoordsS', hspanS'⟩ := MutualSet.insert_dst_new S f1 hspan1
    hsrcS hdstnotS tf
  set f1' : String → G := fun x => if x = dst then tf⁻¹ * f1 src else f1 x with hf1'
  -- merge the extended source ledger with the destination ledger
  have hdstS' : dst ∈ S'.coords := by
    rw [hcoordsS']
    exact List.mem_append_right _ (by simp)
  have hsingle : ∀ x, x ∈ S'.coords → x ∈ D.coords → x = dst := by
    intro x hx1 hx2
    rw [hcoordsS', List.mem_append, List.mem_singleton] at hx1
    rcases hx1 with hx1 | hx1
    · exact absurd hx2 (fun hc => hdisj x hx1 hc)
    · exact hx1
  obtain ⟨newSet, hmerge, hcoordsNew, hspanNew⟩ := MutualSet.merge_spec S' D f1' f2
    hspanS' hspan2 dst hdstS' hdstD hsingle
  set F : String → G :=
    fun x => if x ∈ S'.coords then f1' x else f2 x * (f2 dst)⁻¹ * f1' dst with hF
  -- membership in the merged ledger
  have hmemnew : ∀ c, c ∈ newSet.coords ↔ c ∈ S.coords ∨ c ∈ D.coords := by
    intro c
    rw [hcoordsNew, hcoordsS', List.mem_append, List.mem_append, List.mem_singleton]
    constructor
    · intro hc
      rcases hc with (hc | hc) | hc
      · exact Or.inl hc
      · exact Or.inr (hc ▸ hdstD)
      · exact Or.inr (List.mem_of_mem_filter hc)
    · intro hc
      rcases hc with hc | hc
      · exact Or.inl (Or.inl hc)
      · by_cases hcd : c = dst
        · exact Or.inl (Or.inr hcd)
        · refine Or.inr (List.mem_filter.mpr ⟨hc, by simp [hcd]⟩)
  -- the new state
  set ts' : TransformSet G :=
    { mid := ts.mid + 1
      coord_to_mid := cm'
      mid_to_set := midInsert ts.mid newSet rest2 } with hts'
  have hrest2lt : ∀ e ∈ rest2, e.1 < ts.mid := by
    intro e he
    exact hinv.midLt e ((hrest1mem e).mp ((hrest2mem e).mp he).1).1
  have hfresh : ts.mid ∉ rest2.map Prod.fst := by
    intro hc
    obtain ⟨e, hemem, hekey⟩ := List.mem_map.mp hc
    have := hrest2lt e hemem
    omega
  have hlist' : ts'.mid_to_set = rest2 ++ [(ts.mid, newSet)] := by
    rw [hts']
    exact midInsert_of_not_mem hfresh newSet
  -- assembled insert equation
  have hpair1 : removeSet m1 ts.mid_to_set = (some S, rest1) := by
    rw [hrest1, ← hr1]
  have hpair2 : removeSet m2 rest1 = (some D, rest2) := by
    rw [hrest2, ← hr2]
  have hinseq : ts.insert src dst tf = some (.ok (), ts') := by
    rw [TransformSet.insert, hs, hd]
    dsimp only
    rw [if_pos hmne, hpair1]
    dsimp only
    rw [hpair2]
    dsimp only
    rw [hcmAll]
    dsimp only
    rw [hinsS]
    dsimp only
    rw [hmerge]
  -- the invariant for the new state
  have hinv' : TSInv ts' := by
    refine ⟨?_, ?_, ?_, ?_⟩
    · rw [hlist', List.map_append, List.nodup_append]
      refine ⟨hrest2nd, by simp, ?_⟩
      intro a ha hb
      simp only [List.map_cons, List.map_nil, List.mem_singleton] at hb
      exact hfresh (hb ▸ ha)
    · intro e he
      rw [hlist', List.mem_append] at he
      rw [hts']
      rcases he with he | he
      · have := hrest2lt e he
        simp only
        omega
      · simp only [List.mem_singleton] at he
        subst he
        simp only
        omega
    · intro e he
      rw [hlist', List.mem_append] at he
      rcases he with he | he
      · exact hinv.spanned e (((hrest1mem e).mp ((hrest2mem e).mp he).1).1)
      · simp only [List.mem_singleton] at he
        subst he
        exact ⟨F, hspanNew⟩
    · intro c mid1
      have hcmc : ts'.coord_to_mid c =
          if c ∈ S.coords ++ D.coords then some ts.mid else ts.coord_to_mid c := by
        rw [hts']
        exact hcm' c
      rw [hcmc]
      constructor
      · intro hcm
        by_cases hcin : c ∈ S.coords ++ D.coords
        · rw [if_pos hcin] at hcm
          refine ⟨newSet, ?_, ?_⟩
          · rw [hlist', ← Option.some_inj.mp hcm]
            exact List.mem_append_right _ (by simp)
          · rw [hmemnew c, ← List.mem_append]
            exact hcin
        · rw [if_neg hcin] at hcm
          obtain ⟨mset1, hmem1, hcmem1⟩ := (hinv.coordIff c mid1).mp hcm
          have hne1 : mid1 ≠ m1 := by
            intro hc
            subst hc
            have : mset1 = S := mem_unique_of_nodup hinv.nodupMids hmem1 hmemS
            subst this
            exact hcin (List.mem_append_left _ hcmem1)
          have hne2 : mid1 ≠ m2 := by
            intro hc
            subst hc
            have : mset1 = D := mem_unique_of_nodup hinv.nodupMids hmem1 hmemD
            subst this
            exact hcin (List.mem_append_right _ hcmem1)
          refine ⟨mset1, ?_, hcmem1⟩
          rw [hlist']
          exact List.mem_append_left _
            ((hrest2mem _).mpr ⟨(hrest1mem _).mpr ⟨hmem1, hne1⟩, hne2⟩)
      · intro ⟨mset1, hmem1, hcmem1⟩
        rw [hlist', List.mem_append] at hmem1
        rcases hmem1 with hmem1 | hmem1
        · have hmemold := ((hrest1mem _).mp ((hrest2mem _).mp hmem1).1).1
          have hne1 : mid1 ≠ m1 := by
            have := ((hrest1mem _).mp ((hrest2mem _).mp hmem1).1).2
            simpa using this
          have hne2 : mid1 ≠ m2 := by
            have := ((hrest2mem _).mp hmem1).2
            simpa using this
          have hcm := (hinv.coordIff c mid1).mpr ⟨mset1, hmemold, hcmem1⟩
          have hcin : c ∉ S.coords ++ D.coords := by
            intro hc
            rw [List.mem_append] at hc
            rcases hc with hc | hc
            · have := (hinv.coordIff c m1).mpr ⟨S, hmemS, hc⟩
              rw [hcm] at this
              exact hne1 (Option.some_inj.mp this)
            · have := (hinv.coordIff c m2).mpr ⟨D, hmemD, hc⟩
              rw [hcm] at this
              exact hne2 (Option.some_inj.mp this)
          rw [if_neg hcin]
          exact hcm
        · simp only [List.mem_singleton] at hmem1
          have hmid1 : mid1 = ts.mid := by
            have := congrArg Prod.fst hmem1
            simpa using this
          have hmset1 : mset1 = newSet := by
            have := congrArg Prod.snd hmem1
            simpa using this
          subst hmid1
          subst hmset1
          rw [if_pos (by rw [List.mem_append, ← hmemnew c]; exact hcmem1)]
  -- coordinate routing
  have hroute : ∀ x, (ts.coord_to_mid x = some m1 ∨ ts.coord_to_mid x = some m2) ↔
      ts'.coord_to_mid x = some ts.mid := by
    intro x
    have hcmx : ts'.coord_to_mid x =
        if x ∈ S.coords ++ D.coords then some ts.mid else ts.coord_to_mid x := by
      rw [hts']
      exact hcm' x
    rw [hcmx]
    constructor
    · intro hc
      rcases hc with hc | hc
      · obtain ⟨mset1, hmem1, hx1⟩ := (hinv.coordIff x m1).mp hc
        have : mset1 = S := mem_unique_of_nodup hinv.nodupMids hmem1 hmemS
        subst this
        rw [if_pos (List.mem_append_left _ hx1)]
      · obtain ⟨mset1, hmem1, hx1⟩ := (hinv.coordIff x m2).mp hc
        have : mset1 = D := mem_unique_of_nodup hinv.nodupMids hmem1 hmemD
        subst this
        rw [if_pos (List.mem_append_right _ hx1)]
    · intro hc
      by_cases hcin : x ∈ S.coords ++ D.coords
      · rw [List.mem_append] at hcin
        rcases hcin with hcin | hcin
        · exact Or.inl ((hinv.coordIff x m1).mpr ⟨S, hmemS, hcin⟩)
        · exact Or.inr ((hinv.coordIff x m2).mpr ⟨D, hmemD, hcin⟩)
      · rw [if_neg hcin] at hc
        obtain ⟨mset1, hmem1, hx1⟩ := (hinv.coordIff x ts.mid).mp hc
        have := hinv.midLt (ts.mid, mset1) hmem1
        omega
  have hkeep : ∀ x, ts.coord_to_mid x ≠ some m1 → ts.coord_to_mid x ≠ some m2 →
      ts'.coord_to_mid x = ts.coord_to_mid x := by
    intro x hx1 hx2
    have hcmx : ts'.coord_to_mid x =
        if x ∈ S.coords ++ D.coords then some ts.mid else ts.coord_to_mid x := by
      rw [hts']
      exact hcm' x
    rw [hcmx, if_neg]
    intro hc
    rw [List.mem_append] at hc
    rcases hc with hc | hc
    · exact hx1 ((hinv.coordIff x m1).mpr ⟨S, hmemS, hc⟩)
    · exact hx2 ((hinv.coordIff x m2).mpr ⟨D, hmemD, hc⟩)
  -- the freshly asserted fact is answerable
  have hlook' : ts'.lookupSet ts.mid = some newSet :=
    lookupSet_of_mem hinv'.nodupMids
      (by rw [hlist']; exact List.mem_append_right _ (by simp))
  have hcms : ts'.coord_to_mid src = some ts.mid := (hroute src).mp (Or.inl hs)
  have hcmd : ts'.coord_to_mid dst = some ts.mid := (hroute dst).mp (Or.inr hd)
  have hsrcS' : src ∈ S'.coords := by
    rw [hcoordsS']
    exact List.mem_append_left _ hsrcS
  have hsrcNew : src ∈ newSet.coords := (hmemnew src).mpr (Or.inl hsrcS)
  have hdstNew : dst ∈ newSet.coords := (hmemnew dst).mpr (Or.inr hdstD)
  have hFsrc : F src = f1 src := by
    rw [hF]
    simp [hf1', hsrcS', hsd]
  have hFdst : F dst = tf⁻¹ * f1 src := by
    rw [hF]
    simp [hf1', hdstS']
  have hget1 : ts'.get src dst = some tf := by
    rw [TransformSet.get_eq ts' hcms hcmd hlook',
      MutualSet.get_spec newSet F hspanNew hsrcNew hdstNew]
    rw [hFsrc, hFdst]
    congr 1
    group
  have hget2 : ts'.get dst src = some tf⁻¹ := by
    rw [TransformSet.get_eq ts' hcmd hcms hlook',
      MutualSet.get_spec newSet F hspanNew hdstNew hsrcNew]
    rw [hFsrc, hFdst]
    congr 1
    group
  -- the merged potential explains old and new queries alike
  have hlookS : ts.lookupSet m1 = some S := lookupSet_of_mem hinv.nodupMids hmemS
  have hlookD : ts.lookupSet m2 = some D := lookupSet_of_mem hinv.nodupMids hmemD
  have hmemcoord : ∀ x, ts'.coord_to_mid x = some ts.mid → x ∈ newSet.coords := by
    intro x hx
    rcases (hroute x).mpr hx with hc | hc
    · obtain ⟨mset1, hmem1, hx1⟩ := (hinv.coordIff x m1).mp hc
      have : mset1 = S := mem_unique_of_nodup hinv.nodupMids hmem1 hmemS
      subst this
      exact (hmemnew x).mpr (Or.inl hx1)
    · obtain ⟨mset1, hmem1, hx1⟩ := (hinv.coordIff x m2).mp hc
      have : mset1 = D := mem_unique_of_nodup hinv.nodupMids hmem1 hmemD
      subst this
      exact (hmemnew x).mpr (Or.inr hx1)
  have hFS : ∀ x ∈ S.coords, F x = f1 x := by
    intro x hx
    have hxS' : x ∈ S'.coords := by
      rw [hcoordsS']
      exact List.mem_append_left _ hx
    have hxd : x ≠ dst := fun hc => hdstnotS (hc ▸ hx)
    rw [hF]
    simp only [hxS', if_true, hf1']
    rw [if_neg hxd]
  have hFD : ∀ x ∈ D.coords, F x = f2 x * ((f2 dst)⁻¹ * f1' dst) := by
    intro x hx
    rw [hF]
    simp only
    by_cases hxS' : x ∈ S'.coords
    · have hxd : x = dst := hsingle x hxS' hx
      rw [if_pos hxS', hxd]
      group
    · rw [if_neg hxS', mul_assoc]
  have hmerged : ∀ x y, ts'.coord_to_mid x = some ts.mid →
      ts'.coord_to_mid y = some ts.mid → ts'.get x y = some (F x * (F y)⁻¹) := by
    intro x y hx hy
    rw [TransformSet.get_eq ts' hx hy hlook',
      MutualSet.get_spec newSet F hspanNew (hmemcoord x hx) (hmemcoord y hy)]
  have hold1 : ∀ x y, ts.coord_to_mid x = some m1 → ts.coord_to_mid y = some m1 →
      ts.get x y = some (F x * (F y)⁻¹) := by
    intro x y hx hy
    obtain ⟨mset1, hmem1, hx1⟩ := (hinv.coordIff x m1).mp hx
    have he1 : mset1 = S := mem_unique_of_nodup hinv.nodupMids hmem1 hmemS
    obtain ⟨mset2, hmem2, hy1⟩ := (hinv.coordIff y m1).mp hy
    have he2 : mset2 = S := mem_unique_of_nodup hinv.nodupMids hmem2 hmemS
    rw [he1] at hx1
    rw [he2] at hy1
    rw [TransformSet.get_eq ts hx hy hlookS,
      MutualSet.get_spec S f1 hspan1 hx1 hy1, hFS x hx1, hFS y hy1]
  have hold2 : ∀ x y, ts.coord_to_mid x = some m2 → ts.coord_to_mid y = some m2 →
      ts.get x y = some (F x * (F y)⁻¹) := by
    intro x y hx hy
    obtain ⟨mset1, hmem1, hx1⟩ := (hinv.coordIff x m2).mp hx
    have he1 : mset1 = D := mem_unique_of_nodup hinv.nodupMids hmem1 hmemD
    obtain ⟨mset2, hmem2, hy1⟩ := (hinv.coordIff y m2).mp hy
    have he2 : mset2 = D := mem_unique_of_nodup hinv.nodupMids hmem2 hmemD
    rw [he1] at hx1
    rw [he2] at hy1
    rw [TransformSet.get_eq ts hx hy hlookD,
      MutualSet.get_spec D f2 hspan2 hx1 hy1, hFD x hx1, hFD y hy1]
    congr 1
    group
  exact ⟨ts', hinseq, hinv', by rw [hts'], hroute, hkeep, hget1, hget2,
    F, hmerged, hold1, hold2⟩

/-! ### Bulk loader: adjacency bookkeeping -/

theorem removeAdj_fst (x : String) (l : List (String × List String)) :
    (removeAdj x l).1 = (l.find? (fun e => e.1 = x)).map Prod.snd := by
  induction l with
  | nil => rfl
  | cons e rest ih =>
    by_cases he : e.1 = x
    · rw [removeAdj, if_pos he, List.find?_cons_of_pos _ (by simpa using he)]
      rfl
    · rw [removeAdj, if_neg he, List.find?_cons_of_neg _ (by simpa using he)]
      exact ih

theorem removeAdj_snd_cons (x : String) (e : String × List String)
    (rest : List (String × List String)) :
    (removeAdj x (e :: rest)).2 =
      if e.1 = x then rest else e :: (removeAdj x rest).2 := by
  by_cases he : e.1 = x
  · rw [if_pos he, removeAdj, if_pos he]
  · rw [if_neg he, removeAdj, if_neg he]

theorem mem_of_mem_removeAdj {x : String} {l : List (String × List String)}
    {a : String × List String} (h : a ∈ (removeAdj x l).2) : a ∈ l := by
  induction l with
  | nil => simpa [removeAdj] using h
  | cons f fs ih =>
    rw [removeAdj_snd_cons] at h
    by_cases hf : f.1 = x
    · rw [if_pos hf] at h
      exact List.mem_cons_of_mem _ h
    · rw [if_neg hf] at h
      rcases List.mem_cons.mp h with hm | hm
      · exact hm ▸ List.mem_cons_self _ _
      · exact List.mem_cons_of_mem _ (ih hm)

theorem removeAdj_find? (x : String) {l : List (String × List String)}
    (hnd : (l.map Prod.fst).Nodup) (y : String) :
    (removeAdj x l).2.find? (fun e => e.1 = y) =
      if y = x then none else l.find? (fun e => e.1 = y) := by
  induction l with
  | nil =>
    by_cases hy : y = x
    · rw [if_pos hy]
      rfl
    · rw [if_neg hy]
      rfl
  | cons e rest ih =>
    rw [List.map_cons, List.nodup_cons] at hnd
    rw [removeAdj_snd_cons]
    by_cases he : e.1 = x
    · rw [if_pos he]
      by_cases hy : y = x
      · rw [if_pos hy]
        cases hf : rest.find? (fun e => decide (e.1 = y)) with
        | none => rfl
        | some a =>
          exfalso
          apply hnd.1
          have hamem := List.mem_of_find?_eq_some hf
          have hapred := List.find?_some hf
          rw [he, ← hy, ← (by simpa using hapred : a.1 = y)]
          exact List.mem_map_of_mem Prod.fst hamem
      · rw [if_neg hy, List.find?_cons_of_neg _ (by
          simp only [decide_eq_true_eq]
          intro hc
          exact hy (hc ▸ he ▸ rfl : y = x))]
    · rw [if_neg he]
      by_cases hy : y = x
      · rw [if_pos hy]
        have hrec := ih hnd.2
        rw [if_pos hy] at hrec
        rw [List.find?_cons_of_neg _ (by
          simp only [decide_eq_true_eq]
          intro hc
          exact he (hy ▸ hc))]
        exact hrec
      · rw [if_neg hy]
        by_cases hey : e.1 = y
        · rw [List.find?_cons_of_pos _ (by simpa using hey),
            List.find?_cons_of_pos _ (by simpa using hey)]
        · rw [List.find?_cons_of_neg _ (by simpa using hey),
            List.find?_cons_of_neg _ (by simpa using hey)]
          have hrec := ih hnd.2
          rw [if_neg hy] at hrec
          exact hrec

theorem removeAdj_nodup (x : String) {l : List (String × List String)}
    (hnd : (l.map Prod.fst).Nodup) : ((removeAdj x l).2.map Prod.fst).Nodup := by
  induction l with
  | nil => simp [removeAdj]
  | cons e rest ih =>
    rw [List.map_cons, List.nodup_cons] at hnd
    rw [removeAdj_snd_cons]
    by_cases he : e.1 = x
    · rw [if_pos he]
      exact hnd.2
    · rw [if_neg he]
      simp only [List.map_cons, List.nodup_cons]
      refine ⟨?_, ih hnd.2⟩
      intro hc
      apply hnd.1
      obtain ⟨a, hamem, hakey⟩ := List.mem_map.mp hc
      exact hakey ▸ List.mem_map_of_mem Prod.fst (mem_of_mem_removeAdj hamem)

theorem adjL_removeAdj (x : String) {l : List (String × List String)}
    (hnd : (l.map Prod.fst).Nodup) (y : String) :
    adjL (removeAdj x l).2 y = if y = x then [] else adjL l y := by
  rw [adjL, removeAdj_find? x hnd y]
  by_cases hy : y = x
  · rw [if_pos hy, if_pos hy]
    rfl
  · rw [if_neg hy, if_neg hy]
    rfl

theorem adjL_eq_getD_removeAdj (x : String) (l : List (String × List String)) :
    ((removeAdj x l).1.getD []) = adjL l x := by
  rw [removeAdj_fst, adjL]

theorem edgesSize_removeAdj (x : String) (l : List (String × List String)) :
    TopoSort.edgesSize (removeAdj x l).2 + ((removeAdj x l).1.getD []).length
      = TopoSort.edgesSize l := by
  induction l with
  | nil => rfl
  | cons e rest ih =>
    by_cases he : e.1 = x
    · rw [removeAdj, if_pos he]
      simp only [TopoSort.edgesSize, List.map_cons, List.sum_cons, Option.getD_some]
      omega
    · rw [removeAdj, if_neg he]
      simp only [TopoSort.edgesSize, List.map_cons, List.sum_cons] at ih ⊢
      omega

/-- Full specification of the BFS work loop of `TopologicalSort::sort`:
with enough fuel it terminates, visits exactly the newly reachable nodes as
a valid walk, and leaves the cumulative visited set adjacency-closed. -/
theorem bfsLoop_spec (A : String → List String) :
    ∀ (fuel : Nat) (fronts : List (String × String)) (visited : List String)
      (edges : List (String × List String)) (comp0 : List String),
      fronts.length + TopoSort.edgesSize edges < fuel →
      (edges.map Prod.fst).Nodup →
      (∀ y, adjL edges y = if y ∈ visited then [] else A y) →
      (∀ pc ∈ fronts, pc.2 ∈ A pc.1 ∧ pc.1 ∈ comp0) →
      (∀ x ∈ comp0, x ∈ visited) →
      visited.Nodup →
      (∀ v ∈ visited, ∀ w ∈ A v, w ∈ visited ∨ ∃ p, (p, w) ∈ fronts) →
      ∃ seq visited' edges',
        TopoSort.bfsLoop fuel fronts visited edges = some (seq, visited', edges') ∧
        visited' = visited ++ seq.map Prod.snd ∧
        ChainOk A comp0 seq ∧
        visited'.Nodup ∧
        (edges'.map Prod.fst).Nodup ∧
        (∀ y, adjL edges' y = if y ∈ visited' then [] else A y) ∧
        (∀ v ∈ visited', ∀ w ∈ A v, w ∈ visited') := by
  intro fuel
  induction fuel with
  | zero =>
    intro fronts visited edges comp0 hfuel
    omega
  | succ fuel ih =>
    intro fronts visited edges comp0 hfuel hknd hadj hfr hcomp hvnd hcl
    match fronts with
    | [] =>
      refine ⟨[], visited, edges, rfl, by simp, trivial, hvnd, hknd, by simpa using hadj, ?_⟩
      intro v hv w hw
      rcases hcl v hv w hw with h | ⟨p, hp⟩
      · exact h
      · simp at hp
    | (p, c) :: rest =>
      by_cases hcv : c ∈ visited
      · have hstep : TopoSort.bfsLoop (fuel + 1) ((p, c) :: rest) visited edges
            = TopoSort.bfsLoop fuel rest visited edges := by
          rw [TopoSort.bfsLoop, if_pos hcv]
        obtain ⟨seq, visited', edges', hrun, hv', hchain, hnd', hknd', hadj', hcl'⟩ :=
          ih rest visited edges comp0 (by simp at hfuel ⊢; omega) hknd hadj
            (fun pc hpc => hfr pc (List.mem_cons_of_mem _ hpc)) hcomp hvnd
            (by
              intro v hv w hw
              rcases hcl v hv w hw with h | ⟨q, hq⟩
              · exact Or.inl h
              · rcases List.mem_cons.mp hq with hq | hq
                · have : w = c := by
                    have := congrArg Prod.snd hq
                    simpa using this
                  exact Or.inl (this ▸ hcv)
                · exact Or.inr ⟨q, hq⟩)
        exact ⟨seq, visited', edges', hstep ▸ hrun, hv', hchain, hnd', hknd', hadj', hcl'⟩
      · have hAc : ((removeAdj c edges).1.getD []) = A c := by
          rw [adjL_eq_getD_removeAdj, hadj c, if_neg hcv]
        have hsize : TopoSort.edgesSize (removeAdj c edges).2 + (A c).length
            = TopoSort.edgesSize edges := by
          rw [← hAc]
          exact edgesSize_removeAdj c edges
        have hknd1 : ((removeAdj c edges).2.map Prod.fst).Nodup := removeAdj_nodup c hknd
        have hadj1 : ∀ y, adjL (removeAdj c edges).2 y =
            if y ∈ visited ++ [c] then [] else A y := by
          intro y
          rw [adjL_removeAdj c hknd y]
          by_cases hyc : y = c
          · rw [if_pos hyc, if_pos (by simp [hyc])]
          · rw [if_neg hyc, hadj y]
            by_cases hyv : y ∈ visited
            · rw [if_pos hyv, if_pos (by simp [hyv])]
            · rw [if_neg hyv, if_neg (by simp [hyv, hyc])]
        have hfr1 : ∀ pc ∈ rest ++ (A c).map (fun n => (c, n)),
            pc.2 ∈ A pc.1 ∧ pc.1 ∈ comp0 ++ [c] := by
          intro pc hpc
          rw [List.mem_append] at hpc
          rcases hpc with hpc | hpc
          · obtain ⟨h1, h2⟩ := hfr pc (List.mem_cons_of_mem _ hpc)
            exact ⟨h1, List.mem_append_left _ h2⟩
          · obtain ⟨n, hn, hpceq⟩ := List.mem_map.mp hpc
            subst hpceq
            exact ⟨hn, List.mem_append_right _ (by simp)⟩
        have hcomp1 : ∀ x ∈ comp0 ++ [c], x ∈ visited ++ [c] := by
          intro x hx
          rw [List.mem_append] at hx ⊢
          rcases hx with hx | hx
          · exact Or.inl (hcomp x hx)
          · exact Or.inr hx
        have hvnd1 : (visited ++ [c]).Nodup := by
          rw [List.nodup_append]
          exact ⟨hvnd, List.nodup_singleton _, by
            intro a ha hb
            rw [List.mem_singleton] at hb
            exact hcv (hb ▸ ha)⟩
        have hcl1 : ∀ v ∈ visited ++ [c], ∀ w ∈ A v,
            w ∈ visited ++ [c] ∨ ∃ q, (q, w) ∈ rest ++ (A c).map (fun n => (c, n)) := by
          intro v hv w hw
          rw [List.mem_append, List.mem_singleton] at hv
          rcases hv with hv | hv
          · rcases hcl v hv w hw with h | ⟨q, hq⟩
            · exact Or.inl (List.mem_append_left _ h)
            · rcases List.mem_cons.mp hq with hq | hq
              · have : w = c := by
                  have := congrArg Prod.snd hq
                  simpa using this
                exact Or.inl (List.mem_append_right _ (by simp [this]))
              · exact Or.inr ⟨q, List.mem_append_left _ hq⟩
          · subst hv
            exact Or.inr ⟨v, List.mem_append_right _ (List.mem_map_of_mem _ hw)⟩
        obtain ⟨seq1, visited'', edges'', hrun, hv', hchain, hnd', hknd', hadj', hcl'⟩ :=
          ih (rest ++ (A c).map (fun n => (c, n))) (visited ++ [c])
            (removeAdj c edges).2 (comp0 ++ [c])
            (by
              simp only [List.length_append, List.length_map, List.length_cons] at hfuel ⊢
              omega)
            hknd1 hadj1 hfr1 hcomp1 hvnd1 hcl1
        refine ⟨(p, c) :: seq1, visited'', edges'', ?_, ?_, ?_, hnd', hknd', hadj', hcl'⟩
        · rw [TopoSort.bfsLoop, if_neg hcv]
          simp only [hAc, hrun]
        · rw [hv', List.map_cons, List.append_assoc]
          rfl
        · obtain ⟨h1, h2⟩ := hfr (p, c) (List.mem_cons_self _ _)
          exact ⟨h2, fun hc => hcv (hcomp c hc), h1, hchain⟩

/-- Full specification of the outer loop of `TopologicalSort::sort`: it
always succeeds, the produced components together with the initial visited
set partition (no duplicates) and cover the scanned nodes, and each
component is a valid breadth-first walk that is closed under the
(symmetric) adjacency. -/
theorem sortCore_spec (A : String → List String) (hsym : ∀ x y, x ∈ A y → y ∈ A x) :
    ∀ (ns visited : List String) (edges : List (String × List String)),
      (edges.map Prod.fst).Nodup →
      (∀ y, adjL edges y = if y ∈ visited then [] else A y) →
      visited.Nodup →
      (∀ v ∈ visited, ∀ w ∈ A v, w ∈ visited) →
      ∃ comps, TopoSort.sortCore ns visited edges = some comps ∧
        (visited ++ comps.flatMap nodesOf).Nodup ∧
        (∀ n ∈ ns, n ∈ visited ++ comps.flatMap nodesOf) ∧
        (∀ comp ∈ comps, comp.start ∈ ns ∧
          ChainOk A [comp.start] comp.seq ∧
          (∀ v ∈ nodesOf comp, ∀ w ∈ A v, w ∈ nodesOf comp)) ∧
        (∀ v ∈ visited ++ comps.flatMap nodesOf, ∀ w ∈ A v,
          w ∈ visited ++ comps.flatMap nodesOf) := by
  intro ns
  induction ns with
  | nil =>
    intro visited edges hknd hadj hvnd hcl
    exact ⟨[], rfl, by simpa using hvnd, by simp, by simp, by simpa using hcl⟩
  | cons n rest ih =>
    intro visited edges hknd hadj hvnd hcl
    by_cases hnv : n ∈ visited
    · obtain ⟨comps, hrun, hnd, hcov, hcomps, hcl'⟩ := ih visited edges hknd hadj hvnd hcl
      refine ⟨comps, ?_, hnd, ?_, ?_, hcl'⟩
      · rw [TopoSort.sortCore, if_pos hnv]
        exact hrun
      · intro m hm
        rcases List.mem_cons.mp hm with hm | hm
        · exact List.mem_append_left _ (hm ▸ hnv)
        · exact hcov m hm
      · intro comp hc
        obtain ⟨h1, h2, h3⟩ := hcomps comp hc
        exact ⟨List.mem_cons_of_mem _ h1, h2, h3⟩
    · have hAn : ((removeAdj n edges).1.getD []) = A n := by
        rw [adjL_eq_getD_removeAdj, hadj n, if_neg hnv]
      have hknd1 : ((removeAdj n edges).2.map Prod.fst).Nodup := removeAdj_nodup n hknd
      have hadj1 : ∀ y, adjL (removeAdj n edges).2 y =
          if y ∈ visited ++ [n] then [] else A y := by
        intro y
        rw [adjL_removeAdj n hknd y]
        by_cases hyn : y = n
        · rw [if_pos hyn, if_pos (by simp [hyn])]
        · rw [if_neg hyn, hadj y]
          by_cases hyv : y ∈ visited
          · rw [if_pos hyv, if_pos (by simp [hyv])]
          · rw [if_neg hyv, if_neg (by simp [hyv, hyn])]
      obtain ⟨seq, visited1, edges1, hbfs, hv1, hchain, hnd1, hknd1', hadj1', hcl1⟩ :=
        bfsLoop_spec A
          (((A n).map (fun x => (n, x))).length +
            TopoSort.edgesSize (removeAdj n edges).2 + 1)
          ((A n).map (fun x => (n, x))) (visited ++ [n]) (removeAdj n edges).2 [n]
          (by omega) hknd1 hadj1
          (by
            intro pc hpc
            obtain ⟨x, hx, hpceq⟩ := List.mem_map.mp hpc
            subst hpceq
            exact ⟨hx, by simp⟩)
          (by
            intro x hx
            rw [List.mem_singleton] at hx
            exact List.mem_append_right _ (by simp [hx]))
          (by
            rw [List.nodup_append]
            exact ⟨hvnd, List.nodup_singleton _, by
              intro a ha hb
              rw [List.mem_singleton] at hb
              exact hnv (hb ▸ ha)⟩)
          (by
            intro v hv w hw
            rw [List.mem_append, List.mem_singleton] at hv
            rcases hv with hv | hv
            · exact Or.inl (List.mem_append_left _ (hcl v hv w hw))
            · exact Or.inr ⟨v, by
                subst hv
                exact List.mem_map_of_mem _ hw⟩)
      obtain ⟨comps, hrun, hnd, hcov, hcomps, hcl'⟩ :=
        ih visited1 edges1 hknd1' hadj1' hnd1 hcl1
      have hdisj : ∀ x ∈ nodesOf ⟨n, seq⟩, x ∉ visited := by
        intro x hx hxv
        rw [hv1] at hnd1
        rw [List.nodup_append] at hnd1
        simp only [nodesOf] at hx
        rcases List.mem_cons.mp hx with hx | hx
        · exact hnv (hx ▸ hxv)
        · exact hnd1.2.2 (List.mem_append_left _ hxv) hx
      have hccl : ∀ v ∈ nodesOf ⟨n, seq⟩, ∀ w ∈ A v, w ∈ nodesOf (⟨n, seq⟩ : Component) := by
        intro v hv w hw
        have hvv1 : v ∈ visited1 := by
          rw [hv1, List.append_assoc, List.mem_append]
          exact Or.inr (by simpa [nodesOf] using hv)
        have hwv1 : w ∈ visited1 := hcl1 v hvv1 w hw
        rw [hv1, List.append_assoc, List.mem_append] at hwv1
        rcases hwv1 with hwv | hwv
        · exfalso
          exact hdisj v hv (hcl w hwv v (hsym w v hw))
        · simpa [nodesOf] using hwv
      have hva : visited ++ ((⟨n, seq⟩ : Component) :: comps).flatMap nodesOf
          = visited1 ++ comps.flatMap nodesOf := by
        rw [hv1]
        simp [nodesOf]
      refine ⟨⟨n, seq⟩ :: comps, ?_, ?_, ?_, ?_, ?_⟩
      · rw [TopoSort.sortCore, if_neg hnv]
        dsimp only
        rw [hAn, hbfs]
        dsimp only
        rw [hrun]
      · rw [hva]
        exact hnd
      · intro m hm
        rw [hva]
        rcases List.mem_cons.mp hm with hm | hm
        · subst hm
          rw [hv1]
          exact List.mem_append_left _
            (List.mem_append_left _ (List.mem_append_right _ (by simp)))
        · exact hcov m hm
      · intro comp hc
        rcases List.mem_cons.mp hc with hc | hc
        · subst hc
          exact ⟨List.mem_cons_self _ _, hchain, hccl⟩
        · obtain ⟨h1, h2, h3⟩ := hcomps comp hc
          exact ⟨List.mem_cons_of_mem _ h1, h2, h3⟩
      · intro v hv w hw
        rw [hva] at hv ⊢
        exact hcl' v hv w hw

/-! ### Bulk loader: edge registration (`TopologicalSort::insert_edge`) -/

theorem mem_addNode {n x : String} {l : List String} :
    x ∈ addNode n l ↔ x ∈ l ∨ x = n := by
  rw [addNode]
  by_cases h : n ∈ l
  · rw [if_pos h]
    constructor
    · exact Or.inl
    · rintro (hx | rfl)
      · exact hx
      · exact h
  · rw [if_neg h]
    simp

theorem addNode_nodup {n : String} {l : List String} (h : l.Nodup) :
    (addNode n l).Nodup := by
  rw [addNode]
  by_cases hm : n ∈ l
  · rwa [if_pos hm]
  · rw [if_neg hm, List.nodup_append]
    exact ⟨h, List.nodup_singleton _, by
      intro a ha hb
      rw [List.mem_singleton] at hb
      exact hm (hb ▸ ha)⟩

theorem map_fst_addAdj (a b : String) (l : List (String × List String)) :
    (addAdj a b l).map Prod.fst =
      if a ∈ l.map Prod.fst then l.map Prod.fst else l.map Prod.fst ++ [a] := by
  induction l with
  | nil => simp [addAdj]
  | cons e rest ih =>
    by_cases h : e.1 = a
    · simp [addAdj, h]
    · rw [addAdj, if_neg h, List.map_cons, ih, List.map_cons]
      by_cases hm : a ∈ rest.map Prod.fst
      · rw [if_pos hm, if_pos (List.mem_cons_of_mem _ hm)]
      · rw [if_neg hm, if_neg (by
          intro hc
          rcases List.mem_cons.mp hc with hc | hc
          · exact h hc.symm
          · exact hm hc)]
        simp

theorem addAdj_keys_nodup {a b : String} {l : List (String × List String)}
    (h : (l.map Prod.fst).Nodup) : ((addAdj a b l).map Prod.fst).Nodup := by
  rw [map_fst_addAdj]
  by_cases hm : a ∈ l.map Prod.fst
  · rwa [if_pos hm]
  · rw [if_neg hm, List.nodup_append]
    exact ⟨h, List.nodup_singleton _, by
      intro x hx hb
      rw [List.mem_singleton] at hb
      exact hm (hb ▸ hx)⟩

theorem adjL_cons (k : String) (vs : List String) (rest : List (String × List String))
    (x : String) :
    adjL ((k, vs) :: rest) x = if k = x then vs else adjL rest x := by
  by_cases h : k = x
  · rw [adjL, List.find?_cons_of_pos _ (by simpa using h), if_pos h]
    rfl
  · rw [adjL, List.find?_cons_of_neg _ (by simpa using h), if_neg h, adjL]

theorem adjL_nil (x : String) : adjL ([] : List (String × List String)) x = [] := rfl

theorem mem_adjL_addAdj (a b x y : String) (l : List (String × List String)) :
    y ∈ adjL (addAdj a b l) x ↔ y ∈ adjL l x ∨ (x = a ∧ y = b) := by
  induction l with
  | nil =>
    rw [addAdj, adjL_cons, adjL_nil]
    by_cases h : a = x
    · rw [if_pos h, h]
      simp [eq_comm]
    · rw [if_neg h]
      have hxa : ¬(x = a) := fun hc => h hc.symm
      simp [hxa]
  | cons e rest ih =>
    match e with
    | (k, vs) =>
      by_cases hk : k = a
      · rw [addAdj, if_pos hk, adjL_cons, adjL_cons]
        by_cases hx : k = x
        · rw [if_pos hx, if_pos hx]
          have hxa : x = a := by rw [← hx, hk]
          by_cases hb : b ∈ vs
          · rw [if_pos hb]
            constructor
            · exact Or.inl
            · rintro (hy | ⟨_, rfl⟩)
              · exact hy
              · exact hb
          · rw [if_neg hb, List.mem_append, List.mem_singleton]
            constructor
            · rintro (hy | hy)
              · exact Or.inl hy
              · exact Or.inr ⟨hxa, hy⟩
            · rintro (hy | ⟨_, rfl⟩)
              · exact Or.inl hy
              · exact Or.inr rfl
        · rw [if_neg hx, if_neg hx]
          have hxa : ¬(x = a) := fun hc => hx (by rw [hk, hc])
          simp [hxa]
      · rw [addAdj, if_neg hk, adjL_cons, adjL_cons]
        by_cases hx : k = x
        · rw [if_pos hx, if_pos hx]
          have hxa : ¬(x = a) := fun hc => hk (by rw [hx, hc])
          simp [hxa]
        · rw [if_neg hx, if_neg hx]
          exact ih

theorem insertEdge_nodes (t : TopoSort) (a b x : String) :
    x ∈ (t.insertEdge a b).nodes ↔ x ∈ t.nodes ∨ x = a ∨ x = b := by
  rw [TopoSort.insertEdge]
  by_cases h : a = b
  · rw [if_pos h]
    subst h
    show x ∈ addNode a t.nodes ↔ _
    rw [mem_addNode]
    tauto
  · rw [if_neg h]
    show x ∈ addNode b (addNode a t.nodes) ↔ _
    rw [mem_addNode, mem_addNode]
    tauto

theorem insertEdge_nodes_nodup (t : TopoSort) (a b : String) (h : t.nodes.Nodup) :
    (t.insertEdge a b).nodes.Nodup := by
  rw [TopoSort.insertEdge]
  by_cases hab : a = b
  · rw [if_pos hab]
    exact addNode_nodup h
  · rw [if_neg hab]
    exact addNode_nodup (addNode_nodup h)

theorem insertEdge_keys_nodup (t : TopoSort) (a b : String)
    (h : (t.edges.map Prod.fst).Nodup) :
    ((t.insertEdge a b).edges.map Prod.fst).Nodup := by
  rw [TopoSort.insertEdge]
  by_cases hab : a = b
  · rwa [if_pos hab]
  · rw [if_neg hab]
    exact addAdj_keys_nodup (addAdj_keys_nodup h)

theorem insertEdge_adjL (t : TopoSort) (a b x y : String) :
    y ∈ adjL (t.insertEdge a b).edges x ↔
      y ∈ adjL t.edges x ∨ (a ≠ b ∧ ((x = a ∧ y = b) ∨ (x = b ∧ y = a))) := by
  rw [TopoSort.insertEdge]
  by_cases h : a = b
  · rw [if_pos h]
    simp [h]
  · rw [if_neg h]
    show y ∈ adjL (addAdj b a (addAdj a b t.edges)) x ↔ _
    rw [mem_adjL_addAdj, mem_adjL_addAdj]
    constructor
    · rintro ((hy | hp) | hp)
      · exact Or.inl hy
      · exact Or.inr ⟨h, Or.inl hp⟩
      · exact Or.inr ⟨h, Or.inr hp⟩
    · rintro (hy | ⟨_, hp | hp⟩)
      · exact Or.inl (Or.inl hy)
      · exact Or.inl (Or.inr hp)
      · exact Or.inr hp

/-! ### The undirected fact graph -/

theorem EdgeRel_nil (x y : String) : ¬ EdgeRel ([] : List (CoordTransform G)) x y := by
  rintro ⟨_, t, ht | ht⟩ <;> simp at ht

theorem EdgeRel_cons {c : CoordTransform G} {l : List (CoordTransform G)} {x y : String} :
    EdgeRel (c :: l) x y ↔ EdgeRel l x y ∨
      (x ≠ y ∧ ((x = c.src ∧ y = c.dst) ∨ (x = c.dst ∧ y = c.src))) := by
  constructor
  · rintro ⟨hne, t, ht | ht⟩
    · rcases List.mem_cons.mp ht with ht | ht
      · refine Or.inr ⟨hne, Or.inl ⟨?_, ?_⟩⟩
        · have := congrArg CoordTransform.src ht
          simpa using this
        · have := congrArg CoordTransform.dst ht
          simpa using this
      · exact Or.inl ⟨hne, t, Or.inl ht⟩
    · rcases List.mem_cons.mp ht with ht | ht
      · refine Or.inr ⟨hne, Or.inr ⟨?_, ?_⟩⟩
        · have := congrArg CoordTransform.dst ht
          simpa using this
        · have := congrArg CoordTransform.src ht
          simpa using this
      · exact Or.inl ⟨hne, t, Or.inr ht⟩
  · rintro (⟨hne, t, ht | ht⟩ | ⟨hne, ⟨hx, hy⟩ | ⟨hx, hy⟩⟩)
    · exact ⟨hne, t, Or.inl (List.mem_cons_of_mem _ ht)⟩
    · exact ⟨hne, t, Or.inr (List.mem_cons_of_mem _ ht)⟩
    · exact ⟨hne, c.tf, Or.inl (by
        rw [hx, hy]
        exact List.mem_cons_self _ _)⟩
    · exact ⟨hne, c.tf, Or.inr (by
        rw [hx, hy]
        exact List.mem_cons_self _ _)⟩

theorem EdgeRel_symm {l : List (CoordTransform G)} {x y : String}
    (h : EdgeRel l x y) : EdgeRel l y x := by
  obtain ⟨hne, t, ht⟩ := h
  exact ⟨hne.symm, t, ht.symm⟩

theorem EdgeRel_ne {l : List (CoordTransform G)} {x y : String}
    (h : EdgeRel l x y) : x ≠ y := h.1

theorem EdgeRel_of_perm {l l' : List (CoordTransform G)} (hp : l.Perm l') {x y : String} :
    EdgeRel l x y ↔ EdgeRel l' x y := by
  constructor
  · rintro ⟨hne, t, ht | ht⟩
    · exact ⟨hne, t, Or.inl (hp.mem_iff.mp ht)⟩
    · exact ⟨hne, t, Or.inr (hp.mem_iff.mp ht)⟩
  · rintro ⟨hne, t, ht | ht⟩
    · exact ⟨hne, t, Or.inl (hp.mem_iff.mpr ht)⟩
    · exact ⟨hne, t, Or.inr (hp.mem_iff.mpr ht)⟩

/-! ### Bulk loader: the fact-ingestion fold (`try_from_iter`, first loop) -/

/-- Structural soundness of the ingestion fold: when it succeeds, the
sorter's node set and adjacency are exactly the frames and undirected
edges of the fact list, and the directed adjacency map gained entries for
exactly the asserted ordered pairs. -/
theorem buildAdj_sound :
    ∀ (l : List (CoordTransform G)) (adj : String → String → Option G) (t : TopoSort)
      (adj' : String → String → Option G) (t' : TopoSort),
      buildAdj l adj t = .ok (adj', t') →
      (t.nodes.Nodup → t'.nodes.Nodup) ∧
      ((t.edges.map Prod.fst).Nodup → (t'.edges.map Prod.fst).Nodup) ∧
      (∀ x, x ∈ t'.nodes ↔ x ∈ t.nodes ∨ ∃ c ∈ l, x = c.src ∨ x = c.dst) ∧
      (∀ x y, y ∈ adjL t'.edges x ↔ y ∈ adjL t.edges x ∨ EdgeRel l x y) ∧
      (∀ x y, EdgeRel l x y ∨ (adj x y).isSome → (adj' x y).isSome) ∧
      (∀ x y, ¬ EdgeRel l x y → adj' x y = adj x y) := by
  intro l
  induction l with
  | nil =>
    intro adj t adj' t' heq
    rw [buildAdj] at heq
    simp only [Except.ok.injEq, Prod.mk.injEq] at heq
    obtain ⟨h1, h2⟩ := heq
    subst h1
    subst h2
    refine ⟨id, id, by simp, ?_, ?_, fun _ _ _ => rfl⟩
    · intro x y
      simp [EdgeRel_nil]
    · intro x y h
      rcases h with h | h
      · exact absurd h (EdgeRel_nil x y)
      · exact h
  | cons c rest ih =>
    intro adj t adj' t' heq
    rw [buildAdj] at heq
    by_cases hsd : c.src = c.dst
    · rw [if_pos hsd] at heq
      by_cases htf : c.tf = 1
      · rw [if_pos htf] at heq
        obtain ⟨hnn, hkn, hniff, haiff, hsome, hkeep⟩ := ih _ _ _ _ heq
        have hcons : ∀ x y, EdgeRel (c :: rest) x y ↔ EdgeRel rest x y := by
          intro x y
          rw [EdgeRel_cons]
          constructor
          · rintro (h | ⟨hxy, ⟨h1, h2⟩ | ⟨h1, h2⟩⟩)
            · exact h
            · exact absurd (by rw [h1, h2, hsd]) hxy
            · exact absurd (by rw [h1, h2, hsd]) hxy
          · exact Or.inl
        refine ⟨?_, ?_, ?_, ?_, ?_, ?_⟩
        · intro h
          exact hnn (insertEdge_nodes_nodup t _ _ h)
        · intro h
          exact hkn (insertEdge_keys_nodup t _ _ h)
        · intro x
          rw [hniff x, insertEdge_nodes]
          constructor
          · rintro ((hx | hx | hx) | ⟨d, hd, hxd⟩)
            · exact Or.inl hx
            · exact Or.inr ⟨c, List.mem_cons_self _ _, Or.inl hx⟩
            · exact Or.inr ⟨c, List.mem_cons_self _ _, Or.inr hx⟩
            · exact Or.inr ⟨d, List.mem_cons_of_mem _ hd, hxd⟩
          · rintro (hx | ⟨d, hd, hxd⟩)
            · exact Or.inl (Or.inl hx)
            · rcases List.mem_cons.mp hd with rfl | hd
              · rcases hxd with hxd | hxd
                · exact Or.inl (Or.inr (Or.inl hxd))
                · exact Or.inl (Or.inr (Or.inr hxd))
              · exact Or.inr ⟨d, hd, hxd⟩
        · intro x y
          rw [haiff x y, insertEdge_adjL, hcons x y]
          constructor
          · rintro ((hy | ⟨hne, _⟩) | hr)
            · exact Or.inl hy
            · exact absurd hsd hne
            · exact Or.inr hr
          · rintro (hy | hr)
            · exact Or.inl (Or.inl hy)
            · exact Or.inr hr
        · intro x y h
          apply hsome
          rcases h with h | h
          · exact Or.inl ((hcons x y).mp h)
          · exact Or.inr h
        · intro x y h
          exact hkeep x y (fun hc => h ((hcons x y).mpr hc))
      · rw [if_neg htf] at heq
        exact Except.noConfusion heq
    · rw [if_neg hsd] at heq
      obtain ⟨hnn, hkn, hniff, haiff, hsome, hkeep⟩ := ih _ _ _ _ heq
      refine ⟨?_, ?_, ?_, ?_, ?_, ?_⟩
      · intro h
        exact hnn (insertEdge_nodes_nodup t _ _ h)
      · intro h
        exact hkn (insertEdge_keys_nodup t _ _ h)
      · intro x
        rw [hniff x, insertEdge_nodes]
        constructor
        · rintro ((hx | hx | hx) | ⟨d, hd, hxd⟩)
          · exact Or.inl hx
          · exact Or.inr ⟨c, List.mem_cons_self _ _, Or.inl hx⟩
          · exact Or.inr ⟨c, List.mem_cons_self _ _, Or.inr hx⟩
          · exact Or.inr ⟨d, List.mem_cons_of_mem _ hd, hxd⟩
        · rintro (hx | ⟨d, hd, hxd⟩)
          · exact Or.inl (Or.inl hx)
          · rcases List.mem_cons.mp hd with rfl | hd
            · rcases hxd with hxd | hxd
              · exact Or.inl (Or.inr (Or.inl hxd))
              · exact Or.inl (Or.inr (Or.inr hxd))
            · exact Or.inr ⟨d, hd, hxd⟩
      · intro x y
        rw [haiff x y, insertEdge_adjL, EdgeRel_cons]
        constructor
        · rintro ((hy | ⟨hne, hp⟩) | hr)
          · exact Or.inl hy
          · refine Or.inr (Or.inr ⟨?_, hp⟩)
            rcases hp with ⟨h1, h2⟩ | ⟨h1, h2⟩
            · rw [h1, h2]
              exact hsd
            · rw [h1, h2]
              exact fun hc => hsd hc.symm
          · exact Or.inr (Or.inl hr)
        · rintro (hy | hr | ⟨hxy, hp⟩)
          · exact Or.inl (Or.inl hy)
          · exact Or.inr hr
          · exact Or.inl (Or.inr ⟨hsd, hp⟩)
      · intro x y h
        apply hsome
        rcases h with h | h
        · rcases EdgeRel_cons.mp h with h | ⟨hxy, hp⟩
          · exact Or.inl h
          · refine Or.inr ?_
            rcases hp with ⟨h1, h2⟩ | ⟨h1, h2⟩
            · rw [updAdj, if_pos ⟨h1, h2⟩]
              rfl
            · rw [updAdj, if_neg (by
                rintro ⟨ha, _⟩
                exact hsd (by rw [← ha, h1]))]
              rw [updAdj, if_pos ⟨h1, h2⟩]
              rfl
        · refine Or.inr ?_
          rw [updAdj]
          by_cases h1 : x = c.src ∧ y = c.dst
          · rw [if_pos h1]
            rfl
          · rw [if_neg h1, updAdj]
            by_cases h2 : x = c.dst ∧ y = c.src
            · rw [if_pos h2]
              rfl
            · rw [if_neg h2]
              exact h
      · intro x y h
        have hr : ¬ EdgeRel rest x y := fun hc => h (EdgeRel_cons.mpr (Or.inl hc))
        have h1 : ¬(x = c.src ∧ y = c.dst) := by
          rintro ⟨ha, hb⟩
          exact h (EdgeRel_cons.mpr (Or.inr ⟨by rw [ha, hb]; exact hsd, Or.inl ⟨ha, hb⟩⟩))
        have h2 : ¬(x = c.dst ∧ y = c.src) := by
          rintro ⟨ha, hb⟩
          refine h (EdgeRel_cons.mpr (Or.inr ⟨?_, Or.inr ⟨ha, hb⟩⟩))
          rw [ha, hb]
          exact fun hc => hsd hc.symm
        rw [hkeep x y hr, updAdj, if_neg h1, updAdj, if_neg h2]

/-- The ingestion fold succeeds whenever every self-loop carries the
identity transform. -/
theorem buildAdj_total :
    ∀ (l : List (CoordTransform G)), (∀ c ∈ l, c.src = c.dst → c.tf = 1) →
      ∀ (adj : String → String → Option G) (t : TopoSort),
      ∃ adj' t', buildAdj l adj t = .ok (adj', t') := by
  intro l
  induction l with
  | nil =>
    intro _ adj t
    exact ⟨adj, t, rfl⟩
  | cons c rest ih =>
    intro h adj t
    by_cases hsd : c.src = c.dst
    · obtain ⟨adj', t', hrun⟩ := ih (fun d hd => h d (List.mem_cons_of_mem _ hd))
        adj (t.insertEdge c.src c.dst)
      exact ⟨adj', t', by rw [buildAdj, if_pos hsd,
        if_pos (h c (List.mem_cons_self _ _) hsd)]; exact hrun⟩
    · obtain ⟨adj', t', hrun⟩ := ih (fun d hd => h d (List.mem_cons_of_mem _ hd))
        (updAdj (updAdj adj c.dst c.src c.tf⁻¹) c.src c.dst c.tf)
        (t.insertEdge c.src c.dst)
      exact ⟨adj', t', by rw [buildAdj, if_neg hsd]; exact hrun⟩

/-- On a fact list consistent with the potential `F`, every entry the
ingestion fold stores in the directed adjacency map is the difference of
the endpoint potentials. -/
theorem buildAdj_values (F : String → G) :
    ∀ (l : List (CoordTransform G)) (adj : String → String → Option G) (t : TopoSort)
      (adj' : String → String → Option G) (t' : TopoSort),
      buildAdj l adj t = .ok (adj', t') →
      ConsistentWith F l →
      (∀ x y v, adj x y = some v → v = F x * (F y)⁻¹) →
      ∀ x y v, adj' x y = some v → v = F x * (F y)⁻¹ := by
  intro l
  induction l with
  | nil =>
    intro adj t adj' t' heq _ hin
    rw [buildAdj] at heq
    simp only [Except.ok.injEq, Prod.mk.injEq] at heq
    obtain ⟨h1, _⟩ := heq
    subst h1
    exact hin
  | cons c rest ih =>
    intro adj t adj' t' heq hcons hin
    have hhead : c.tf = F c.src * (F c.dst)⁻¹ := hcons c (List.mem_cons_self _ _)
    have htail : ConsistentWith F rest := fun d hd => hcons d (List.mem_cons_of_mem _ hd)
    rw [buildAdj] at heq
    by_cases hsd : c.src = c.dst
    · rw [if_pos hsd] at heq
      by_cases htf : c.tf = 1
      · rw [if_pos htf] at heq
        exact ih _ _ _ _ heq htail hin
      · rw [if_neg htf] at heq
        exact Except.noConfusion heq
    · rw [if_neg hsd] at heq
      refine ih _ _ _ _ heq htail ?_
      intro x y v hv
      rw [updAdj] at hv
      by_cases h1 : x = c.src ∧ y = c.dst
      · rw [if_pos h1] at hv
        obtain ⟨hx, hy⟩ := h1
        rw [hx, hy, ← hhead]
        exact (Option.some_inj.mp hv).symm
      · rw [if_neg h1, updAdj] at hv
        by_cases h2 : x = c.dst ∧ y = c.src
        · rw [if_pos h2] at hv
          obtain ⟨hx, hy⟩ := h2
          rw [hx, hy]
          have := (Option.some_inj.mp hv).symm
          rw [this, hhead]
          rw [mul_inv_rev, inv_inv]
        · rw [if_neg h2] at hv
          exact hin x y v hv

/-! ### Bulk loader: per-component ledger construction -/

/-- A ledger invariant only constrains the potential on the ledger's own
coordinates. -/
theorem Spanned_congr_on (m : MutualSet G) {f f' : String → G} (h : m.Spanned f)
    (he : ∀ x ∈ m.coords, f x = f' x) : m.Spanned f' := by
  obtain ⟨hnd, hpos⟩ := h
  refine ⟨hnd, SpannedPos_congr hpos ?_⟩
  intro p hp
  exact he (keyD m.lookup p) (keyD_mem hp)

theorem MutualSet.new_spanned (f : String → G) : (MutualSet.new (G := G)).Spanned f := by
  refine ⟨by simp [MutualSet.new], ?_⟩
  intro p k
  rw [if_neg (by simp [MutualSet.new])]
  rfl

/-- Replaying a valid walk into a ledger succeeds and extends the ledger by
the walk targets, for some potential (no consistency assumed on the
supplied adjacency values). -/
theorem buildMSet_exists (A : String → List String) (adj : String → String → Option G)
    (hadj : ∀ s d, d ∈ A s → (adj s d).isSome) :
    ∀ (seq : List (String × String)) (members : List String) (m : MutualSet G)
      (f : String → G),
      ChainOk A members seq →
      m.Spanned f →
      (∀ x, x ∈ m.coords ↔ x ∈ members) →
      ∃ m' f', buildMSet adj seq m = some m' ∧ m'.Spanned f' ∧
        m'.coords = m.coords ++ seq.map Prod.snd := by
  intro seq
  induction seq with
  | nil =>
    intro members m f _ hspan _
    exact ⟨m, f, rfl, hspan, by simp⟩
  | cons e rest ih =>
    match e with
    | (src, dst) =>
      intro members m f hchain hspan hmem
      obtain ⟨hsrc, hdst, hA, hrest⟩ := hchain
      obtain ⟨tf, htf⟩ := Option.isSome_iff_exists.mp (hadj src dst hA)
      obtain ⟨m1, hins, hcoords, hspan1⟩ := MutualSet.insert_dst_new m f hspan
        ((hmem src).mpr hsrc) (fun hc => hdst ((hmem dst).mp hc)) tf
      obtain ⟨m', f', hrun, hspan', hcoords'⟩ := ih (members ++ [dst]) m1 _ hrest hspan1
        (by
          intro x
          rw [hcoords, List.mem_append, List.mem_append, List.mem_singleton, hmem x])
      refine ⟨m', f', ?_, hspan', ?_⟩
      · rw [buildMSet, htf]
        simp only [Option.bind_eq_bind, Option.some_bind]
        rw [hins]
        simp only [Option.some_bind]
        exact hrun
      · rw [hcoords', hcoords, List.map_cons, List.append_assoc]
        rfl

/-- Replaying a valid walk whose adjacency values are differences of the
potential `F` keeps the ledger spanned by `F` (up to the constant right
factor `k`). -/
theorem buildMSet_consistent (A : String → List String) (adj : String → String → Option G)
    (F : String → G) (hadj : ∀ s d, d ∈ A s → adj s d = some (F s * (F d)⁻¹)) (k : G) :
    ∀ (seq : List (String × String)) (members : List String) (m : MutualSet G),
      ChainOk A members seq →
      m.Spanned (fun x => F x * k) →
      (∀ x, x ∈ m.coords ↔ x ∈ members) →
      ∃ m', buildMSet adj seq m = some m' ∧ m'.Spanned (fun x => F x * k) ∧
        m'.coords = m.coords ++ seq.map Prod.snd := by
  intro seq
  induction seq with
  | nil =>
    intro members m _ hspan _
    exact ⟨m, rfl, hspan, by simp⟩
  | cons e rest ih =>
    match e with
    | (src, dst) =>
      intro members m hchain hspan hmem
      obtain ⟨hsrc, hdst, hA, hrest⟩ := hchain
      obtain ⟨m1, hins, hcoords, hspan1⟩ := MutualSet.insert_dst_new m _ hspan
        ((hmem src).mpr hsrc) (fun hc => hdst ((hmem dst).mp hc)) (F src * (F dst)⁻¹)
      have hfun : (fun x => if x = dst then (F src * (F dst)⁻¹)⁻¹ * (F src * k)
          else F x * k) = fun x => F x * k := by
        funext x
        by_cases hx : x = dst
        · rw [if_pos hx, hx]
          group
        · rw [if_neg hx]
      rw [hfun] at hspan1
      obtain ⟨m', hrun, hspan', hcoords'⟩ := ih (members ++ [dst]) m1 hrest hspan1
        (by
          intro x
          rw [hcoords, List.mem_append, List.mem_append, List.mem_singleton, hmem x])
      refine ⟨m', ?_, hspan', ?_⟩
      · rw [buildMSet, hadj src dst hA]
        simp only [Option.bind_eq_bind, Option.some_bind]
        rw [hins]
        simp only [Option.some_bind]
        exact hrun
      · rw [hcoords', hcoords, List.map_cons, List.append_assoc]
        rfl

/-- Component wrapper of `buildMSet_exists`: the ledger built for a sorter
component contains exactly the component's frames (none for an isolated
start). -/
theorem buildMSet_new_exists (A : String → List String) (adj : String → String → Option G)
    (hadj : ∀ s d, d ∈ A s → (adj s d).isSome) (n : String) (seq : List (String × String))
    (hchain : ChainOk A [n] seq) :
    ∃ m' f', buildMSet adj seq MutualSet.new = some m' ∧ m'.Spanned f' ∧
      m'.coords = if seq = [] then [] else n :: seq.map Prod.snd := by
  match seq with
  | [] =>
    exact ⟨MutualSet.new, fun _ => 1, rfl, MutualSet.new_spanned _, by simp [MutualSet.new,
      MutualSet.coords]⟩
  | (src, dst) :: rest =>
    obtain ⟨hsrc, hdst, hA, hrest⟩ := hchain
    rw [List.mem_singleton] at hsrc
    have hdn : dst ≠ n := by
      intro hc
      exact hdst (by simp [hc])
    have hsd : src ≠ dst := by
      rw [hsrc]
      exact fun hc => hdn hc.symm
    obtain ⟨tf, htf⟩ := Option.isSome_iff_exists.mp (hadj src dst hA)
    have hins := MutualSet.insert_fresh_pair src dst tf
    rw [if_neg hsd] at hins
    have hspan0 := MutualSet.pair_spanned src dst tf hsd
    have hcoords0 : (⟨[(src, [tf]), (dst, [])]⟩ : MutualSet G).coords = [src, dst] := rfl
    obtain ⟨m', f', hrun, hspan', hcoords'⟩ := buildMSet_exists A adj hadj rest
      ([n] ++ [dst]) _ _ hrest hspan0
      (by
        intro x
        rw [hcoords0, hsrc]
        simp)
    refine ⟨m', f', ?_, hspan', ?_⟩
    · rw [buildMSet, htf]
      simp only [Option.bind_eq_bind, Option.some_bind]
      rw [hins]
      simp only [Option.some_bind]
      exact hrun
    · rw [hcoords', hcoords0, hsrc, if_neg (by simp)]
      rfl

/-- Component wrapper of `buildMSet_consistent`: on consistent adjacency
values the component ledger is spanned by `F` normalised at the component
start. -/
theorem buildMSet_new_consistent (A : String → List String)
    (adj : String → String → Option G) (F : String → G)
    (hadj : ∀ s d, d ∈ A s → adj s d = some (F s * (F d)⁻¹)) (n : String)
    (seq : List (String × String)) (hchain : ChainOk A [n] seq) :
    ∃ m', buildMSet adj seq MutualSet.new = some m' ∧
      m'.Spanned (fun x => F x * (F n)⁻¹) ∧
      m'.coords = if seq = [] then [] else n :: seq.map Prod.snd := by
  match seq with
  | [] =>
    exact ⟨MutualSet.new, rfl, MutualSet.new_spanned _, by simp [MutualSet.new,
      MutualSet.coords]⟩
  | (src, dst) :: rest =>
    obtain ⟨hsrc, hdst, hA, hrest⟩ := hchain
    rw [List.mem_singleton] at hsrc
    have hdn : dst ≠ n := by
      intro hc
      exact hdst (by simp [hc])
    have hsd : src ≠ dst := by
      rw [hsrc]
      exact fun hc => hdn hc.symm
    have htf := hadj src dst hA
    have hins := MutualSet.insert_fresh_pair src dst (F src * (F dst)⁻¹)
    rw [if_neg hsd] at hins
    have hspan0 := MutualSet.pair_spanned src dst (F src * (F dst)⁻¹) hsd
    have hcoords0 : (⟨[(src, [F src * (F dst)⁻¹]), (dst, [])]⟩ : MutualSet G).coords
        = [src, dst] := rfl
    have hspan1 : (⟨[(src, [F src * (F dst)⁻¹]), (dst, [])]⟩ : MutualSet G).Spanned
        (fun x => F x * (F n)⁻¹) := by
      refine Spanned_congr_on _ hspan0 ?_
      intro x hx
      rw [hcoords0] at hx
      rcases List.mem_cons.mp hx with hx | hx
      · rw [hx, if_neg hsd, hsrc]
        group
      · rw [List.mem_singleton] at hx
        rw [hx, if_pos rfl, hsrc]
        group
    obtain ⟨m', hrun, hspan', hcoords'⟩ := buildMSet_consistent A adj F hadj (F n)⁻¹ rest
      ([n] ++ [dst]) _ hrest hspan1
      (by
        intro x
        rw [hcoords0, hsrc]
        simp)
    refine ⟨m', ?_, hspan', ?_⟩
    · rw [buildMSet, htf]
      simp only [Option.bind_eq_bind, Option.some_bind]
      rw [hins]
      simp only [Option.some_bind]
      exact hrun
    · rw [hcoords', hcoords0, hsrc, if_neg (by simp)]
      rfl

/-! ### Bulk loader: assembling the per-component results -/

theorem mapM_option_forall2 {α β : Type} (f : α → Option β) :
    ∀ (l : List α), (∀ a ∈ l, (f a).isSome) →
      ∃ bs, l.mapM f = some bs ∧ List.Forall₂ (fun a b => f a = some b) l bs := by
  intro l
  induction l with
  | nil => exact fun _ => ⟨[], List.mapM_nil f, List.Forall₂.nil⟩
  | cons a rest ih =>
    intro h
    obtain ⟨b, hb⟩ := Option.isSome_iff_exists.mp (h a (List.mem_cons_self _ _))
    obtain ⟨bs, hrun, hall⟩ := ih (fun x hx => h x (List.mem_cons_of_mem _ hx))
    refine ⟨b :: bs, ?_, List.Forall₂.cons hb hall⟩
    rw [List.mapM_cons, hb, hrun]
    rfl

theorem cm_inner_fold (mid : Nat) (coords : List String) :
    ∀ (acc : String → Option Nat) (c : String),
      (coords.foldl (fun acc2 x => cmUpdate x mid acc2) acc) c
        = if c ∈ coords then some mid else acc c := by
  induction coords with
  | nil =>
    intro acc c
    simp
  | cons d rest ih =>
    intro acc c
    rw [List.foldl_cons, ih]
    by_cases hc : c ∈ rest
    · rw [if_pos hc, if_pos (List.mem_cons_of_mem _ hc)]
    · rw [if_neg hc, cmUpdate]
      by_cases hcd : c = d
      · rw [if_pos hcd, if_pos (by simp [hcd])]
      · rw [if_neg hcd, if_neg (by simp [hcd, hc])]

theorem cm_outer_fold_notmem (c : String) :
    ∀ (sets : List (Nat × MutualSet G)) (acc : String → Option Nat),
      (∀ e ∈ sets, c ∉ e.2.coords) →
      (sets.foldl (fun acc e => e.2.coords.foldl (fun acc2 x => cmUpdate x e.1 acc2) acc)
        acc) c = acc c := by
  intro sets
  induction sets with
  | nil =>
    intro acc _
    rfl
  | cons d rest ih =>
    intro acc h
    rw [List.foldl_cons, ih _ (fun e he => h e (List.mem_cons_of_mem _ he)),
      cm_inner_fold, if_neg (h d (List.mem_cons_self _ _))]

theorem cm_outer_fold_mem (c : String) :
    ∀ (sets : List (Nat × MutualSet G)) (acc : String → Option Nat)
      (e : Nat × MutualSet G), e ∈ sets → c ∈ e.2.coords →
      (∀ e' ∈ sets, c ∈ e'.2.coords → e' = e) →
      (sets.foldl (fun acc e => e.2.coords.foldl (fun acc2 x => cmUpdate x e.1 acc2) acc)
        acc) c = some e.1 := by
  intro sets
  induction sets with
  | nil =>
    intro acc e he
    exact absurd he (List.not_mem_nil e)
  | cons d rest ih =>
    intro acc e he hce huniq
    rw [List.foldl_cons]
    by_cases hrest : ∃ e' ∈ rest, c ∈ e'.2.coords
    · obtain ⟨e', he', hce'⟩ := hrest
      have heq : e' = e := huniq e' (List.mem_cons_of_mem _ he') hce'
      exact ih _ e (heq ▸ he') hce (fun x hx hcx => huniq x (List.mem_cons_of_mem _ hx) hcx)
    · push_neg at hrest
      rw [cm_outer_fold_notmem c rest _ hrest, cm_inner_fold]
      have hde : e = d := by
        rcases List.mem_cons.mp he with h | h
        · exact h
        · exact absurd hce (hrest e h)
      rw [if_pos (hde ▸ hce), hde]

/-- `coord_to_mid` reconstruction: with pairwise-disjoint ledger coordinate
sets, a frame maps to a group id exactly when that group's ledger holds
it. -/
theorem coordMapOf_char (sets : List (Nat × MutualSet G))
    (huniq : ∀ e1 ∈ sets, ∀ e2 ∈ sets, ∀ c, c ∈ e1.2.coords → c ∈ e2.2.coords → e1 = e2)
    (c : String) (mid : Nat) :
    coordMapOf sets c = some mid ↔ ∃ mset, (mid, mset) ∈ sets ∧ c ∈ mset.coords := by
  constructor
  · intro h
    by_cases hc : ∃ e ∈ sets, c ∈ e.2.coords
    · obtain ⟨e, he, hce⟩ := hc
      have hfold := cm_outer_fold_mem c sets (fun _ => none) e he hce
        (fun e' he' hc' => huniq e' he' e he c hc' hce)
      rw [coordMapOf, hfold] at h
      have hmid : e.1 = mid := Option.some_inj.mp h
      exact ⟨e.2, by rw [← hmid]; exact he, hce⟩
    · push_neg at hc
      rw [coordMapOf, cm_outer_fold_notmem c sets _ hc] at h
      exact Option.noConfusion h
  · rintro ⟨mset, hmem, hcmem⟩
    rw [coordMapOf]
    exact cm_outer_fold_mem c sets _ (mid, mset) hmem hcmem
      (fun e' he' hc' => huniq e' he' (mid, mset) hmem c hc' hcmem)

theorem nodup_flatMap_disjoint {α β : Type} (f : α → List β) :
    ∀ (l : List α), (l.flatMap f).Nodup →
      ∀ (i j : Nat) (ci cj : α), l.get? i = some ci → l.get? j = some cj → i ≠ j →
      ∀ b, b ∈ f ci → b ∈ f cj → False := by
  intro l
  induction l with
  | nil =>
    intro _ i j ci cj hci
    simp at hci
  | cons a rest ih =>
    intro hnd i j ci cj hci hcj hne b hbi hbj
    rw [List.flatMap_cons, List.nodup_append] at hnd
    obtain ⟨h1, h2, hdisj⟩ := hnd
    match i, j with
    | 0, 0 => exact hne rfl
    | 0, j + 1 =>
      have hca : ci = a := by simpa using hci.symm
      have hcj' : rest.get? j = some cj := by simpa using hcj
      exact hdisj (hca ▸ hbi) (List.mem_flatMap.mpr ⟨cj, List.get?_mem hcj', hbj⟩)
    | i + 1, 0 =>
      have hca : cj = a := by simpa using hcj.symm
      have hci' : rest.get? i = some ci := by simpa using hci
      exact hdisj (hca ▸ hbj) (List.mem_flatMap.mpr ⟨ci, List.get?_mem hci', hbi⟩)
    | i + 1, j + 1 =>
      have hci' : rest.get? i = some ci := by simpa using hci
      have hcj' : rest.get? j = some cj := by simpa using hcj
      exact ih h2 i j ci cj hci' hcj' (by omega) b hbi hbj

theorem forall2_mem_right {α β : Type} {R : α → β → Prop} {l1 : List α} {l2 : List β}
    (h : List.Forall₂ R l1 l2) : ∀ b ∈ l2, ∃ a ∈ l1, R a b := by
  induction h with
  | nil =>
    intro b hb
    simp at hb
  | cons hr _ ih =>
    intro b hb
    rcases List.mem_cons.mp hb with rfl | hb
    · exact ⟨_, List.mem_cons_self _ _, hr⟩
    · obtain ⟨a, ha, har⟩ := ih b hb
      exact ⟨a, List.mem_cons_of_mem _ ha, har⟩

theorem forall2_map_eq {α β γ : Type} {R : α → β → Prop} {l1 : List α} {l2 : List β}
    (h : List.Forall₂ R l1 l2) (g1 : α → γ) (g2 : β → γ)
    (hg : ∀ a b, R a b → g1 a = g2 b) : l1.map g1 = l2.map g2 := by
  induction h with
  | nil => rfl
  | cons hr _ ih => rw [List.map_cons, List.map_cons, hg _ _ hr, ih]

/-- Every index the bulk loader returns satisfies the structural invariant
(no consistency assumption on the input facts). -/
theorem tryFromIter_inv {l : List (CoordTransform G)} {ts : TransformSet G}
    (h : tryFromIter l = some (.ok ts)) : TSInv ts := by
  classical
  rcases hba : buildAdj l (fun _ _ => none) TopoSort.new with e | ⟨adj, topo⟩
  · rw [tryFromIter, hba] at h
    simp at h
  · rw [tryFromIter, hba] at h
    dsimp only at h
    obtain ⟨hnn, hkn, hniff, haiff, hsome, hkeep⟩ := buildAdj_sound l _ _ _ _ hba
    have hadjE : ∀ x y, y ∈ adjL topo.edges x ↔ EdgeRel l x y := by
      intro x y
      rw [haiff x y]
      constructor
      · rintro (hy | hy)
        · exact absurd hy (by simp [adjL_nil, TopoSort.new])
        · exact hy
      · exact Or.inr
    have hsym : ∀ x y, x ∈ adjL topo.edges y → y ∈ adjL topo.edges x := by
      intro x y hxy
      exact (hadjE x y).mpr (EdgeRel_symm ((hadjE y x).mp hxy))
    obtain ⟨comps, hsortrun, hnd, hcov, hcomps, hclosed⟩ :=
      sortCore_spec (adjL topo.edges) hsym topo.nodes [] topo.edges
        (hkn (by simp [TopoSort.new]))
        (fun y => by rw [if_neg (List.not_mem_nil y)])
        List.nodup_nil
        (by intro v hv; simp at hv)
    have hflatnd : (comps.flatMap nodesOf).Nodup := by simpa using hnd
    have hsorteq : topo.sort = TopoSort.sortCore topo.nodes [] topo.edges := rfl
    rw [hsorteq, hsortrun] at h
    simp only [Option.bind_eq_bind, Option.some_bind] at h
    have hAsome : ∀ s d, d ∈ adjL topo.edges s → (adj s d).isSome := by
      intro s d hd
      exact hsome s d (Or.inl ((hadjE s d).mp hd))
    obtain ⟨sets, hmapM, hall⟩ := mapM_option_forall2
      (fun e => (buildMSet adj e.2.seq MutualSet.new).map (fun m => (e.1, m)))
      comps.enum
      (by
        intro e he
        have hget : comps.get? e.1 = some e.2 := List.mem_enum_iff_get?.mp he
        have hcmem : e.2 ∈ comps := List.get?_mem hget
        obtain ⟨_, hchain, _⟩ := hcomps e.2 hcmem
        obtain ⟨m', f', hrun, _, _⟩ :=
          buildMSet_new_exists (adjL topo.edges) adj hAsome e.2.start e.2.seq hchain
        dsimp only
        rw [hrun]
        rfl)
    rw [hmapM] at h
    simp only [Option.some_bind, Option.some_inj, Except.ok.injEq] at h
    -- one structural fact per produced ledger
    have hsets : ∀ s ∈ sets, ∃ comp, comps.get? s.1 = some comp ∧
        buildMSet adj comp.seq MutualSet.new = some s.2 ∧
        (∃ f, s.2.Spanned f) ∧
        s.2.coords = (if comp.seq = [] then [] else nodesOf comp) := by
      intro s hs
      obtain ⟨e, he, hr⟩ := forall2_mem_right hall s hs
      obtain ⟨m, hm, hms⟩ := Option.map_eq_some'.mp hr
      have hget : comps.get? e.1 = some e.2 := List.mem_enum_iff_get?.mp he
      have hcmem : e.2 ∈ comps := List.get?_mem hget
      obtain ⟨_, hchain, _⟩ := hcomps e.2 hcmem
      obtain ⟨m', f', hrun, hspan', hcoords'⟩ :=
        buildMSet_new_exists (adjL topo.edges) adj hAsome e.2.start e.2.seq hchain
      have hmm : m = m' := Option.some_inj.mp (hm ▸ hrun)
      refine ⟨e.2, by rw [← hms]; exact hget, by rw [← hms]; exact hm, ?_, ?_⟩
      · rw [← hms]
        exact ⟨f', hmm ▸ hspan'⟩
      · rw [← hms]
        rw [hmm, hcoords']
        rfl
    have hfst : sets.map Prod.fst = List.range comps.length := by
      have := forall2_map_eq hall Prod.fst Prod.fst
        (by
          intro a b hr
          obtain ⟨m, _, hms⟩ := Option.map_eq_some'.mp hr
          rw [← hms])
      rw [← this, List.enum_map_fst]
    have hlen : sets.length = comps.length := by
      have h1 := hall.length_eq
      rw [List.enum_length] at h1
      exact h1.symm
    -- pairwise disjointness of the ledgers
    have huniq : ∀ e1 ∈ sets, ∀ e2 ∈ sets, ∀ c,
        c ∈ e1.2.coords → c ∈ e2.2.coords → e1 = e2 := by
      intro e1 he1 e2 he2 c hc1 hc2
      obtain ⟨comp1, hget1, hbm1, _, hcoords1⟩ := hsets e1 he1
      obtain ⟨comp2, hget2, hbm2, _, hcoords2⟩ := hsets e2 he2
      rw [hcoords1] at hc1
      rw [hcoords2] at hc2
      have hc1' : c ∈ nodesOf comp1 := by
        by_cases hseq : comp1.seq = []
        · rw [if_pos hseq] at hc1
          simp at hc1
        · rwa [if_neg hseq] at hc1
      have hc2' : c ∈ nodesOf comp2 := by
        by_cases hseq : comp2.seq = []
        · rw [if_pos hseq] at hc2
          simp at hc2
        · rwa [if_neg hseq] at hc2
      by_cases hidx : e1.1 = e2.1
      · have hcomp12 : comp1 = comp2 := by
          rw [hidx] at hget1
          exact Option.some_inj.mp (hget1 ▸ hget2.symm) |>.symm
        have hm12 : e1.2 = e2.2 := by
          rw [hcomp12] at hbm1
          exact Option.some_inj.mp (hbm1 ▸ hbm2.symm) |>.symm
        exact Prod.ext hidx hm12
      · exact absurd (nodup_flatMap_disjoint nodesOf comps hflatnd e1.1 e2.1 comp1 comp2
          hget1 hget2 hidx c hc1' hc2') (fun hf => hf)
    refine h ▸ ⟨?_, ?_, ?_, ?_⟩
    · simp only
      rw [hfst]
      exact List.nodup_range _
    · intro e he
      simp only at he ⊢
      have : e.1 ∈ sets.map Prod.fst := List.mem_map_of_mem Prod.fst he
      rw [hfst, List.mem_range] at this
      omega
    · intro e he
      simp only at he
      obtain ⟨_, _, _, hspan, _⟩ := hsets e he
      exact hspan
    · intro c mid
      simp only
      exact coordMapOf_char sets huniq c mid

/-! ### The structural invariant along the public API -/

theorem TransformSet.new_inv : TSInv (TransformSet.new (G := G)) := by
  refine ⟨by simp [TransformSet.new], ?_, ?_, ?_⟩
  · intro e he
    simp [TransformSet.new] at he
  · intro e he
    simp [TransformSet.new] at he
  · intro c mid
    simp [TransformSet.new]

/-- A successful incremental insert preserves the structural invariant. -/
theorem TransformSet.insert_ok_inv {ts ts' : TransformSet G} {s d : String} {t : G}
    (hinv : TSInv ts) (h : ts.insert s d t = some (.ok (), ts')) : TSInv ts' := by
  rcases hs : ts.coord_to_mid s with _ | m1 <;> rcases hd : ts.coord_to_mid d with _ | m2
  · obtain ⟨ts'', heq, hinv', _⟩ := TransformSet.insert_both_new ts hinv hs hd t
    rw [heq] at h
    have : ts'' = ts' := by simpa using h
    exact this ▸ hinv'
  · obtain ⟨ts'', heq, hinv', _⟩ := TransformSet.insert_dst_known ts hinv hs hd t
    rw [heq] at h
    have : ts'' = ts' := by simpa using h
    exact this ▸ hinv'
  · obtain ⟨ts'', heq, hinv', _⟩ := TransformSet.insert_src_known ts hinv hs hd t
    rw [heq] at h
    have : ts'' = ts' := by simpa using h
    exact this ▸ hinv'
  · by_cases hm : m1 = m2
    · subst hm
      obtain ⟨mset, f, hlook, hspan, hs', hd', heq⟩ :=
        TransformSet.insert_same_mid ts hinv hs hd t
      rw [heq] at h
      by_cases hc : t = f s * (f d)⁻¹
      · rw [if_pos hc] at h
        have : ts = ts' := by simpa using h
        exact this ▸ hinv
      · rw [if_neg hc] at h
        simp at h
    · obtain ⟨ts'', heq, hinv', _⟩ := TransformSet.insert_diff_mid ts hinv hs hd hm t
      rw [heq] at h
      have : ts'' = ts' := by simpa using h
      exact this ▸ hinv'

/-- Every state reachable through the public API satisfies the structural
invariant. -/
theorem Reachable_inv {ts : TransformSet G} (h : Reachable ts) : TSInv ts := by
  induction h with
  | new => exact TransformSet.new_inv
  | insert_ok _ heq ih => exact TransformSet.insert_ok_inv ih heq
  | ofIter heq => exact tryFromIter_inv heq

/-- A rejected insert returns the state it was given, unchanged. -/
theorem TransformSet.insert_error_eq {ts ts' : TransformSet G} {s d : String} {t : G}
    {e : InsertionError G} (hinv : TSInv ts)
    (h : ts.insert s d t = some (.error e, ts')) : ts' = ts := by
  rcases hs : ts.coord_to_mid s with _ | m1 <;> rcases hd : ts.coord_to_mid d with _ | m2
  · obtain ⟨ts'', heq, _⟩ := TransformSet.insert_both_new ts hinv hs hd t
    rw [heq] at h
    simp at h
  · obtain ⟨ts'', heq, _⟩ := TransformSet.insert_dst_known ts hinv hs hd t
    rw [heq] at h
    simp at h
  · obtain ⟨ts'', heq, _⟩ := TransformSet.insert_src_known ts hinv hs hd t
    rw [heq] at h
    simp at h
  · by_cases hm : m1 = m2
    · subst hm
      obtain ⟨mset, f, hlook, hspan, hs', hd', heq⟩ :=
        TransformSet.insert_same_mid ts hinv hs hd t
      rw [heq] at h
      by_cases hc : t = f s * (f d)⁻¹
      · rw [if_pos hc] at h
        simp at h
      · rw [if_neg hc] at h
        have := Option.some_inj.mp h
        exact (congrArg Prod.snd this).symm
    · obtain ⟨ts'', heq, _⟩ := TransformSet.insert_diff_mid ts hinv hs hd hm t
      rw [heq] at h
      simp at h

/-! ### Walks and connectivity -/

/-- Every frame collected by a valid walk is reachable (under any relation
containing the adjacency) from the initially collected frames. -/
theorem ChainOk_reach (A : String → List String) (R : String → String → Prop)
    (hAR : ∀ p c, c ∈ A p → R p c) (start : String) :
    ∀ (seq : List (String × String)) (members : List String),
      ChainOk A members seq →
      (∀ m ∈ members, Relation.ReflTransGen R start m) →
      ∀ x ∈ members ++ seq.map Prod.snd, Relation.ReflTransGen R start x := by
  intro seq
  induction seq with
  | nil =>
    intro members _ hm x hx
    rw [List.map_nil, List.append_nil] at hx
    exact hm x hx
  | cons e rest ih =>
    match e with
    | (p, c) =>
      intro members hchain hm x hx
      obtain ⟨hp, hc, hA, hrest⟩ := hchain
      have hm' : ∀ m ∈ members ++ [c], Relation.ReflTransGen R start m := by
        intro m hmem
        rw [List.mem_append, List.mem_singleton] at hmem
        rcases hmem with hmem | rfl
        · exact hm m hmem
        · exact (hm p hp).tail (hAR p m hA)
      refine ih (members ++ [c]) hrest hm' x ?_
      rw [List.map_cons] at hx
      rw [List.append_assoc]
      simpa using hx

/-- Every walk target has an adjacency witness. -/
theorem ChainOk_mem_edge (A : String → List String) :
    ∀ (seq : List (String × String)) (members : List String),
      ChainOk A members seq →
      ∀ x ∈ seq.map Prod.snd, ∃ p, x ∈ A p := by
  intro seq
  induction seq with
  | nil =>
    intro members _ x hx
    simp at hx
  | cons e rest ih =>
    match e with
    | (p, c) =>
      intro members hchain x hx
      obtain ⟨hp, hc, hA, hrest⟩ := hchain
      rw [List.map_cons, List.mem_cons] at hx
      rcases hx with rfl | hx
      · exact ⟨p, hA⟩
      · exact ih (members ++ [c]) hrest x hx

theorem ChainOk_head_edge (A : String → List String) (n : String)
    (seq : List (String × String)) (hchain : ChainOk A [n] seq) (hne : seq ≠ []) :
    ∃ c, c ∈ A n := by
  match seq with
  | [] => exact absurd rfl hne
  | (p, c) :: rest =>
    obtain ⟨hp, _, hA, _⟩ := hchain
    rw [List.mem_singleton] at hp
    exact ⟨c, hp ▸ hA⟩

/-- Master characterisation of the bulk loader on a fact list consistent
with the potential `F`: the build succeeds and `get` answers exactly the
connected queries, with the potential-difference value. -/
theorem tryFromIter_consistent (F : String → G) {l : List (CoordTransform G)}
    (hcons : ConsistentWith F l) :
    ∃ ts : TransformSet G, tryFromIter l = some (.ok ts) ∧
      ∀ a b, (Conn l a b → ts.get a b = some (F a * (F b)⁻¹)) ∧
        (¬ Conn l a b → ts.get a b = none) := by
  classical
  have hloops : ∀ c ∈ l, c.src = c.dst → c.tf = 1 := by
    intro c hc hsd
    rw [hcons c hc, hsd]
    group
  obtain ⟨adj, topo, hba⟩ := buildAdj_total l hloops (fun _ _ => none) TopoSort.new
  obtain ⟨hnn, hkn, hniff, haiff, hsome, hkeep⟩ := buildAdj_sound l _ _ _ _ hba
  have hvals := buildAdj_values F l _ _ _ _ hba hcons
    (by intro x y v hv; exact Option.noConfusion hv)
  have hadjE : ∀ x y, y ∈ adjL topo.edges x ↔ EdgeRel l x y := by
    intro x y
    rw [haiff x y]
    constructor
    · rintro (hy | hy)
      · exact absurd hy (by simp [adjL_nil, TopoSort.new])
      · exact hy
    · exact Or.inr
  have hsym : ∀ x y, x ∈ adjL topo.edges y → y ∈ adjL topo.edges x := by
    intro x y hxy
    exact (hadjE x y).mpr (EdgeRel_symm ((hadjE y x).mp hxy))
  obtain ⟨comps, hsortrun, hnd, hcov, hcomps, hclosed⟩ :=
    sortCore_spec (adjL topo.edges) hsym topo.nodes [] topo.edges
      (hkn (by simp [TopoSort.new]))
      (fun y => by rw [if_neg (List.not_mem_nil y)])
      List.nodup_nil
      (by intro v hv; simp at hv)
  have hadjval : ∀ s d, d ∈ adjL topo.edges s → adj s d = some (F s * (F d)⁻¹) := by
    intro s d hd
    obtain ⟨v, hv⟩ := Option.isSome_iff_exists.mp (hsome s d (Or.inl ((hadjE s d).mp hd)))
    rw [hv, hvals s d v hv]
  obtain ⟨sets, hmapM, hall⟩ := mapM_option_forall2
    (fun e => (buildMSet adj e.2.seq MutualSet.new).map (fun m => (e.1, m))) comps.enum
    (by
      intro e he
      have hget : comps.get? e.1 = some e.2 := List.mem_enum_iff_get?.mp he
      obtain ⟨_, hchain, _⟩ := hcomps e.2 (List.get?_mem hget)
      obtain ⟨m', hrun', _, _⟩ := buildMSet_new_consistent (adjL topo.edges) adj F hadjval
        e.2.start e.2.seq hchain
      dsimp only
      rw [hrun']
      rfl)
  set ts : TransformSet G := ⟨sets.length, coordMapOf sets, sets⟩ with hts
  have hrun : tryFromIter l = some (.ok ts) := by
    rw [tryFromIter, hba]
    dsimp only
    have hsorteq : topo.sort = TopoSort.sortCore topo.nodes [] topo.edges := rfl
    rw [hsorteq, hsortrun]
    simp only [Option.bind_eq_bind, Option.some_bind]
    rw [hmapM]
    simp only [Option.some_bind]
  have hinv : TSInv ts := tryFromIter_inv hrun
  have hcompsets : ∀ (i : Nat) (comp : Component), comps.get? i = some comp →
      ∃ m, (i, m) ∈ sets ∧ m.Spanned (fun x => F x * (F comp.start)⁻¹) ∧
        m.coords = (if comp.seq = [] then [] else nodesOf comp) := by
    intro i comp hget
    obtain ⟨hi, hgeti⟩ := List.get?_eq_some.mp hget
    have hilen : i < comps.enum.length := by
      rw [List.enum_length]
      exact hi
    have hilen2 : i < sets.length := by
      have := hall.length_eq
      rw [List.enum_length] at this
      omega
    have hR := (List.forall₂_iff_get.mp hall).2 i hilen hilen2
    have henum : comps.enum.get ⟨i, hilen⟩ = (i, comp) := by
      have h1 : comps.enum.get ⟨i, hilen⟩ = comps.enum[i] := rfl
      rw [h1, List.getElem_enum]
      rw [show comps[i] = comps.get ⟨i, hi⟩ from rfl, hgeti]
    rw [henum] at hR
    obtain ⟨m, hm, hms⟩ := Option.map_eq_some'.mp hR
    obtain ⟨_, hchain, _⟩ := hcomps comp (List.get?_mem hget)
    obtain ⟨m0, hrun0, hspan0, hcoords0⟩ := buildMSet_new_consistent (adjL topo.edges) adj F
      hadjval comp.start comp.seq hchain
    have hmm : m = m0 := Option.some_inj.mp (hm ▸ hrun0)
    refine ⟨m, ?_, hmm ▸ hspan0, ?_⟩
    · rw [hms]
      exact List.get_mem sets i hilen2
    · rw [hmm, hcoords0]
      rfl
  have hsets : ∀ s ∈ sets, ∃ comp, comps.get? s.1 = some comp ∧
      s.2.coords = (if comp.seq = [] then [] else nodesOf comp) := by
    intro s hs
    obtain ⟨e, he, hr⟩ := forall2_mem_right hall s hs
    obtain ⟨m, hm, hms⟩ := Option.map_eq_some'.mp hr
    have hget : comps.get? e.1 = some e.2 := List.mem_enum_iff_get?.mp he
    obtain ⟨_, hchain, _⟩ := hcomps e.2 (List.get?_mem hget)
    obtain ⟨m0, hrun0, _, hcoords0⟩ := buildMSet_new_consistent (adjL topo.edges) adj F
      hadjval e.2.start e.2.seq hchain
    have hmm : m = m0 := Option.some_inj.mp (hm ▸ hrun0)
    refine ⟨e.2, by rw [← hms]; exact hget, ?_⟩
    rw [← hms]
    show m.coords = _
    rw [hmm, hcoords0]
    rfl
  have hconn_of : ∀ comp ∈ comps, comp.seq ≠ [] →
      ∀ a ∈ nodesOf comp, ∀ b ∈ nodesOf comp, Conn l a b := by
    intro comp hc hseq a ha b hb
    obtain ⟨_, hchain, hccl⟩ := hcomps comp hc
    have hreach : ∀ x ∈ nodesOf comp, Relation.ReflTransGen (EdgeRel l) comp.start x := by
      intro x hx
      refine ChainOk_reach (adjL topo.edges) (EdgeRel l)
        (fun p c hpc => (hadjE p c).mp hpc) comp.start comp.seq [comp.start] hchain ?_ x hx
      intro m hm
      rw [List.mem_singleton] at hm
      rw [hm]
    have hsymm : Symmetric (Relation.ReflTransGen (EdgeRel l)) :=
      Relation.ReflTransGen.symmetric (fun _ _ h => EdgeRel_symm h)
    refine ⟨(hsymm (hreach a ha)).trans (hreach b hb), ?_⟩
    rcases List.mem_cons.mp ha with ha0 | hamem2
    · obtain ⟨c, hcA⟩ := ChainOk_head_edge (adjL topo.edges) comp.start comp.seq hchain hseq
      refine ⟨c, ?_⟩
      rw [ha0]
      exact (hadjE comp.start c).mp hcA
    · obtain ⟨p, hpA⟩ := ChainOk_mem_edge (adjL topo.edges) comp.seq [comp.start] hchain
        a hamem2
      exact ⟨p, EdgeRel_symm ((hadjE p a).mp hpA)⟩
  refine ⟨ts, hrun, ?_⟩
  intro a b
  constructor
  · intro hconn
    obtain ⟨hrtg, y, hy⟩ := hconn
    have hanode : a ∈ topo.nodes := by
      obtain ⟨hne, t, ht | ht⟩ := hy
      · exact (hniff a).mpr (Or.inr ⟨⟨a, y, t⟩, ht, Or.inl rfl⟩)
      · exact (hniff a).mpr (Or.inr ⟨⟨y, a, t⟩, ht, Or.inr rfl⟩)
    have hacov : a ∈ comps.flatMap nodesOf := by simpa using hcov a hanode
    obtain ⟨comp, hcomp, hamem⟩ := List.mem_flatMap.mp hacov
    obtain ⟨_, hchain, hccl⟩ := hcomps comp hcomp
    have hseqne : comp.seq ≠ [] := by
      intro hseq
      have hymem : y ∈ nodesOf comp := hccl a hamem y ((hadjE a y).mpr hy)
      rw [nodesOf, hseq] at hymem
      have hamem2 := hamem
      rw [nodesOf, hseq] at hamem2
      simp at hymem hamem2
      exact hy.1 (by rw [hamem2, hymem])
    have hbmem : b ∈ nodesOf comp := by
      induction hrtg with
      | refl => exact hamem
      | tail h1 h2 ih => exact hccl _ ih _ ((hadjE _ _).mpr h2)
    obtain ⟨⟨i, hi⟩, hgeti⟩ := List.mem_iff_get.mp hcomp
    have hget : comps.get? i = some comp := List.get?_eq_some.mpr ⟨hi, hgeti⟩
    obtain ⟨m, hmmem, hspan, hcoords⟩ := hcompsets i comp hget
    have hcoords' : m.coords = nodesOf comp := by
      rw [hcoords, if_neg hseqne]
    have hcma : ts.coord_to_mid a = some i :=
      (hinv.coordIff a i).mpr ⟨m, hmmem, by rw [hcoords']; exact hamem⟩
    have hcmb : ts.coord_to_mid b = some i :=
      (hinv.coordIff b i).mpr ⟨m, hmmem, by rw [hcoords']; exact hbmem⟩
    have hlook : ts.lookupSet i = some m := lookupSet_of_mem hinv.nodupMids hmmem
    rw [TransformSet.get_eq ts hcma hcmb hlook,
      MutualSet.get_spec m _ hspan (by rw [hcoords']; exact hamem)
        (by rw [hcoords']; exact hbmem)]
    congr 1
    group
  · intro hnconn
    rcases hcma : ts.coord_to_mid a with _ | i
    · rw [TransformSet.get, hcma]
      rfl
    · rcases hcmb : ts.coord_to_mid b with _ | j
      · rw [TransformSet.get, hcma, hcmb]
        rfl
      · by_cases hij : i = j
        · exfalso
          subst hij
          obtain ⟨m1, hm1, ha1⟩ := (hinv.coordIff a i).mp hcma
          obtain ⟨m2, hm2, hb2⟩ := (hinv.coordIff b i).mp hcmb
          have hm12 : m2 = m1 := mem_unique_of_nodup hinv.nodupMids hm2 hm1
          rw [hm12] at hb2
          obtain ⟨comp, hgetc, hcoords⟩ := hsets (i, m1) hm1
          have hseqne : comp.seq ≠ [] := by
            intro hseq
            have hc' : m1.coords = [] := by
              have := hcoords
              rw [if_pos hseq] at this
              exact this
            rw [hc'] at ha1
            simp at ha1
          have hc' : m1.coords = nodesOf comp := by
            have := hcoords
            rw [if_neg hseqne] at this
            exact this
          rw [hc'] at ha1 hb2
          exact hnconn (hconn_of comp (List.get?_mem hgetc) hseqne a ha1 b hb2)
        · rw [TransformSet.get, hcma, hcmb]
          simp only [Option.bind_eq_bind, Option.some_bind]
          rw [if_pos hij]

/-! ### Export (`From<TransformSet> for SerializedTransformSet`) -/

theorem SpannedPos_tail {g : Nat → G} {e : String × List G} {rest : List (String × List G)}
    (h : SpannedPos g (e :: rest)) : SpannedPos (fun p => g (p + 1)) rest := by
  intro p k
  show getByPow rest p k =
    if p + 2 ^ k < rest.length then some (g (p + 1) * (g (p + 2 ^ k + 1))⁻¹) else none
  have h1 := h (p + 1) k
  rw [show getByPow (e :: rest) (p + 1) k = getByPow rest p k from rfl] at h1
  rw [h1, List.length_cons]
  by_cases hc : p + 2 ^ k < rest.length
  · rw [if_pos (by omega), if_pos hc]
    have he : p + 1 + 2 ^ k = p + 2 ^ k + 1 := by omega
    rw [he]
  · rw [if_neg (by omega), if_neg hc]

/-- The serializer's `tuple_windows` pass on a spanned ledger: it succeeds
and emits exactly one fact per consecutive pair of chain positions,
carrying the potential difference. -/
theorem chainFacts_spec :
    ∀ (l : List (String × List G)) (g : Nat → G), SpannedPos g l →
      chainFacts l = some ((List.range (l.length - 1)).map
        (fun p => ⟨keyD l p, keyD l (p + 1), g p * (g (p + 1))⁻¹⟩)) := by
  intro l
  induction l with
  | nil =>
    intro g _
    rfl
  | cons e rest ih =>
    intro g h
    rcases rest with _ | ⟨e2, rest2⟩
    · obtain ⟨s, tl⟩ := e
      rfl
    · obtain ⟨s, tl⟩ := e
      obtain ⟨d, l2⟩ := e2
      have h00 := h 0 0
      rw [if_pos (by simp)] at h00
      have htl : tl.get? 0 = some (g 0 * (g (0 + 2 ^ 0))⁻¹) := h00
      have htail := ih (fun p => g (p + 1)) (SpannedPos_tail h)
      have hstep : chainFacts ((s, tl) :: (d, l2) :: rest2) =
          (tl.get? 0).bind (fun t => (chainFacts ((d, l2) :: rest2)).bind
            (fun tail => some (⟨s, d, t⟩ :: tail))) := rfl
      rw [hstep, htl, htail]
      simp only [Option.some_bind]
      rw [show ((s, tl) :: (d, l2) :: rest2).length - 1 = rest2.length + 1 by simp,
        List.range_succ_eq_map, List.map_cons, List.map_map]
      rfl

theorem mem_coords_keyD {l : List (String × List G)} {a : String} :
    a ∈ l.map Prod.fst ↔ ∃ p, p < l.length ∧ keyD l p = a := by
  constructor
  · intro h
    obtain ⟨e, he, hfst⟩ := List.mem_map.mp h
    obtain ⟨⟨p, hp⟩, hget⟩ := List.mem_iff_get.mp he
    refine ⟨p, hp, ?_⟩
    rw [keyD, List.get?_eq_get hp, hget]
    exact hfst
  · rintro ⟨p, hp, rfl⟩
    exact keyD_mem hp

theorem keyD_inj {l : List (String × List G)} (hnd : (l.map Prod.fst).Nodup)
    {p q : Nat} (hp : p < l.length) (hq : q < l.length) (h : keyD l p = keyD l q) :
    p = q := by
  have hp' : p < (l.map Prod.fst).length := by
    rw [List.length_map]
    exact hp
  have hq' : q < (l.map Prod.fst).length := by
    rw [List.length_map]
    exact hq
  have h1 : (l.map Prod.fst).get ⟨p, hp'⟩ = (l.map Prod.fst).get ⟨q, hq'⟩ := by
    have e1 : keyD l p = (l.map Prod.fst).get ⟨p, hp'⟩ := by
      rw [keyD_eq, List.get?_eq_get hp']
      rfl
    have e2 : keyD l q = (l.map Prod.fst).get ⟨q, hq'⟩ := by
      rw [keyD_eq, List.get?_eq_get hq']
      rfl
    rw [← e1, ← e2, h]
  have := (hnd.get_inj_iff.mp h1)
  exact congrArg Fin.val this

/-- Everything the round trip needs about one exported ledger: the fact
list exists, is consistent with the ledger's potential, stays inside the
ledger's coordinates, and connects all of them. -/
theorem chainFacts_of_spanned (m : MutualSet G) (f : String → G) (h : m.Spanned f) :
    ∃ fl, chainFacts m.lookup = some fl ∧
      ConsistentWith f fl ∧
      (∀ c ∈ fl, c.src ∈ m.coords ∧ c.dst ∈ m.coords ∧ c.src ≠ c.dst) ∧
      (∀ a ∈ m.coords, ∀ b ∈ m.coords, Relation.ReflTransGen (EdgeRel fl) a b) ∧
      (∀ a ∈ m.coords, 2 ≤ m.coords.length → ∃ y, EdgeRel fl a y) := by
  obtain ⟨hnd, hpos⟩ := h
  have hlen : m.coords.length = m.lookup.length := List.length_map _ _
  set L := m.lookup.length with hL
  set fl : List (CoordTransform G) := (List.range (L - 1)).map
    (fun p => ⟨keyD m.lookup p, keyD m.lookup (p + 1),
      f (keyD m.lookup p) * (f (keyD m.lookup (p + 1)))⁻¹⟩) with hfl
  have hcf : chainFacts m.lookup = some fl := chainFacts_spec m.lookup _ hpos
  have hmemfl : ∀ c ∈ fl, ∃ p, p + 1 < L ∧
      c = ⟨keyD m.lookup p, keyD m.lookup (p + 1),
        f (keyD m.lookup p) * (f (keyD m.lookup (p + 1)))⁻¹⟩ := by
    intro c hc
    rw [hfl] at hc
    obtain ⟨p, hp, hpc⟩ := List.mem_map.mp hc
    rw [List.mem_range] at hp
    exact ⟨p, by omega, hpc.symm⟩
  have hstep : ∀ p, p + 1 < L → EdgeRel fl (keyD m.lookup p) (keyD m.lookup (p + 1)) := by
    intro p hp
    refine ⟨?_, f (keyD m.lookup p) * (f (keyD m.lookup (p + 1)))⁻¹, Or.inl ?_⟩
    · intro hc
      have := keyD_inj hnd (by omega) hp hc
      omega
    · rw [hfl]
      exact List.mem_map.mpr ⟨p, List.mem_range.mpr (by omega), rfl⟩
  refine ⟨fl, hcf, ?_, ?_, ?_, ?_⟩
  · intro c hc
    obtain ⟨p, hp, rfl⟩ := hmemfl c hc
    rfl
  · intro c hc
    obtain ⟨p, hp, rfl⟩ := hmemfl c hc
    refine ⟨keyD_mem (by omega), keyD_mem hp, ?_⟩
    intro hc2
    have := keyD_inj hnd (by omega) hp hc2
    omega
  · intro a ha b hb
    obtain ⟨p, hp, rfl⟩ := mem_coords_keyD.mp ha
    obtain ⟨q, hq, rfl⟩ := mem_coords_keyD.mp hb
    have hreach0 : ∀ r, r < L → Relation.ReflTransGen (EdgeRel fl)
        (keyD m.lookup 0) (keyD m.lookup r) := by
      intro r
      induction r with
      | zero => intro _; exact Relation.ReflTransGen.refl
      | succ r ihr =>
        intro hr
        exact (ihr (by omega)).tail (hstep r hr)
    have hsymm : Symmetric (Relation.ReflTransGen (EdgeRel fl)) :=
      Relation.ReflTransGen.symmetric (fun _ _ hxy => EdgeRel_symm hxy)
    exact (hsymm (hreach0 p hp)).trans (hreach0 q hq)
  · intro a ha hbig
    obtain ⟨p, hp, rfl⟩ := mem_coords_keyD.mp ha
    rw [hlen] at hbig
    by_cases hp1 : p + 1 < L
    · exact ⟨keyD m.lookup (p + 1), hstep p hp1⟩
    · have hpe : p - 1 + 1 = p := by omega
      have := hstep (p - 1) (by omega)
      rw [hpe] at this
      exact ⟨keyD m.lookup (p - 1), EdgeRel_symm this⟩

/-- The export fold over all ledgers: concatenation of the per-ledger
chain facts. -/
theorem foldrM_chainFacts :
    ∀ (l : List (Nat × MutualSet G)),
      (∀ e ∈ l, ∃ fle, chainFacts e.2.lookup = some fle) →
      List.foldrM (fun e acc => (chainFacts e.2.lookup).map (· ++ acc)) [] l =
        some (l.flatMap (fun e => (chainFacts e.2.lookup).getD [])) := by
  intro l
  induction l with
  | nil =>
    intro _
    rfl
  | cons e rest ih =>
    intro h
    obtain ⟨fle, hfle⟩ := h e (List.mem_cons_self _ _)
    rw [List.foldrM_cons, ih (fun x hx => h x (List.mem_cons_of_mem _ hx))]
    show (some _ >>= fun acc => (chainFacts e.2.lookup).map (· ++ acc)) = _
    simp only [Option.bind_eq_bind, Option.some_bind]
    rw [hfle, List.flatMap_cons, hfle]
    rfl

theorem toFacts_eq (ts : TransformSet G)
    (h : ∀ e ∈ ts.mid_to_set, ∃ fle, chainFacts e.2.lookup = some fle) :
    ts.toFacts = some (ts.mid_to_set.flatMap
      (fun e => (chainFacts e.2.lookup).getD [])) := by
  rw [TransformSet.toFacts]
  exact foldrM_chainFacts ts.mid_to_set h

/-- Round trip: exporting an index in which no group is a singleton and
rebuilding from exactly the exported fact list reproduces every `get`
answer. -/
theorem toFacts_roundTrip (ts : TransformSet G) (hinv : TSInv ts)
    (hbig : ∀ e ∈ ts.mid_to_set, e.2.coords = [] ∨ 2 ≤ e.2.coords.length) :
    ∃ fl ts', ts.toFacts = some fl ∧ tryFromIter fl = some (.ok ts') ∧
      ∀ a b, ts'.get a b = ts.get a b := by
  classical
  set Fg : String → G := fun x =>
    match ts.lookupSet ((ts.coord_to_mid x).getD 0) with
    | none => 1
    | some m => if h : ∃ f, m.Spanned f then Classical.choose h x else 1
    with hFgdef
  have hspanFg : ∀ e ∈ ts.mid_to_set, e.2.Spanned Fg := by
    intro e he
    have hex : ∃ f, e.2.Spanned f := hinv.spanned e he
    refine Spanned_congr_on e.2 (Classical.choose_spec hex) ?_
    intro x hx
    have hee : ((e.1, e.2) : Nat × MutualSet G) = e := rfl
    have hcm : ts.coord_to_mid x = some e.1 :=
      (hinv.coordIff x e.1).mpr ⟨e.2, hee ▸ he, hx⟩
    have hlook : ts.lookupSet e.1 = some e.2 :=
      lookupSet_of_mem hinv.nodupMids (hee ▸ he)
    have hFgx : Fg x = Classical.choose hex x := by
      rw [hFgdef]
      simp only
      rw [hcm, Option.getD_some, hlook]
      exact dif_pos hex
    exact hFgx.symm
  have hchains : ∀ e ∈ ts.mid_to_set, ∃ fle, chainFacts e.2.lookup = some fle ∧
      ConsistentWith Fg fle ∧
      (∀ c ∈ fle, c.src ∈ e.2.coords ∧ c.dst ∈ e.2.coords ∧ c.src ≠ c.dst) ∧
      (∀ a ∈ e.2.coords, ∀ b ∈ e.2.coords, Relation.ReflTransGen (EdgeRel fle) a b) ∧
      (∀ a ∈ e.2.coords, 2 ≤ e.2.coords.length → ∃ y, EdgeRel fle a y) :=
    fun e he => chainFacts_of_spanned e.2 Fg (hspanFg e he)
  have hcfex : ∀ e ∈ ts.mid_to_set, ∃ fle, chainFacts e.2.lookup = some fle :=
    fun e he => ((hchains e he).imp (fun _ h => h.1))
  set fl : List (CoordTransform G) :=
    ts.mid_to_set.flatMap (fun e => (chainFacts e.2.lookup).getD []) with hfldef
  have htf : ts.toFacts = some fl := toFacts_eq ts hcfex
  have hmemfl : ∀ c, c ∈ fl ↔ ∃ e ∈ ts.mid_to_set, ∃ fle,
      chainFacts e.2.lookup = some fle ∧ c ∈ fle := by
    intro c
    rw [hfldef, List.mem_flatMap]
    constructor
    · rintro ⟨e, he, hc⟩
      obtain ⟨fle, hfle⟩ := hcfex e he
      rw [hfle] at hc
      exact ⟨e, he, fle, hfle, by simpa using hc⟩
    · rintro ⟨e, he, fle, hfle, hc⟩
      refine ⟨e, he, ?_⟩
      rw [hfle]
      simpa using hc
  have hflcons : ConsistentWith Fg fl := by
    intro c hc
    obtain ⟨e, he, fle, hfle, hcf⟩ := (hmemfl c).mp hc
    obtain ⟨fle2, hfle2, hconsist, _, _, _⟩ := hchains e he
    have heq : fle2 = fle := Option.some_inj.mp (hfle2.symm.trans hfle)
    exact hconsist c (heq ▸ hcf)
  have hedge_group : ∀ x y, EdgeRel fl x y →
      ∃ e ∈ ts.mid_to_set, x ∈ e.2.coords ∧ y ∈ e.2.coords := by
    rintro x y ⟨hne, t, ht | ht⟩
    · obtain ⟨e, he, fle, hfle, hcf⟩ := (hmemfl _).mp ht
      obtain ⟨fle2, hfle2, _, hends, _, _⟩ := hchains e he
      have heq : fle2 = fle := Option.some_inj.mp (hfle2.symm.trans hfle)
      obtain ⟨h1, h2, _⟩ := hends _ (heq ▸ hcf)
      exact ⟨e, he, h1, h2⟩
    · obtain ⟨e, he, fle, hfle, hcf⟩ := (hmemfl _).mp ht
      obtain ⟨fle2, hfle2, _, hends, _, _⟩ := hchains e he
      have heq : fle2 = fle := Option.some_inj.mp (hfle2.symm.trans hfle)
      obtain ⟨h1, h2, _⟩ := hends _ (heq ▸ hcf)
      exact ⟨e, he, h2, h1⟩
  have hreg_edge : ∀ x y, EdgeRel fl x y →
      ∃ mid, ts.coord_to_mid x = some mid ∧ ts.coord_to_mid y = some mid := by
    intro x y hxy
    obtain ⟨e, he, hx, hy⟩ := hedge_group x y hxy
    have hee : ((e.1, e.2) : Nat × MutualSet G) = e := rfl
    exact ⟨e.1, (hinv.coordIff x e.1).mpr ⟨e.2, hee ▸ he, hx⟩,
      (hinv.coordIff y e.1).mpr ⟨e.2, hee ▸ he, hy⟩⟩
  obtain ⟨ts', hrun', hget'⟩ := tryFromIter_consistent Fg hflcons
  refine ⟨fl, ts', htf, hrun', ?_⟩
  have hconn_iff : ∀ a b, Conn fl a b ↔
      ∃ mid, ts.coord_to_mid a = some mid ∧ ts.coord_to_mid b = some mid := by
    intro a b
    constructor
    · rintro ⟨hrtg, y, hy⟩
      obtain ⟨mida, hma, _⟩ := hreg_edge a y hy
      have hkeep : ∀ z, Relation.ReflTransGen (EdgeRel fl) a z →
          ts.coord_to_mid z = some mida := by
        intro z hz
        induction hz with
        | refl => exact hma
        | tail h1 h2 ih =>
          obtain ⟨mid2, hm1, hm2⟩ := hreg_edge _ _ h2
          rw [ih] at hm1
          rw [← Option.some_inj.mp hm1] at hm2
          exact hm2
      exact ⟨mida, hma, hkeep b hrtg⟩
    · rintro ⟨mid, hma, hmb⟩
      obtain ⟨m1, hm1, ha1⟩ := (hinv.coordIff a mid).mp hma
      obtain ⟨m2, hm2, hb2⟩ := (hinv.coordIff b mid).mp hmb
      have hm12 : m2 = m1 := mem_unique_of_nodup hinv.nodupMids hm2 hm1
      rw [hm12] at hb2
      obtain ⟨fle, hfle, _, _, hrtgm, hedgem⟩ := hchains (mid, m1) hm1
      have hlarge : 2 ≤ m1.coords.length := by
        rcases hbig (mid, m1) hm1 with hz | hz
        · rw [hz] at ha1
          simp at ha1
        · exact hz
      have hsub : ∀ x y, EdgeRel fle x y → EdgeRel fl x y := by
        rintro x y ⟨hne, t, ht | ht⟩
        · exact ⟨hne, t, Or.inl ((hmemfl _).mpr ⟨(mid, m1), hm1, fle, hfle, ht⟩)⟩
        · exact ⟨hne, t, Or.inr ((hmemfl _).mpr ⟨(mid, m1), hm1, fle, hfle, ht⟩)⟩
      refine ⟨Relation.ReflTransGen.mono hsub (hrtgm a ha1 b hb2), ?_⟩
      obtain ⟨y, hy⟩ := hedgem a ha1 hlarge
      exact ⟨y, hsub a y hy⟩
  intro a b
  by_cases hc : ∃ mid, ts.coord_to_mid a = some mid ∧ ts.coord_to_mid b = some mid
  · obtain ⟨mid, hma, hmb⟩ := hc
    obtain ⟨m1, hm1, ha1⟩ := (hinv.coordIff a mid).mp hma
    obtain ⟨m2, hm2, hb2⟩ := (hinv.coordIff b mid).mp hmb
    have hm12 : m2 = m1 := mem_unique_of_nodup hinv.nodupMids hm2 hm1
    rw [hm12] at hb2
    have hlook : ts.lookupSet mid = some m1 := lookupSet_of_mem hinv.nodupMids hm1
    have hspan1 : m1.Spanned Fg := hspanFg (mid, m1) hm1
    rw [(hget' a b).1 ((hconn_iff a b).mpr ⟨mid, hma, hmb⟩),
      TransformSet.get_eq ts hma hmb hlook,
      MutualSet.get_spec m1 Fg hspan1 ha1 hb2]
  · push_neg at hc
    have hnconn : ¬ Conn fl a b := by
      intro hconn
      obtain ⟨mid, h1, h2⟩ := (hconn_iff a b).mp hconn
      exact hc mid h1 h2
    rw [(hget' a b).2 hnconn]
    symm
    rcases hcma : ts.coord_to_mid a with _ | i
    · rw [TransformSet.get, hcma]
      rfl
    · rcases hcmb : ts.coord_to_mid b with _ | j
      · rw [TransformSet.get, hcma, hcmb]
        rfl
      · have hij : ¬ i = j := fun he => hc i hcma (he ▸ hcmb)
        rw [TransformSet.get, hcma, hcmb]
        simp only [Option.bind_eq_bind, Option.some_bind]
        rw [if_pos hij]

theorem Conn_of_perm {l l' : List (CoordTransform G)} (hp : l.Perm l') {a b : String} :
    Conn l a b ↔ Conn l' a b := by
  constructor
  · rintro ⟨hrtg, y, hy⟩
    exact ⟨Relation.ReflTransGen.mono (fun x y h => (EdgeRel_of_perm hp).mp h) hrtg,
      y, (EdgeRel_of_perm hp).mp hy⟩
  · rintro ⟨hrtg, y, hy⟩
    exact ⟨Relation.ReflTransGen.mono (fun x y h => (EdgeRel_of_perm hp).mpr h) hrtg,
      y, (EdgeRel_of_perm hp).mpr hy⟩

/-- A successful insert of a proper fact answers it (and its inverse)
immediately. -/
theorem insert_ok_gets {ts ts' : TransformSet G} (hinv : TSInv ts) {s d : String} {t : G}
    (hne : s ≠ d) (h : ts.insert s d t = some (.ok (), ts')) :
    ts'.get s d = some t ∧ ts'.get d s = some t⁻¹ := by
  rcases hs : ts.coord_to_mid s with _ | m1 <;> rcases hd : ts.coord_to_mid d with _ | m2
  · obtain ⟨ts'', heq, _, _, _, _, _, hgets⟩ := TransformSet.insert_both_new ts hinv hs hd t
    rw [heq] at h
    have hts : ts'' = ts' := by simpa using h
    exact hts ▸ hgets hne
  · obtain ⟨ts'', heq, _, _, _, _, g1, g2⟩ := TransformSet.insert_dst_known ts hinv hs hd t
    rw [heq] at h
    have hts : ts'' = ts' := by simpa using h
    exact hts ▸ ⟨g1, g2⟩
  · obtain ⟨ts'', heq, _, _, _, _, g1, g2⟩ := TransformSet.insert_src_known ts hinv hs hd t
    rw [heq] at h
    have hts : ts'' = ts' := by simpa using h
    exact hts ▸ ⟨g1, g2⟩
  · by_cases hm : m1 = m2
    · subst hm
      obtain ⟨mset, f, hlook, hspan, hs', hd', heq⟩ :=
        TransformSet.insert_same_mid ts hinv hs hd t
      rw [heq] at h
      by_cases hc : t = f s * (f d)⁻¹
      · rw [if_pos hc] at h
        have hts : ts = ts' := by simpa using h
        subst hts
        constructor
        · rw [TransformSet.get_eq ts hs hd hlook,
            MutualSet.get_spec mset f hspan hs' hd', ← hc]
        · rw [TransformSet.get_eq ts hd hs hlook,
            MutualSet.get_spec mset f hspan hd' hs', hc]
          congr 1
          group
      · rw [if_neg hc] at h
        simp at h
    · obtain ⟨ts'', heq, _, _, _, _, g1, g2, _⟩ :=
        TransformSet.insert_diff_mid ts hinv hs hd hm t
      rw [heq] at h
      have hts : ts'' = ts' := by simpa using h
      exact hts ▸ ⟨g1, g2⟩

/-! ## Claim theorems -/

/-- C1 (code bug). The claim: a fact list that asserts the same frame pair
twice with differing values makes the bulk build fail with an inconsistency
error and produces no index. Actual behaviour of the code: the duplicated
ordered pair overwrites the adjacency entry, the BFS keeps a single tree
edge, and the build silently succeeds with only the last value retained. -/
theorem duplicate_pair_build_succeeds :
    ∃ ts : TransformSet Gw,
      tryFromIter [⟨"a", "b", gw 1⟩, ⟨"a", "b", gw 2⟩] = some (.ok ts) ∧
      ts.get "a" "b" = some (gw 2) := ⟨_, rfl, rfl⟩

/-- C2 (code bug). The claim: a fact with `src == dst` and a non-identity
transform always fails, for bulk build and single insert alike. Actual
behaviour of the code on a single insert with both frames unknown: the
fact is accepted, the frame is registered as a fresh singleton group, and
the non-identity transform is silently discarded (`get` answers the
identity). -/
theorem fresh_selfloop_insert_accepted :
    ∃ ts : TransformSet Gw,
      TransformSet.new.insert "a" "a" (gw 7) = some (.ok (), ts) ∧
      ts.get "a" "a" = some (gw 0) ∧ ts.contains_coord "a" = true :=
  ⟨_, rfl, rfl, rfl⟩

/-- C3 (counterexample). A singleton group answers `get a a` but exports no
facts, so rebuilding from the exported list loses the query: the round
trip as claimed fails on an index holding a singleton group. -/
theorem selfloop_export_drops_query :
    ∃ ts : TransformSet Gw,
      TransformSet.new.insert "a" "a" (gw 0) = some (.ok (), ts) ∧
      ts.get "a" "a" = some 1 ∧
      ts.toFacts = some [] ∧
      ∃ ts2 : TransformSet Gw,
        tryFromIter ([] : List (CoordTransform Gw)) = some (.ok ts2) ∧
        ts2.get "a" "a" = none :=
  ⟨_, rfl, rfl, rfl, _, rfl, rfl⟩

/-- C3 (amended). Exporting an index to its fact list and rebuilding from
exactly that list reproduces every `get` answer — absent iff originally
absent, equal when present — provided no group of the index is a
singleton (the counterexample shows the unrestricted claim is false). -/
theorem export_rebuild_preserves_get (ts : TransformSet G) (hinv : TSInv ts)
    (hbig : ∀ e ∈ ts.mid_to_set, e.2.coords = [] ∨ 2 ≤ e.2.coords.length) :
    ∃ fl ts', ts.toFacts = some fl ∧ tryFromIter fl = some (.ok ts') ∧
      ∀ a b, ts'.get a b = ts.get a b :=
  toFacts_roundTrip ts hinv hbig

/-- Witness for C3 (amended) at a concrete one-group index. -/
theorem export_rebuild_preserves_get_witness :
    TSInv (⟨1, cmUpdate "b" 0 (cmUpdate "a" 0 (fun _ => none)),
      [(0, ⟨[("a", [gw 1]), ("b", [])]⟩)]⟩ : TransformSet Gw) ∧
    (∀ e ∈ (⟨1, cmUpdate "b" 0 (cmUpdate "a" 0 (fun _ => none)),
        [(0, ⟨[("a", [gw 1]), ("b", [])]⟩)]⟩ : TransformSet Gw).mid_to_set,
      e.2.coords = [] ∨ 2 ≤ e.2.coords.length) ∧
    ∃ fl ts', (⟨1, cmUpdate "b" 0 (cmUpdate "a" 0 (fun _ => none)),
        [(0, ⟨[("a", [gw 1]), ("b", [])]⟩)]⟩ : TransformSet Gw).toFacts = some fl ∧
      tryFromIter fl = some (.ok ts') ∧
      ∀ a b, ts'.get a b = (⟨1, cmUpdate "b" 0 (cmUpdate "a" 0 (fun _ => none)),
        [(0, ⟨[("a", [gw 1]), ("b", [])]⟩)]⟩ : TransformSet Gw).get a b :=
  ⟨TransformSet.insert_ok_inv TransformSet.new_inv
      (show (TransformSet.new : TransformSet Gw).insert "a" "b" (gw 1) = some (.ok (),
        (⟨1, cmUpdate "b" 0 (cmUpdate "a" 0 (fun _ => none)),
          [(0, ⟨[("a", [gw 1]), ("b", [])]⟩)]⟩ : TransformSet Gw)) from rfl),
    by decide,
    export_rebuild_preserves_get _
      (TransformSet.insert_ok_inv TransformSet.new_inv
        (show (TransformSet.new : TransformSet Gw).insert "a" "b" (gw 1) = some (.ok (),
          (⟨1, cmUpdate "b" 0 (cmUpdate "a" 0 (fun _ => none)),
            [(0, ⟨[("a", [gw 1]), ("b", [])]⟩)]⟩ : TransformSet Gw)) from rfl))
      (by decide)⟩

/-- C4 (confirmed). A rejected insert returns the state it was given,
unchanged: every query, membership test and export answers exactly as
before the call. -/
theorem rejected_insert_leaves_state_unchanged {ts ts' : TransformSet G}
    (hre : Reachable ts) {s d : String} {t : G} {e : InsertionError G}
    (h : ts.insert s d t = some (.error e, ts')) :
    ts' = ts ∧ (∀ a b, ts'.get a b = ts.get a b) ∧
      (∀ c, ts'.contains_coord c = ts.contains_coord c) ∧
      ts'.toFacts = ts.toFacts := by
  have heq := TransformSet.insert_error_eq (Reachable_inv hre) h
  subst heq
  exact ⟨rfl, fun _ _ => rfl, fun _ => rfl, rfl⟩

/-- Witness for C4 at a concrete rejected insert. -/
theorem rejected_insert_leaves_state_unchanged_witness :
    Reachable (⟨1, cmUpdate "b" 0 (cmUpdate "a" 0 (fun _ => none)),
      [(0, ⟨[("a", [gw 1]), ("b", [])]⟩)]⟩ : TransformSet Gw) ∧
    (⟨1, cmUpdate "b" 0 (cmUpdate "a" 0 (fun _ => none)),
      [(0, ⟨[("a", [gw 1]), ("b", [])]⟩)]⟩ : TransformSet Gw).insert "a" "b" (gw 2)
      = some (.error (.inconsistentTransform (gw 1) (gw 2)),
        (⟨1, cmUpdate "b" 0 (cmUpdate "a" 0 (fun _ => none)),
          [(0, ⟨[("a", [gw 1]), ("b", [])]⟩)]⟩ : TransformSet Gw)) ∧
    ((⟨1, cmUpdate "b" 0 (cmUpdate "a" 0 (fun _ => none)),
        [(0, ⟨[("a", [gw 1]), ("b", [])]⟩)]⟩ : TransformSet Gw)
      = (⟨1, cmUpdate "b" 0 (cmUpdate "a" 0 (fun _ => none)),
        [(0, ⟨[("a", [gw 1]), ("b", [])]⟩)]⟩ : TransformSet Gw)) :=
  ⟨Reachable.insert_ok Reachable.new
      (show (TransformSet.new : TransformSet Gw).insert "a" "b" (gw 1) = some (.ok (),
        (⟨1, cmUpdate "b" 0 (cmUpdate "a" 0 (fun _ => none)),
          [(0, ⟨[("a", [gw 1]), ("b", [])]⟩)]⟩ : TransformSet Gw)) from rfl),
    rfl,
    (rejected_insert_leaves_state_unchanged
      (Reachable.insert_ok Reachable.new
        (show (TransformSet.new : TransformSet Gw).insert "a" "b" (gw 1) = some (.ok (),
          (⟨1, cmUpdate "b" 0 (cmUpdate "a" 0 (fun _ => none)),
            [(0, ⟨[("a", [gw 1]), ("b", [])]⟩)]⟩ : TransformSet Gw)) from rfl))
      (show (⟨1, cmUpdate "b" 0 (cmUpdate "a" 0 (fun _ => none)),
          [(0, ⟨[("a", [gw 1]), ("b", [])]⟩)]⟩ : TransformSet Gw).insert "a" "b" (gw 2)
        = some (.error (.inconsistentTransform (gw 1) (gw 2)),
          (⟨1, cmUpdate "b" 0 (cmUpdate "a" 0 (fun _ => none)),
            [(0, ⟨[("a", [gw 1]), ("b", [])]⟩)]⟩ : TransformSet Gw)) from rfl)).1⟩

/-- C5 (confirmed). In every reachable state, every group's level table has
an entry `L[p][k]` exactly while `p + 2^k` is a valid position, and for
`k ≥ 1` the entry is the composition of the two halves below it (the
telescoping invariant). -/
theorem level_table_shape_and_telescoping {ts : TransformSet G} (h : Reachable ts) :
    ∀ e ∈ ts.mid_to_set,
      (∀ p k, (getByPow e.2.lookup p k).isSome = true ↔
        p + 2 ^ k < e.2.lookup.length) ∧
      (∀ p k, 1 ≤ k → p + 2 ^ k < e.2.lookup.length →
        ∃ t1 t2, getByPow e.2.lookup p (k - 1) = some t1 ∧
          getByPow e.2.lookup (p + 2 ^ (k - 1)) (k - 1) = some t2 ∧
          getByPow e.2.lookup p k = some (t1 * t2)) := by
  intro e he
  obtain ⟨f, hf⟩ := (Reachable_inv h).spanned e he
  obtain ⟨hnd, hpos⟩ := hf
  constructor
  · intro p k
    rw [hpos p k]
    by_cases hc : p + 2 ^ k < e.2.lookup.length
    · rw [if_pos hc]
      simp [hc]
    · rw [if_neg hc]
      simp [hc]
  · intro p k hk hplen
    obtain ⟨d, hd⟩ : ∃ d, d = 2 ^ (k - 1) := ⟨_, rfl⟩
    have hsplit : 2 ^ (k - 1) + 2 ^ (k - 1) = 2 ^ k := by
      have h2 : 2 ^ (k - 1) * 2 = 2 ^ (k - 1 + 1) := (pow_succ 2 (k - 1)).symm
      have hke : k - 1 + 1 = k := by omega
      rw [hke] at h2
      omega
    have hdd : p + (d + d) < e.2.lookup.length := by
      rw [hd, hsplit]
      exact hplen
    have hle : p + 2 ^ (k - 1) < e.2.lookup.length := by
      rw [← hd]
      omega
    have hle2 : p + 2 ^ (k - 1) + 2 ^ (k - 1) < e.2.lookup.length := by
      rw [← hd]
      omega
    refine ⟨f (keyD e.2.lookup p) * (f (keyD e.2.lookup (p + 2 ^ (k - 1))))⁻¹,
      f (keyD e.2.lookup (p + 2 ^ (k - 1))) *
        (f (keyD e.2.lookup (p + 2 ^ (k - 1) + 2 ^ (k - 1))))⁻¹, ?_, ?_, ?_⟩
    · rw [hpos p (k - 1), if_pos hle]
    · rw [hpos (p + 2 ^ (k - 1)) (k - 1), if_pos hle2]
    · rw [hpos p k, if_pos hplen]
      have harr : p + 2 ^ (k - 1) + 2 ^ (k - 1) = p + 2 ^ k := by
        rw [← hsplit, ← hd]
        omega
      rw [harr]
      congr 1
      group

/-- Witness for C5 at a concrete reachable one-group state. -/
theorem level_table_shape_and_telescoping_witness :
    Reachable (⟨1, cmUpdate "b" 0 (cmUpdate "a" 0 (fun _ => none)),
      [(0, ⟨[("a", [gw 1]), ("b", [])]⟩)]⟩ : TransformSet Gw) ∧
    ∀ e ∈ (⟨1, cmUpdate "b" 0 (cmUpdate "a" 0 (fun _ => none)),
        [(0, ⟨[("a", [gw 1]), ("b", [])]⟩)]⟩ : TransformSet Gw).mid_to_set,
      (∀ p k, (getByPow e.2.lookup p k).isSome = true ↔
        p + 2 ^ k < e.2.lookup.length) ∧
      (∀ p k, 1 ≤ k → p + 2 ^ k < e.2.lookup.length →
        ∃ t1 t2, getByPow e.2.lookup p (k - 1) = some t1 ∧
          getByPow e.2.lookup (p + 2 ^ (k - 1)) (k - 1) = some t2 ∧
          getByPow e.2.lookup p k = some (t1 * t2)) :=
  ⟨Reachable.insert_ok Reachable.new
      (show (TransformSet.new : TransformSet Gw).insert "a" "b" (gw 1) = some (.ok (),
        (⟨1, cmUpdate "b" 0 (cmUpdate "a" 0 (fun _ => none)),
          [(0, ⟨[("a", [gw 1]), ("b", [])]⟩)]⟩ : TransformSet Gw)) from rfl),
    level_table_shape_and_telescoping
      (Reachable.insert_ok Reachable.new
        (show (TransformSet.new : TransformSet Gw).insert "a" "b" (gw 1) = some (.ok (),
          (⟨1, cmUpdate "b" 0 (cmUpdate "a" 0 (fun _ => none)),
            [(0, ⟨[("a", [gw 1]), ("b", [])]⟩)]⟩ : TransformSet Gw)) from rfl))⟩

/-- C6 (confirmed). Merging two disjoint groups by inserting a bridging
fact succeeds, the bridged query is the composite of the three pieces, and
every frame of either group ends under the single fresh group id. -/
theorem merge_scenario_get_product {ts : TransformSet G} (hre : Reachable ts)
    {map car lidar1 lidar2 : String} {i j : Nat}
    (hmap : ts.coord_to_mid map = some i) (hcar : ts.coord_to_mid car = some i)
    (hl1 : ts.coord_to_mid lidar1 = some j) (hl2 : ts.coord_to_mid lidar2 = some j)
    (hij : i ≠ j) (T : G) :
    ∃ ts' v1 v2, ts.insert car lidar1 T = some (.ok (), ts') ∧
      ts.get map car = some v1 ∧ ts.get lidar1 lidar2 = some v2 ∧
      ts'.get map lidar2 = some (v1 * T * v2) ∧
      (∀ x, (ts.coord_to_mid x = some i ∨ ts.coord_to_mid x = some j) ↔
        ts'.coord_to_mid x = some ts.mid) := by
  have hinv := Reachable_inv hre
  obtain ⟨ts', hins, hinv', hmid, hroute, hkeep, hg1, hg2, f', hmerged, hold1, hold2⟩ :=
    TransformSet.insert_diff_mid ts hinv hcar hl1 hij T
  refine ⟨ts', f' map * (f' car)⁻¹, f' lidar1 * (f' lidar2)⁻¹, hins,
    hold1 map car hmap hcar, hold2 lidar1 lidar2 hl1 hl2, ?_, hroute⟩
  have hcmap : ts'.coord_to_mid map = some ts.mid := (hroute map).mp (Or.inl hmap)
  have hclid2 : ts'.coord_to_mid lidar2 = some ts.mid := (hroute lidar2).mp (Or.inr hl2)
  have hccar : ts'.coord_to_mid car = some ts.mid := (hroute car).mp (Or.inl hcar)
  have hclid1 : ts'.coord_to_mid lidar1 = some ts.mid := (hroute lidar1).mp (Or.inr hl1)
  have hT : T = f' car * (f' lidar1)⁻¹ :=
    Option.some_inj.mp (hg1.symm.trans (hmerged car lidar1 hccar hclid1))
  rw [hmerged map lidar2 hcmap hclid2, hT]
  congr 1
  group

/-- Witness for C6 at a concrete two-group state. -/
theorem merge_scenario_get_product_witness :
    Reachable (⟨2, cmUpdate "lidar2" 1 (cmUpdate "lidar1" 1
        (cmUpdate "car" 0 (cmUpdate "map" 0 (fun _ => none)))),
      [(0, ⟨[("map", [gw 2]), ("car", [])]⟩),
       (1, ⟨[("lidar1", [gw 3]), ("lidar2", [])]⟩)]⟩ : TransformSet Gw) ∧
    (0 : Nat) ≠ 1 ∧
    ∃ ts' v1 v2,
      (⟨2, cmUpdate "lidar2" 1 (cmUpdate "lidar1" 1
          (cmUpdate "car" 0 (cmUpdate "map" 0 (fun _ => none)))),
        [(0, ⟨[("map", [gw 2]), ("car", [])]⟩),
         (1, ⟨[("lidar1", [gw 3]), ("lidar2", [])]⟩)]⟩ : TransformSet Gw).insert
        "car" "lidar1" (gw 10) = some (.ok (), ts') ∧
      (⟨2, cmUpdate "lidar2" 1 (cmUpdate "lidar1" 1
          (cmUpdate "car" 0 (cmUpdate "map" 0 (fun _ => none)))),
        [(0, ⟨[("map", [gw 2]), ("car", [])]⟩),
         (1, ⟨[("lidar1", [gw 3]), ("lidar2", [])]⟩)]⟩ : TransformSet Gw).get
        "map" "car" = some v1 ∧
      (⟨2, cmUpdate "lidar2" 1 (cmUpdate "lidar1" 1
          (cmUpdate "car" 0 (cmUpdate "map" 0 (fun _ => none)))),
        [(0, ⟨[("map", [gw 2]), ("car", [])]⟩),
         (1, ⟨[("lidar1", [gw 3]), ("lidar2", [])]⟩)]⟩ : TransformSet Gw).get
        "lidar1" "lidar2" = some v2 ∧
      ts'.get "map" "lidar2" = some (v1 * gw 10 * v2) ∧
      (∀ x, ((⟨2, cmUpdate "lidar2" 1 (cmUpdate "lidar1" 1
            (cmUpdate "car" 0 (cmUpdate "map" 0 (fun _ => none)))),
          [(0, ⟨[("map", [gw 2]), ("car", [])]⟩),
           (1, ⟨[("lidar1", [gw 3]), ("lidar2", [])]⟩)]⟩ : TransformSet Gw).coord_to_mid
            x = some 0 ∨
          (⟨2, cmUpdate "lidar2" 1 (cmUpdate "lidar1" 1
              (cmUpdate "car" 0 (cmUpdate "map" 0 (fun _ => none)))),
            [(0, ⟨[("map", [gw 2]), ("car", [])]⟩),
             (1, ⟨[("lidar1", [gw 3]), ("lidar2", [])]⟩)]⟩ : TransformSet Gw).coord_to_mid
            x = some 1) ↔
        ts'.coord_to_mid x = some 2) :=
  ⟨Reachable.insert_ok
      (Reachable.insert_ok Reachable.new
        (show (TransformSet.new : TransformSet Gw).insert "map" "car" (gw 2)
          = some (.ok (), (⟨1, cmUpdate "car" 0 (cmUpdate "map" 0 (fun _ => none)),
            [(0, ⟨[("map", [gw 2]), ("car", [])]⟩)]⟩ : TransformSet Gw)) from rfl))
      (show (⟨1, cmUpdate "car" 0 (cmUpdate "map" 0 (fun _ => none)),
          [(0, ⟨[("map", [gw 2]), ("car", [])]⟩)]⟩ : TransformSet Gw).insert
          "lidar1" "lidar2" (gw 3) = some (.ok (),
          (⟨2, cmUpdate "lidar2" 1 (cmUpdate "lidar1" 1
              (cmUpdate "car" 0 (cmUpdate "map" 0 (fun _ => none)))),
            [(0, ⟨[("map", [gw 2]), ("car", [])]⟩),
             (1, ⟨[("lidar1", [gw 3]), ("lidar2", [])]⟩)]⟩ : TransformSet Gw)) from rfl),
    by decide,
    merge_scenario_get_product
      (Reachable.insert_ok
        (Reachable.insert_ok Reachable.new
          (show (TransformSet.new : TransformSet Gw).insert "map" "car" (gw 2)
            = some (.ok (), (⟨1, cmUpdate "car" 0 (cmUpdate "map" 0 (fun _ => none)),
              [(0, ⟨[("map", [gw 2]), ("car", [])]⟩)]⟩ : TransformSet Gw)) from rfl))
        (show (⟨1, cmUpdate "car" 0 (cmUpdate "map" 0 (fun _ => none)),
            [(0, ⟨[("map", [gw 2]), ("car", [])]⟩)]⟩ : TransformSet Gw).insert
            "lidar1" "lidar2" (gw 3) = some (.ok (),
            (⟨2, cmUpdate "lidar2" 1 (cmUpdate "lidar1" 1
                (cmUpdate "car" 0 (cmUpdate "map" 0 (fun _ => none)))),
              [(0, ⟨[("map", [gw 2]), ("car", [])]⟩),
               (1, ⟨[("lidar1", [gw 3]), ("lidar2", [])]⟩)]⟩ : TransformSet Gw)) from rfl))
      (show (⟨2, cmUpdate "lidar2" 1 (cmUpdate "lidar1" 1
            (cmUpdate "car" 0 (cmUpdate "map" 0 (fun _ => none)))),
          [(0, ⟨[("map", [gw 2]), ("car", [])]⟩),
           (1, ⟨[("lidar1", [gw 3]), ("lidar2", [])]⟩)]⟩ : TransformSet Gw).coord_to_mid
          "map" = some 0 from rfl)
      (show (⟨2, cmUpdate "lidar2" 1 (cmUpdate "lidar1" 1
            (cmUpdate "car" 0 (cmUpdate "map" 0 (fun _ => none)))),
          [(0, ⟨[("map", [gw 2]), ("car", [])]⟩),
           (1, ⟨[("lidar1", [gw 3]), ("lidar2", [])]⟩)]⟩ : TransformSet Gw).coord_to_mid
          "car" = some 0 from rfl)
      (show (⟨2, cmUpdate "lidar2" 1 (cmUpdate "lidar1" 1
            (cmUpdate "car" 0 (cmUpdate "map" 0 (fun _ => none)))),
          [(0, ⟨[("map", [gw 2]), ("car", [])]⟩),
           (1, ⟨[("lidar1", [gw 3]), ("lidar2", [])]⟩)]⟩ : TransformSet Gw).coord_to_mid
          "lidar1" = some 1 from rfl)
      (show (⟨2, cmUpdate "lidar2" 1 (cmUpdate "lidar1" 1
            (cmUpdate "car" 0 (cmUpdate "map" 0 (fun _ => none)))),
          [(0, ⟨[("map", [gw 2]), ("car", [])]⟩),
           (1, ⟨[("lidar1", [gw 3]), ("lidar2", [])]⟩)]⟩ : TransformSet Gw).coord_to_mid
          "lidar2" = some 1 from rfl)
      (by decide) (gw 10)⟩

/-- C7 (confirmed). Building from any permutation of a consistent fact list
succeeds on both orders and the two indexes agree on every query. -/
theorem build_order_independent (F : String → G) {l l' : List (CoordTransform G)}
    (hcons : ConsistentWith F l) (hperm : l.Perm l') :
    ∃ ts ts', tryFromIter l = some (.ok ts) ∧ tryFromIter l' = some (.ok ts') ∧
      ∀ a b, ts.get a b = ts'.get a b := by
  have hcons' : ConsistentWith F l' := fun c hc => hcons c (hperm.mem_iff.mpr hc)
  obtain ⟨ts, hrun, hget⟩ := tryFromIter_consistent F hcons
  obtain ⟨ts', hrun', hget'⟩ := tryFromIter_consistent F hcons'
  refine ⟨ts, ts', hrun, hrun', ?_⟩
  intro a b
  by_cases hc : Conn l a b
  · rw [(hget a b).1 hc, (hget' a b).1 ((Conn_of_perm hperm).mp hc)]
  · rw [(hget a b).2 hc, (hget' a b).2 (fun hc' => hc ((Conn_of_perm hperm).mpr hc'))]

/-- Witness for C7 on a two-fact list and its swap. -/
theorem build_order_independent_witness :
    ConsistentWith (fun x => if x = "a" then gw 3 else if x = "b" then gw 2 else gw 0)
      [⟨"a", "b", gw 1⟩, ⟨"b", "c", gw 2⟩] ∧
    List.Perm [⟨"a", "b", gw 1⟩, ⟨"b", "c", gw 2⟩]
      [(⟨"b", "c", gw 2⟩ : CoordTransform Gw), ⟨"a", "b", gw 1⟩] ∧
    ∃ ts ts', tryFromIter [⟨"a", "b", gw 1⟩, ⟨"b", "c", gw 2⟩] = some (.ok ts) ∧
      tryFromIter [(⟨"b", "c", gw 2⟩ : CoordTransform Gw), ⟨"a", "b", gw 1⟩]
        = some (.ok ts') ∧
      ∀ a b, ts.get a b = ts'.get a b :=
  ⟨by
      intro c hc
      rcases List.mem_cons.mp hc with rfl | hc
      · decide
      · rcases List.mem_cons.mp hc with rfl | hc
        · decide
        · simp at hc,
    by decide,
    build_order_independent
      (fun x => if x = "a" then gw 3 else if x = "b" then gw 2 else gw 0)
      (by
        intro c hc
        rcases List.mem_cons.mp hc with rfl | hc
        · decide
        · rcases List.mem_cons.mp hc with rfl | hc
          · decide
          · simp at hc)
      (by decide)⟩

/-- C8 (confirmed). `get` answers an explicit `none` whenever either frame
is unknown to the frame-to-group map or the two frames belong to different
groups; no query crosses a group boundary. -/
theorem get_unknown_or_cross_group_is_none (ts : TransformSet G) (a b : String)
    (h : ts.coord_to_mid a = none ∨ ts.coord_to_mid b = none ∨
      ∃ i j, ts.coord_to_mid a = some i ∧ ts.coord_to_mid b = some j ∧ i ≠ j) :
    ts.get a b = none := by
  rcases h with h | h | ⟨i, j, hi, hj, hij⟩
  · rw [TransformSet.get, h]
    rfl
  · rcases hcma : ts.coord_to_mid a with _ | i
    · rw [TransformSet.get, hcma]
      rfl
    · rw [TransformSet.get, hcma, h]
      rfl
  · rw [TransformSet.get, hi, hj]
    simp only [Option.bind_eq_bind, Option.some_bind]
    rw [if_pos hij]

/-- Witness for C8: unknown frame and cross-group query at a concrete
state. -/
theorem get_unknown_or_cross_group_is_none_witness :
    ((⟨1, cmUpdate "b" 0 (cmUpdate "a" 0 (fun _ => none)),
        [(0, ⟨[("a", [gw 1]), ("b", [])]⟩)]⟩ : TransformSet Gw).coord_to_mid "c"
      = none) ∧
    (⟨1, cmUpdate "b" 0 (cmUpdate "a" 0 (fun _ => none)),
      [(0, ⟨[("a", [gw 1]), ("b", [])]⟩)]⟩ : TransformSet Gw).get "c" "a" = none :=
  ⟨rfl,
    get_unknown_or_cross_group_is_none
      (⟨1, cmUpdate "b" 0 (cmUpdate "a" 0 (fun _ => none)),
        [(0, ⟨[("a", [gw 1]), ("b", [])]⟩)]⟩ : TransformSet Gw) "c" "a" (Or.inl rfl)⟩

/-- C9 (confirmed). After every successful insert of a proper fact on a
reachable index, the fact is immediately derivable back: `get src dst`
answers the inserted transform and `get dst src` its inverse. -/
theorem insert_fact_immediately_derivable {ts ts' : TransformSet G}
    (hre : Reachable ts) {s d : String} {t : G} (hne : s ≠ d)
    (h : ts.insert s d t = some (.ok (), ts')) :
    ts'.get s d = some t ∧ ts'.get d s = some t⁻¹ :=
  insert_ok_gets (Reachable_inv hre) hne h

/-- Witness for C9 at a concrete insert on the fresh index. -/
theorem insert_fact_immediately_derivable_witness :
    ("a" : String) ≠ "b" ∧
    (TransformSet.new : TransformSet Gw).insert "a" "b" (gw 5) = some (.ok (),
      (⟨1, cmUpdate "b" 0 (cmUpdate "a" 0 (fun _ => none)),
        [(0, ⟨[("a", [gw 5]), ("b", [])]⟩)]⟩ : TransformSet Gw)) ∧
    (⟨1, cmUpdate "b" 0 (cmUpdate "a" 0 (fun _ => none)),
      [(0, ⟨[("a", [gw 5]), ("b", [])]⟩)]⟩ : TransformSet Gw).get "a" "b"
      = some (gw 5) ∧
    (⟨1, cmUpdate "b" 0 (cmUpdate "a" 0 (fun _ => none)),
      [(0, ⟨[("a", [gw 5]), ("b", [])]⟩)]⟩ : TransformSet Gw).get "b" "a"
      = some (gw 5)⁻¹ :=
  ⟨by decide, rfl,
    insert_fact_immediately_derivable Reachable.new (by decide)
      (show (TransformSet.new : TransformSet Gw).insert "a" "b" (gw 5) = some (.ok (),
        (⟨1, cmUpdate "b" 0 (cmUpdate "a" 0 (fun _ => none)),
          [(0, ⟨[("a", [gw 5]), ("b", [])]⟩)]⟩ : TransformSet Gw)) from rfl)⟩

/-- C10 (confirmed). For two frames registered in the same group of a
reachable index, `get` answers (every internal lookup on the query path
succeeds), and each position's level list has an entry for level `k`
exactly while `p + 2^k` is a valid position of the group. -/
theorem same_group_get_total {ts : TransformSet G} (h : Reachable ts) {a b : String}
    {mid : Nat} (ha : ts.coord_to_mid a = some mid) (hb : ts.coord_to_mid b = some mid) :
    (ts.get a b).isSome = true ∧
    ∀ mset, (mid, mset) ∈ ts.mid_to_set →
      ∀ p e', mset.lookup.get? p = some e' →
        ∀ k, (k < e'.2.length ↔ p + 2 ^ k < mset.lookup.length) := by
  have hinv := Reachable_inv h
  obtain ⟨m1, hm1, ha1⟩ := (hinv.coordIff a mid).mp ha
  obtain ⟨m2, hm2, hb2⟩ := (hinv.coordIff b mid).mp hb
  have hm12 : m2 = m1 := mem_unique_of_nodup hinv.nodupMids hm2 hm1
  rw [hm12] at hb2
  obtain ⟨f, hspan⟩ := hinv.spanned (mid, m1) hm1
  constructor
  · rw [TransformSet.get_eq ts ha hb (lookupSet_of_mem hinv.nodupMids hm1),
      MutualSet.get_spec m1 f hspan ha1 hb2]
    rfl
  · intro mset hmset p e' hget k
    obtain ⟨f2, hf2⟩ := hinv.spanned (mid, mset) hmset
    obtain ⟨hnd2, hpos2⟩ := hf2
    have hpk := hpos2 p k
    rw [getByPow, hget] at hpk
    simp only [Option.some_bind] at hpk
    constructor
    · intro hk
      by_contra hc
      rw [if_neg hc] at hpk
      rw [List.get?_eq_get hk] at hpk
      exact Option.noConfusion hpk
    · intro hcond
      rw [if_pos hcond] at hpk
      obtain ⟨hk, _⟩ := List.get?_eq_some.mp hpk
      exact hk

/-- Witness for C10 at a concrete same-group pair. -/
theorem same_group_get_total_witness :
    ((⟨1, cmUpdate "b" 0 (cmUpdate "a" 0 (fun _ => none)),
        [(0, ⟨[("a", [gw 1]), ("b", [])]⟩)]⟩ : TransformSet Gw).coord_to_mid "a"
      = some 0) ∧
    ((⟨1, cmUpdate "b" 0 (cmUpdate "a" 0 (fun _ => none)),
        [(0, ⟨[("a", [gw 1]), ("b", [])]⟩)]⟩ : TransformSet Gw).coord_to_mid "b"
      = some 0) ∧
    ((⟨1, cmUpdate "b" 0 (cmUpdate "a" 0 (fun _ => none)),
        [(0, ⟨[("a", [gw 1]), ("b", [])]⟩)]⟩ : TransformSet Gw).get "a" "b").isSome
      = true :=
  ⟨rfl, rfl,
    (same_group_get_total
      (Reachable.insert_ok Reachable.new
        (show (TransformSet.new : TransformSet Gw).insert "a" "b" (gw 1) = some (.ok (),
          (⟨1, cmUpdate "b" 0 (cmUpdate "a" 0 (fun _ => none)),
            [(0, ⟨[("a", [gw 1]), ("b", [])]⟩)]⟩ : TransformSet Gw)) from rfl))
      (show (⟨1, cmUpdate "b" 0 (cmUpdate "a" 0 (fun _ => none)),
          [(0, ⟨[("a", [gw 1]), ("b", [])]⟩)]⟩ : TransformSet Gw).coord_to_mid "a"
        = some 0 from rfl)
      (show (⟨1, cmUpdate "b" 0 (cmUpdate "a" 0 (fun _ => none)),
          [(0, ⟨[("a", [gw 1]), ("b", [])]⟩)]⟩ : TransformSet Gw).coord_to_mid "b"
        = some 0 from rfl)).1⟩

end Tftk
